import Mathlib

/-!
Aurora: bytecode compiler and register VM.

A shallow embedding of `compiler.go`, `vm.go` and the node types of `ast.go`.

* Go's `int` is modelled by `Int`: code lengths, offsets and program counters stay far below
  `2^63`, so no 64-bit operation wraps. `byte`, `uint8` and `uint16` values are natural
  numbers and every conversion to them is written as an explicit `% 256` or `% 65536`.
* The package-level `currentChunk` and the `*AuroraVM` receiver become an explicit state that
  is threaded through the `Exec` monad.
* A Go panic stops the computation; the state reached at that moment is kept in the result.
-/

namespace Aurora

/-! ## Panics and the execution monad -/

/-- The ways in which the embedded Go code can panic. -/
inductive Panic where
  /-- An explicit `panic("...")` with its message. -/
  | explicit (msg : String)
  /-- Slice or array index out of range. -/
  | indexOutOfRange
  /-- Dereference of a nil pointer. -/
  | nilDereference
  /-- A failed type assertion `x.(T)`. -/
  | typeAssertion
  /-- Comparison of interface values whose dynamic type is not comparable. -/
  | uncomparable
  /-- Not a Go panic: the bound that the model puts on the iterations of a loop or on the
  depth of a recursion was reached before the code returned. -/
  | outOfFuel
  deriving DecidableEq, Repr

/-- Outcome of running imperative code from a state: a normal return with a value, or a panic;
both carry the state that was reached. -/
inductive Res (σ α : Type) where
  | ok (a : α) (s : σ)
  | panic (p : Panic) (s : σ)

/-- The state carried by an outcome. -/
def Res.state {σ α : Type} : Res σ α → σ
  | .ok _ s => s
  | .panic _ s => s

/-- The panic of an outcome, if it is one. -/
def Res.failure {σ α : Type} : Res σ α → Option Panic
  | .ok _ _ => none
  | .panic p _ => some p

/-- The returned value of an outcome, if it returned. -/
def Res.value {σ α : Type} : Res σ α → Option α
  | .ok a _ => some a
  | .panic _ _ => none

/-- Imperative code over a state `σ` that returns an `α` or panics. -/
def Exec (σ α : Type) : Type := σ → Res σ α

/-- Sequencing: a panic in the first part skips the rest. -/
def Exec.bind {σ α β : Type} (m : Exec σ α) (f : α → Exec σ β) : Exec σ β :=
  fun s => match m s with
    | .ok a s1 => f a s1
    | .panic p s1 => .panic p s1

instance {σ : Type} : Monad (Exec σ) where
  pure a := fun s => .ok a s
  bind := Exec.bind

/-- Read the current state. -/
def getState {σ : Type} : Exec σ σ := fun s => .ok s s

/-- Replace the current state. -/
def putState {σ : Type} (s : σ) : Exec σ Unit := fun _ => .ok () s

/-- Raise a panic in the current state. -/
def raise {σ α : Type} (p : Panic) : Exec σ α := fun s => .panic p s

/-! ## Chunks and opcodes (`vm.go`) -/

/-- The conversion `byte(x)` of a Go `int`. -/
def toByte (x : Int) : Nat := (x % 256).toNat

/-- A `Chunk`: code bytes, line table and constant pool (`V` is the type of constants). -/
structure Chunk (V : Type) where
  code : List Nat
  lines : List Int
  constants : List V

/-- An `Opcode` is a `uint8`. -/
abbrev Opcode := Nat

def OpLoad : Opcode := 0
def OpStore : Opcode := 1
def OpStoreGlobal : Opcode := 2
def OpAdd : Opcode := 3
def OpAddTo : Opcode := 4
def OpSub : Opcode := 5
def OpSubFrom : Opcode := 6
def OpMul : Opcode := 7
def OpDiv : Opcode := 8
def OpMod : Opcode := 9
def OpNeg : Opcode := 10
def OpNot : Opcode := 11
def OpEqual : Opcode := 12
def OpNotEqual : Opcode := 13
def OpLess : Opcode := 14
def OpLessEqual : Opcode := 15
def OpGreater : Opcode := 16
def OpGreaterEqual : Opcode := 17
def OpJump : Opcode := 18
def OpJumpIfFalse : Opcode := 19
def OpJumpIfTrue : Opcode := 20
def OpJumpIfEqual : Opcode := 21
def OpJumpIfNotEqual : Opcode := 22
def OpLoop : Opcode := 23
def OpCall : Opcode := 24
def OpReturn : Opcode := 25
def OpIndex : Opcode := 26
def OpIndexAssign : Opcode := 27

/-! ## The emitters of `compiler.go` -/

section Emit

variable {V : Type}

/-- Code that works on the chunk being compiled (`currentChunk`). -/
abbrev Compile (V α : Type) : Type := Exec (Chunk V) α

/-- Function `beginCompile`: start from an empty chunk. -/
def beginCompile : Compile V Unit :=
  putState { code := [], lines := [], constants := [] }

/-- Function `emitByte`: append one byte to the code. -/
def emitByte (b : Nat) : Compile V Unit :=
  fun c => .ok () { c with code := c.code ++ [b] }

/-- Function `emitOp`: `emitByte(byte(op))`. -/
def emitOp (op : Opcode) : Compile V Unit :=
  emitByte (op % 256)

/-- Function `emitConstant`: `OpLoad`, the pool index as a byte, then the value is appended. -/
def emitConstant (value : V) : Compile V Unit := do
  emitOp OpLoad
  let c ← getState
  emitByte (toByte c.constants.length)
  let c ← getState
  putState { c with constants := c.constants ++ [value] }

/-- Function `emitJump`: opcode and a two-byte placeholder; returns `len(code) - 2`. -/
def emitJump (op : Opcode) : Compile V Int := do
  emitOp op
  emitByte 0xff
  emitByte 0xff
  let c ← getState
  return (c.code.length : Int) - 2

/-- Function `emitLoop`: `OpLoop`, then the distance measured after the opcode was emitted. -/
def emitLoop (start : Int) : Compile V Unit := do
  emitOp OpLoop
  let c ← getState
  let offset : Int := (c.code.length : Int) - start + 2
  if offset > 0xffff then
    raise (Panic.explicit "Loop body too large.")
  else do
    emitByte (toByte (offset >>> (8 : Nat)))
    emitByte (toByte offset)

/-- The assignment `code[i] = b` with a Go `int` index: panics when `i` is out of range. -/
def storeCode (i : Int) (b : Nat) : Compile V Unit :=
  fun c =>
    if 0 ≤ i ∧ i < (c.code.length : Int) then
      .ok () { c with code := c.code.set i.toNat b }
    else
      .panic Panic.indexOutOfRange c

/-- Function `patchJump`: write the distance from the placeholder to the end of the code. -/
def patchJump (offset : Int) : Compile V Unit := do
  let c ← getState
  let jump : Int := (c.code.length : Int) - offset - 2
  if jump > 0xffff then
    raise (Panic.explicit "Too much code to jump over.")
  else do
    storeCode offset (toByte (jump >>> (8 : Nat)))
    storeCode (offset + 1) (toByte jump)

end Emit

/-! ## Syntax tree (`ast.go`) -/

/-- The enumeration `OperatorType`. -/
inductive OperatorType where
  | Plus | Minus | Multiply | Divide | Modulo
  | Equal | NotEqual | Less | LessEqual | Greater | GreaterEqual
  | And | Or | Not
  | Assign | PlusAssign | MinusAssign | MultiplyAssign | DivideAssign
  deriving DecidableEq, Repr

/-- The implementations of the `Node` interface. -/
inductive Node where
  | If (Cond : Node) (Then : List Node) (Else : List Node) (Line : Int)
  | While (Cond : Node) (Body : List Node) (Line : Int)
  | For (Name : String) (In : Node) (Body : List Node) (Line : Int)
  | Func (Name : String) (Args : List String) (Body : List Node) (Line : Int)
  | Sub (Name : String) (Args : List String) (Body : List Node) (Line : Int)
  | Return (Expr : Node) (Line : Int)
  | Break (Line : Int)
  | Continue (Line : Int)
  | FuncCall (Func : Node) (Args : List Node) (Line : Int)
  | Assignment (Left : String) (Right : Node) (Op : OperatorType) (Line : Int)
  | AssignIndex (Left : String) (Index : Node) (Right : Node) (Op : OperatorType) (Line : Int)
  | Unary (Expr : Node) (Op : OperatorType) (Line : Int)
  | Binary (Left : Node) (Right : Node) (Op : OperatorType) (Line : Int)
  | Number (Value : Float) (Line : Int)
  | String (Value : String) (Line : Int)
  | Bool (Value : Bool) (Line : Int)
  | List (Values : List Node) (Line : Int)
  | Variable (Name : String) (Line : Int)
  | Index (Expr : Node) (Index : Node) (Line : Int)

section CompileNodes

variable {V : Type}

mutual
/-- The `compile` methods of the node types. -/
def compile : Node → Compile V Unit
  | .If cond thn els _ => do
      compile cond
      let falseJump ← emitJump OpJumpIfFalse
      compileList thn
      let endJump ← emitJump OpJump
      patchJump falseJump
      compileList els
      patchJump endJump
  | .While cond body _ => do
      let c ← getState
      let loopStart : Int := c.code.length
      compile cond
      let exitJump ← emitJump OpJumpIfFalse
      compileList body
      emitLoop loopStart
      patchJump exitJump
  | .For _ _ _ _ => pure ()
  | .Func _ _ _ _ => pure ()
  | .Sub _ _ _ _ => pure ()
  | .Return _ _ => pure ()
  | .Break _ => pure ()
  | .Continue _ => pure ()
  | .FuncCall _ _ _ => pure ()
  | .Assignment _ _ _ _ => pure ()
  | .AssignIndex _ _ _ _ _ => pure ()
  | .Unary _ _ _ => pure ()
  | .Binary _ _ _ _ => pure ()
  | .Number _ _ => pure ()
  | .String _ _ => pure ()
  | .Bool _ _ => pure ()
  | .List _ _ => pure ()
  | .Variable _ _ => pure ()
  | .Index _ _ _ => pure ()
/-- The loop `for _, n := range nodes { n.compile() }`. -/
def compileList : List Node → Compile V Unit
  | [] => pure ()
  | n :: rest => do
      compile n
      compileList rest
end

end CompileNodes

/-! ## Values, frames and the machine (`vm.go`) -/

/-- The enumeration `ChunkType`. -/
inductive ChunkType where
  | TypeProgram | TypeFunction | TypeSubroutine
  deriving DecidableEq, Repr

/-- Struct `AuroraFunction`; `body` is a `*Chunk` and may be nil. -/
structure AuroraFunction (V : Type) where
  name : String
  args : List String
  arity : Int
  body : Option (Chunk V)

/-- The dynamic values an `any` holds in this program. A `[]any` is a reference to its
backing array and a `*any` is the address of an `any` variable (or nil). -/
inductive Value where
  | nil
  | float64 (x : Float)
  | bool (b : Bool)
  | string (s : String)
  | int (i : Int)
  | uint8 (b : Nat)
  | slice (ref : Nat)
  | function (f : AuroraFunction Value)
  | pointer (p : Option Nat)

/-- Struct `CallFrame`; `locals` is a 256-slot array indexed by a byte. -/
structure CallFrame where
  locals : Nat → Value
  function : AuroraFunction Value
  pc : Int
  dest : Nat
  chunkType : ChunkType

/-- Struct `AuroraVM`. `registers` holds 256 pointers (nil or the address of an `any`
variable); `heap` gives the contents of those variables and `heapNext` is the next fresh
address; `arrays` gives the backing arrays of the `[]any` values. -/
structure AuroraVM where
  registers : Nat → Option Nat
  callStack : List CallFrame
  globals : Int → Option Value
  heap : Nat → Value
  heapNext : Nat
  arrays : Nat → List Value

/-- Function `NewAuroraVM`. -/
def NewAuroraVM (chunk : Option (Chunk Value)) : AuroraVM :=
  { registers := fun _ => none
    callStack := [{ locals := fun _ => Value.nil
                    function := { name := "[script]", args := [], arity := 0, body := chunk }
                    pc := 0
                    dest := 0
                    chunkType := ChunkType.TypeProgram }]
    globals := fun _ => none
    heap := fun _ => Value.nil
    heapNext := 0
    arrays := fun _ => [] }

/-- Code that works on the machine (the `vm` receiver). -/
abbrev VM (α : Type) : Type := Exec AuroraVM α

/-- The expression `&vm.callStack[len(vm.callStack)-1]`, as the index of the top frame. -/
def topFrame : VM Nat :=
  fun vm =>
    if vm.callStack.length = 0 then .panic Panic.indexOutOfRange vm
    else .ok (vm.callStack.length - 1) vm

/-- Read through a frame pointer. -/
def getFrame (i : Nat) : VM CallFrame :=
  fun vm =>
    match vm.callStack[i]? with
    | some f => .ok f vm
    | none => .panic Panic.indexOutOfRange vm

/-- Write through a frame pointer. -/
def setFrame (i : Nat) (f : CallFrame) : VM Unit :=
  fun vm => .ok () { vm with callStack := vm.callStack.set i f }

/-- Slice indexing `xs[k]` with a Go `int` index. -/
def indexInt {σ α : Type} (xs : List α) (k : Int) : Exec σ α :=
  fun s =>
    if k < 0 then .panic Panic.indexOutOfRange s
    else match xs[k.toNat]? with
      | some x => .ok x s
      | none => .panic Panic.indexOutOfRange s

/-- Method `readByte`: advance the top frame's pc, then read `code[pc-1]`. -/
def readByte : VM Nat := do
  let i ← topFrame
  let frame ← getFrame i
  setFrame i { frame with pc := frame.pc + 1 }
  let frame ← getFrame i
  match frame.function.body with
  | none => raise Panic.nilDereference
  | some body => indexInt body.code (frame.pc - 1)

/-- Method `readConstant`: `constants[vm.readByte()]` of the top frame's chunk. -/
def readConstant : VM Value := do
  let i ← topFrame
  let k ← readByte
  let frame ← getFrame i
  match frame.function.body with
  | none => raise Panic.nilDereference
  | some body => indexInt body.constants (k : Int)

/-- Method `readShort`: `uint16(vm.readByte()) | uint16(vm.readByte())<<8`; the two calls
run left to right, so the first byte read is the low byte. -/
def readShort : VM Nat := do
  let b0 ← readByte
  let b1 ← readByte
  return (b0 % 65536) ||| (((b1 % 65536) <<< 8) % 65536)

/-- The expression `*vm.registers[r]` as a value. -/
def loadReg (r : Nat) : VM Value :=
  fun vm =>
    match vm.registers r with
    | none => .panic Panic.nilDereference vm
    | some addr => .ok (vm.heap addr) vm

/-- The assignment `*vm.registers[r] = v`. -/
def storeReg (r : Nat) (v : Value) : VM Unit :=
  fun vm =>
    match vm.registers r with
    | none => .panic Panic.nilDereference vm
    | some addr => .ok () { vm with heap := Function.update vm.heap addr v }

/-- The assignment `vm.registers[r] = &v` for a fresh variable `v`. -/
def pointReg (r : Nat) (v : Value) : VM Unit :=
  fun vm => .ok ()
    { vm with registers := Function.update vm.registers r (some vm.heapNext)
              heap := Function.update vm.heap vm.heapNext v
              heapNext := vm.heapNext + 1 }

/-- The type assertion `v.(float64)`. -/
def asFloat64 {σ : Type} : Value → Exec σ Float
  | .float64 x => pure x
  | _ => raise Panic.typeAssertion

/-- The type assertion `v.(bool)`. -/
def asBool {σ : Type} : Value → Exec σ Bool
  | .bool b => pure b
  | _ => raise Panic.typeAssertion

/-- The type assertion `v.(int)`. -/
def asInt {σ : Type} : Value → Exec σ Int
  | .int i => pure i
  | _ => raise Panic.typeAssertion

/-- The type assertion `v.(AuroraFunction)`. -/
def asFunction {σ : Type} : Value → Exec σ (AuroraFunction Value)
  | .function f => pure f
  | _ => raise Panic.typeAssertion

/-- Go's `==` on two `any` values: different dynamic types are unequal, and equal dynamic
types that are not comparable (`[]any`, and `AuroraFunction`, which has a slice field)
panic. -/
def anyEq {σ : Type} : Value → Value → Exec σ Bool
  | .nil, .nil => pure true
  | .float64 x, .float64 y => pure (x == y)
  | .bool x, .bool y => pure (x == y)
  | .string x, .string y => pure (x == y)
  | .int x, .int y => pure (x == y)
  | .uint8 x, .uint8 y => pure (x == y)
  | .pointer x, .pointer y => pure (x == y)
  | .slice _, .slice _ => raise Panic.uncomparable
  | .function _, .function _ => raise Panic.uncomparable
  | _, _ => pure false

/-- Go's `math.Frexp`-based loop of `math.Mod`, bounded by the exponent range. -/
def modLoop (y yfr : Float) (yexp : Int) : Nat → Float → Float
  | 0, r => r
  | fuel + 1, r =>
    if r >= y then
      let (rfr, rexp) := r.frExp
      let rexp := if rfr < yfr then rexp - 1 else rexp
      modLoop y yfr yexp fuel (r - y.scaleB (rexp - yexp))
    else r

/-- Go's `math.Mod` (the library routine called by `OpMod`). -/
def mathMod (x y : Float) : Float :=
  if y == 0 || x.isInf || x.isNaN || y.isNaN then 0.0 / 0.0
  else
    let y := y.abs
    let (yfr, yexp) := y.frExp
    let r := if x < 0 then -x else x
    let r := modLoop y yfr yexp 4096 r
    if x < 0 then -r else r

/-- The cases `a, b, dest := readByte() x3; switch (*registers[a]).(type) { case float64:
*registers[dest] = f(a.(float64), b.(float64)) }`; any other dynamic type of `a` does nothing. -/
def floatBinary (f : Float → Float → Value) : VM Unit := do
  let a ← readByte
  let b ← readByte
  let dest ← readByte
  match ← loadReg a with
  | .float64 x => do
      let y ← asFloat64 (← loadReg b)
      storeReg dest (f x y)
  | _ => pure ()

/-- The cases `OpAddTo` and `OpSubFrom`: as `floatBinary`, with the result stored in `a`. -/
def floatInPlace (f : Float → Float → Value) : VM Unit := do
  let a ← readByte
  let b ← readByte
  match ← loadReg a with
  | .float64 x => do
      let y ← asFloat64 (← loadReg b)
      storeReg a (f x y)
  | _ => pure ()

/-- The statement `frame.pc += int(offset)` through the frame pointer taken by `Step`. -/
def addPc (frame : Nat) (offset : Int) : VM Unit := do
  let f ← getFrame frame
  setFrame frame { f with pc := f.pc + offset }

/-- The locals filled by the loop of `OpCall`:
`frame.locals[i] = vm.registers[registerBase+byte(i)]` for `i < arity`. -/
def callLocals (registers : Nat → Option Nat) (registerBase arity : Nat) : Nat → Value :=
  (List.range arity).foldl
    (fun locals i =>
      Function.update locals i (Value.pointer (registers ((registerBase + i % 256) % 256))))
    (fun _ => Value.nil)

/-- Method `Step`: fetch, decode and execute one instruction of the top frame. -/
def Step : VM Unit := do
  let frame ← topFrame
  let instruction ← readByte
  if instruction = OpLoad then do
    let constant ← readConstant
    let register ← readByte
    pointReg register constant
  else if instruction = OpStore then do
    let register ← readByte
    let «local» ← readByte
    let f ← getFrame frame
    setFrame frame { f with locals := Function.update f.locals «local» (Value.uint8 register) }
  else if instruction = OpStoreGlobal then do
    let register ← readByte
    let global ← readByte
    let v ← loadReg register
    let vm ← getState
    putState { vm with globals := Function.update vm.globals (global : Int) (some v) }
  else if instruction = OpAdd then floatBinary (fun x y => Value.float64 (x + y))
  else if instruction = OpAddTo then floatInPlace (fun x y => Value.float64 (x + y))
  else if instruction = OpSub then floatBinary (fun x y => Value.float64 (x - y))
  else if instruction = OpSubFrom then floatInPlace (fun x y => Value.float64 (x - y))
  else if instruction = OpMul then floatBinary (fun x y => Value.float64 (x * y))
  else if instruction = OpDiv then floatBinary (fun x y => Value.float64 (x / y))
  else if instruction = OpMod then floatBinary (fun x y => Value.float64 (mathMod x y))
  else if instruction = OpNeg then do
    let a ← readByte
    let dest ← readByte
    match ← loadReg a with
    | .float64 x => storeReg dest (Value.float64 (-x))
    | _ => pure ()
  else if instruction = OpNot then do
    let a ← readByte
    let dest ← readByte
    match ← loadReg a with
    | .bool x => storeReg dest (Value.bool (!x))
    | _ => pure ()
  else if instruction = OpEqual then do
    let a ← readByte
    let b ← readByte
    let dest ← readByte
    let va ← loadReg a
    let vb ← loadReg b
    let r ← anyEq va vb
    storeReg dest (Value.bool r)
  else if instruction = OpNotEqual then do
    let a ← readByte
    let b ← readByte
    let dest ← readByte
    let va ← loadReg a
    let vb ← loadReg b
    let r ← anyEq va vb
    storeReg dest (Value.bool (!r))
  else if instruction = OpLess then floatBinary (fun x y => Value.bool (x < y))
  else if instruction = OpLessEqual then floatBinary (fun x y => Value.bool (x <= y))
  else if instruction = OpGreater then floatBinary (fun x y => Value.bool (x > y))
  else if instruction = OpGreaterEqual then floatBinary (fun x y => Value.bool (x >= y))
  else if instruction = OpJump then do
    let offset ← readShort
    addPc frame offset
  else if instruction = OpJumpIfFalse then do
    let offset ← readShort
    let register ← readByte
    let b ← asBool (← loadReg register)
    if !b then addPc frame offset else pure ()
  else if instruction = OpJumpIfTrue then do
    let offset ← readShort
    let register ← readByte
    let b ← asBool (← loadReg register)
    if b then addPc frame offset else pure ()
  else if instruction = OpJumpIfEqual then do
    let offset ← readShort
    let a ← readByte
    let b ← readByte
    let va ← loadReg a
    let vb ← loadReg b
    let r ← anyEq va vb
    if r then addPc frame offset else pure ()
  else if instruction = OpJumpIfNotEqual then do
    let offset ← readShort
    let a ← readByte
    let b ← readByte
    let va ← loadReg a
    let vb ← loadReg b
    let r ← anyEq va vb
    if !r then addPc frame offset else pure ()
  else if instruction = OpLoop then do
    let offset ← readShort
    addPc frame (-(offset : Int))
  else if instruction = OpCall then do
    let function ← readByte
    let arity ← readByte
    let registerBase ← readByte
    let dest ← readByte
    let funcObj ← asFunction (← loadReg function)
    if (arity : Int) ≠ funcObj.arity then
      raise (Panic.explicit "Arity mismatch")
    else do
      let vm ← getState
      let newFrame : CallFrame :=
        { function := funcObj
          pc := 0
          locals := callLocals vm.registers registerBase arity
          dest := dest
          chunkType := ChunkType.TypeFunction }
      putState { vm with callStack := vm.callStack ++ [newFrame] }
  else if instruction = OpReturn then do
    let vm ← getState
    let popped ← getFrame (vm.callStack.length - 1)
    putState { vm with callStack := vm.callStack.take (vm.callStack.length - 1) }
    let r ← readByte
    let vm ← getState
    storeReg popped.dest (Value.pointer (vm.registers r))
  else if instruction = OpIndex then do
    let a ← readByte
    let b ← readByte
    let dest ← readByte
    match ← loadReg a with
    | .slice ref => do
        let i ← asInt (← loadReg b)
        let vm ← getState
        let v ← indexInt (vm.arrays ref) i
        storeReg dest v
    | _ => pure ()
  else if instruction = OpIndexAssign then do
    let a ← readByte
    let b ← readByte
    let c ← readByte
    match ← loadReg a with
    | .slice ref => do
        let i ← asInt (← loadReg b)
        let v ← loadReg c
        let vm ← getState
        let _ ← indexInt (vm.arrays ref) i
        putState { vm with arrays := Function.update vm.arrays ref ((vm.arrays ref).set i.toNat v) }
    | _ => pure ()
  else pure ()

/-- The pc of the top frame, if there is one. -/
def AuroraVM.pc (vm : AuroraVM) : Option Int :=
  (vm.callStack.getLast?).map (fun f => f.pc)

/-- A machine with one frame running `code` at `pc`, whose registers `r` named in `regs`
point to variables holding the given values. -/
def machineAt (code : List Nat) (pc : Int) (regs : List (Nat × Value)) : AuroraVM :=
  { registers := fun r => (regs.findIdx? (fun e => e.1 == r))
    callStack := [{ locals := fun _ => Value.nil
                    function := { name := "[script]", args := [], arity := 0,
                                  body := some { code := code, lines := [], constants := [] } }
                    pc := pc
                    dest := 0
                    chunkType := ChunkType.TypeProgram }]
    globals := fun _ => none
    heap := fun a => match regs[a]? with
      | some e => e.2
      | none => Value.nil
    heapNext := regs.length
    arrays := fun _ => [] }

/-! ## Tokens and the lexer (`lexer.go`)

A Go `string` is modelled by a Lean `String` that holds one character per byte (ASCII text
is itself), so that `s[i]` is the `i`-th character and `len(s)` the number of characters. -/

/-- The enumeration `TokenType`. -/
inductive TokenType where
  | IdTok | NumberTok | StringTok
  | NewlineTok
  | LparenTok | RparenTok | LbraceTok | RbraceTok | ArrowTok | CommaTok | ColonTok
  | PlusTok | MinusTok | StarTok | SlashTok | PercentTok | EqualTok | NotequalTok
  | LessTok | LessEqualTok | GreaterTok | GreaterEqualTok | AssignTok
  | PlusAssignTok | MinusAssignTok | StarAssignTok | SlashAssignTok | PercentAssignTok
  | IfTok | ElseTok | WhileTok | ForTok | FnTok | SubTok | ReturnTok | BreakTok
  | ContinueTok | TrueTok | FalseTok | AndTok | OrTok | NotTok | EndTok
  | EofTok
  deriving DecidableEq, Repr

/-- The map `keywords`. -/
def keywords : List (String × TokenType) :=
  [("if", .IfTok), ("else", .ElseTok), ("while", .WhileTok), ("for", .ForTok),
   ("fn", .FnTok), ("sub", .SubTok), ("return", .ReturnTok), ("break", .BreakTok),
   ("continue", .ContinueTok), ("true", .TrueTok), ("false", .FalseTok), ("and", .AndTok),
   ("or", .OrTok), ("not", .NotTok), ("end", .EndTok)]

/-- Struct `Token`; `Typ` is the field `Type`. -/
structure Token where
  Typ : TokenType
  Value : String
  Line : Int
  deriving DecidableEq, Repr

/-- Struct `Lexer`. -/
structure Lexer where
  input : String
  start : Int
  pos : Int
  line : Int
  deriving DecidableEq, Repr

/-- Function `NewLexer`. -/
def NewLexer (input : String) : Lexer :=
  { input := input, start := 0, pos := 0, line := 1 }

/-- Code that works on the lexer (the `l` receiver). -/
abbrev Lex (α : Type) : Type := Exec Lexer α

/-- The statement `l.pos++`. -/
def advance : Lex Unit :=
  fun l => .ok () { l with pos := l.pos + 1 }

/-- The test `l.pos < len(l.input)`. -/
def inInput : Lex Bool :=
  fun l => .ok (decide (l.pos < (l.input.length : Int))) l

/-- The expression `l.input[l.pos]`. -/
def currentChar : Lex Char :=
  fun l => indexInt l.input.data l.pos l

/-- The test `l.pos < len(l.input) && l.input[l.pos] == c`. -/
def nextIs (c : Char) : Lex Bool := do
  if ← inInput then do
    let ch ← currentChar
    pure (decide (ch = c))
  else pure false

/-- The slice expression `s[lo:hi]` with Go `int` bounds. -/
def sliceString {σ : Type} (s : String) (lo hi : Int) : Exec σ String :=
  fun st =>
    if 0 ≤ lo ∧ lo ≤ hi ∧ hi ≤ (s.length : Int) then
      .ok (String.mk ((s.data.drop lo.toNat).take (hi.toNat - lo.toNat))) st
    else
      .panic Panic.indexOutOfRange st

/-- Function `isAlpha`. -/
def isAlpha (ch : Char) : Bool :=
  (ch ≥ 'a' && ch ≤ 'z') || (ch ≥ 'A' && ch ≤ 'Z') || ch = '_'

/-- Function `isDigit`. -/
def isDigit (ch : Char) : Bool :=
  ch ≥ '0' && ch ≤ '9'

/-- The loop of `scanString`, bounded by `fuel` iterations. -/
def scanStringLoop (start : Int) : Nat → Lex String
  | 0 => raise Panic.outOfFuel
  | fuel + 1 => do
    if ← inInput then do
      let ch ← currentChar
      if ch = '"' then do
        advance
        let l ← getState
        sliceString l.input start (l.pos - 1)
      else do
        advance
        scanStringLoop start fuel
    else do
      let l ← getState
      raise (Panic.explicit ("Unterminated string at line " ++ toString l.line))

/-- Method `scanString`. Each iteration of its loop advances `pos`, so `len(input) + 1`
iterations are enough. -/
def Lexer.scanString : Lex String := do
  advance
  let l ← getState
  let start := l.pos
  scanStringLoop start (l.input.length + 1)

/-- The two digit loops of `scanNumber`, bounded by `fuel` iterations. -/
def scanDigitsLoop : Nat → Lex Unit
  | 0 => raise Panic.outOfFuel
  | fuel + 1 => do
    if ← inInput then do
      let ch ← currentChar
      if ch < '0' ∨ ch > '9' then pure ()
      else do
        advance
        scanDigitsLoop fuel
    else pure ()

/-- Method `scanNumber`. -/
def Lexer.scanNumber : Lex String := do
  let l ← getState
  let start := l.pos
  scanDigitsLoop (l.input.length + 1)
  if ← nextIs '.' then do
    advance
    scanDigitsLoop (l.input.length + 1)
  else pure ()
  let l ← getState
  sliceString l.input start l.pos

/-- The loop of `scanId`, bounded by `fuel` iterations. -/
def scanIdLoop : Nat → Lex Unit
  | 0 => raise Panic.outOfFuel
  | fuel + 1 => do
    if ← inInput then do
      let ch ← currentChar
      if !isAlpha ch && !isDigit ch then pure ()
      else do
        advance
        scanIdLoop fuel
    else pure ()

/-- Method `scanId`. -/
def Lexer.scanId : Lex String := do
  let l ← getState
  let start := l.pos
  scanIdLoop (l.input.length + 1)
  let l ← getState
  sliceString l.input start l.pos

/-- The message of the panic raised by `Next` once `hadError` is set. -/
def unexpectedCharacter (ch : Char) (line : Int) : String :=
  "Unexpected character " ++ String.singleton ch ++ " at line " ++ toString line

/-- The token `Token{typ, value, l.line}`. -/
def tokenHere (typ : TokenType) (value : String) : Lex Token :=
  fun l => .ok { Typ := typ, Value := value, Line := l.line } l

/-- The cases of `Next` for a character that starts a one- or two-character operator:
`l.pos++`, then the longer token `two` if the next character is `second`, else `one`. -/
def oneOrTwo (second : Char) (two : TokenType) (twoValue : String)
    (one : TokenType) (oneValue : String) : Lex Token := do
  advance
  if ← nextIs second then do
    advance
    tokenHere two twoValue
  else tokenHere one oneValue

/-- The loop of `Next`, bounded by `fuel` iterations, with the local `hadError`. -/
def nextLoop : Nat → Bool → Lex Token
  | 0, _ => raise Panic.outOfFuel
  | fuel + 1, hadError => do
    if ← inInput then do
      let ch ← currentChar
      let l ← getState
      if hadError then raise (Panic.explicit (unexpectedCharacter ch l.line))
      else if ch = ' ' ∨ ch = '\t' then do
        advance
        nextLoop fuel hadError
      else if ch = '\n' then do
        advance
        putState { (← getState) with line := l.line + 1 }
        pure { Typ := .NewlineTok, Value := "\n", Line := l.line + 1 - 1 }
      else if ch = '(' then do
        advance
        tokenHere .LparenTok "("
      else if ch = ')' then do
        advance
        tokenHere .RparenTok ")"
      else if ch = '{' then do
        advance
        tokenHere .LbraceTok "\x7b"
      else if ch = '}' then do
        advance
        tokenHere .RbraceTok "\x7d"
      else if ch = ',' then do
        advance
        tokenHere .CommaTok ","
      else if ch = ':' then do
        advance
        tokenHere .ColonTok ":"
      else if ch = '+' then oneOrTwo '=' .PlusAssignTok "+=" .PlusTok "+"
      else if ch = '-' then do
        advance
        if ← nextIs '=' then do
          advance
          tokenHere .MinusAssignTok "-="
        else if ← nextIs '>' then do
          advance
          tokenHere .ArrowTok "->"
        else tokenHere .MinusTok "-"
      else if ch = '*' then oneOrTwo '=' .StarAssignTok "*=" .StarTok "*"
      else if ch = '/' then oneOrTwo '=' .SlashAssignTok "/=" .SlashTok "/"
      else if ch = '%' then oneOrTwo '=' .PercentAssignTok "%=" .PercentTok "%"
      else if ch = '=' then oneOrTwo '=' .EqualTok "==" .AssignTok "="
      else if ch = '!' then do
        advance
        if ← nextIs '=' then do
          advance
          tokenHere .NotequalTok "!="
        else nextLoop fuel true
      else if ch = '<' then oneOrTwo '=' .LessEqualTok "<=" .LessTok "<"
      else if ch = '>' then oneOrTwo '=' .GreaterEqualTok ">=" .GreaterTok ">"
      else if ch = '&' then do
        advance
        if ← nextIs '&' then do
          advance
          tokenHere .AndTok "&&"
        else nextLoop fuel true
      else if ch = '"' then do
        let value ← Lexer.scanString
        tokenHere .StringTok value
      else if isDigit ch then do
        let value ← Lexer.scanNumber
        tokenHere .NumberTok value
      else if isAlpha ch then do
        let ident ← Lexer.scanId
        match keywords.lookup ident with
        | some tok => tokenHere tok ident
        | none => tokenHere .IdTok ident
      else nextLoop fuel true
    else tokenHere .EofTok ""

/-- Method `Next`. An iteration of its loop that does not return advances `pos` or sets
`hadError`, and the iteration after `hadError` was set returns or panics, so
`len(input) + 2` iterations are enough. -/
def Lexer.Next : Lex Token :=
  fun l => nextLoop (l.input.length + 2) false l

/-! ## The parser (`parser.go`) -/

/-- The functions that `parser.go` calls and whose code is not part of the sources:
`strconv.ParseFloat(s, 64)` (its first result) and the `String` method that `stringer`
generates for `TokenType`. -/
structure Externals where
  ParseFloat : String → Float
  tokenTypeString : TokenType → String

/-- Struct `Parser`. -/
structure Parser where
  lexer : Lexer
  current : Token
  deriving DecidableEq, Repr

/-- Code that works on the parser (the `p` receiver). -/
abbrev Parse (α : Type) : Type := Exec Parser α

/-- The call `p.lexer.Next()`. -/
def nextToken : Parse Token :=
  fun p =>
    match Lexer.Next p.lexer with
    | .ok tok l => .ok tok { p with lexer := l }
    | .panic e l => .panic e { p with lexer := l }

/-- Function `NewParser`, run from the parser `&Parser{lexer, Token{}}`: the outcome carries
the new parser as its state. -/
def NewParser (lexer : Lexer) : Res Parser Unit :=
  (do
    let tok ← nextToken
    let p ← getState
    putState { p with current := tok } : Parse Unit)
  { lexer := lexer, current := { Typ := .IdTok, Value := "", Line := 0 } }

/-- Method `eat`. -/
def Parser.eat (ext : Externals) (typ : TokenType) : Parse Token := do
  let p ← getState
  if p.current.Typ = typ then do
    let toRet := p.current
    let tok ← nextToken
    let p ← getState
    putState { p with current := tok }
    pure toRet
  else if typ = .NewlineTok ∧ p.current.Typ = .EofTok then
    pure p.current
  else
    raise (Panic.explicit ("Expected " ++ ext.tokenTypeString typ ++ ", got " ++
      ext.tokenTypeString p.current.Typ))

/-- Method `peek`. -/
def Parser.peek (typ : TokenType) : Parse Bool :=
  fun p => .ok (decide (p.current.Typ = typ)) p

/-- Method `peekNext`. -/
def Parser.peekNext : Parse TokenType :=
  fun p => .ok p.current.Typ p

/-- The loop `for { xs = append(xs, p.expression()); if p.peek(close) { break };
p.eat(CommaTok) }` of `primary` (list literal) and `call` (arguments), bounded by `fuel`
iterations. -/
def expressionsLoop (ext : Externals) (expression : Parse Node) (close : TokenType) :
    Nat → List Node → Parse (List Node)
  | 0, _ => raise Panic.outOfFuel
  | fuel + 1, xs => do
    let x ← expression
    let xs := xs ++ [x]
    if ← Parser.peek close then pure xs
    else do
      let _ ← Parser.eat ext .CommaTok
      expressionsLoop ext expression close fuel xs

/-- Method `primary`; `expression` is the method it calls back and `fuel` bounds its loop. -/
def Parser.primary (ext : Externals) (expression : Parse Node) (fuel : Nat) : Parse Node := do
  let t ← Parser.peekNext
  if t = .NumberTok then do
    let numToken ← Parser.eat ext .NumberTok
    pure (Node.Number (ext.ParseFloat numToken.Value) numToken.Line)
  else if t = .StringTok then do
    let strToken ← Parser.eat ext .StringTok
    pure (Node.String strToken.Value strToken.Line)
  else if t = .IdTok then do
    let idToken ← Parser.eat ext .IdTok
    pure (Node.Variable idToken.Value idToken.Line)
  else if t = .TrueTok then do
    let val ← Parser.eat ext .TrueTok
    pure (Node.Bool true val.Line)
  else if t = .FalseTok then do
    let val ← Parser.eat ext .FalseTok
    pure (Node.Bool false val.Line)
  else if t = .LparenTok then do
    let _ ← Parser.eat ext .LparenTok
    let expr ← expression
    let _ ← Parser.eat ext .RparenTok
    pure expr
  else if t = .LbraceTok then do
    let line := (← Parser.eat ext .LbraceTok).Line
    let exprs ←
      if !(← Parser.peek .RbraceTok) then expressionsLoop ext expression .RbraceTok fuel []
      else pure []
    let _ ← Parser.eat ext .RbraceTok
    pure (Node.List exprs line)
  else
    raise (Panic.explicit ("Unexpected token: " ++ ext.tokenTypeString t))

/-- The loop of `call`, bounded by the iteration count. -/
def callLoop (ext : Externals) (expression : Parse Node) (fuel : Nat) :
    Nat → Node → Parse Node
  | 0, _ => raise Panic.outOfFuel
  | n + 1, expr => do
    let t ← Parser.peekNext
    if t = .LparenTok then do
      let line := (← Parser.eat ext .LparenTok).Line
      let args ←
        if !(← Parser.peek .RparenTok) then expressionsLoop ext expression .RparenTok fuel []
        else pure []
      let _ ← Parser.eat ext .RparenTok
      callLoop ext expression fuel n (Node.FuncCall expr args line)
    else if t = .ColonTok then do
      let line := (← Parser.eat ext .ColonTok).Line
      let index ← expression
      callLoop ext expression fuel n (Node.Index expr index line)
    else pure expr

/-- Method `call`. -/
def Parser.call (ext : Externals) (expression : Parse Node) (fuel : Nat) : Parse Node := do
  let expr ← Parser.primary ext expression fuel
  callLoop ext expression fuel fuel expr

/-- Method `unary`; the last argument bounds the depth of its recursion. -/
def Parser.unary (ext : Externals) (expression : Parse Node) (fuel : Nat) : Nat → Parse Node
  | 0 => raise Panic.outOfFuel
  | n + 1 => do
    let t ← Parser.peekNext
    if t = .MinusTok then do
      let line := (← Parser.eat ext .MinusTok).Line
      let e ← Parser.unary ext expression fuel n
      pure (Node.Unary e .Minus line)
    else if t = .NotTok then do
      let line := (← Parser.eat ext .NotTok).Line
      let e ← Parser.unary ext expression fuel n
      pure (Node.Unary e .Not line)
    else Parser.call ext expression fuel

/-- The loop of `factor`. -/
def factorLoop (ext : Externals) (expression : Parse Node) (fuel : Nat) :
    Nat → Node → Parse Node
  | 0, _ => raise Panic.outOfFuel
  | n + 1, expr => do
    let t ← Parser.peekNext
    if t = .StarTok then do
      let line := (← Parser.eat ext .StarTok).Line
      let right ← Parser.unary ext expression fuel fuel
      factorLoop ext expression fuel n (Node.Binary expr right .Multiply line)
    else if t = .SlashTok then do
      let line := (← Parser.eat ext .SlashTok).Line
      let right ← Parser.unary ext expression fuel fuel
      factorLoop ext expression fuel n (Node.Binary expr right .Divide line)
    else if t = .PercentTok then do
      let line := (← Parser.eat ext .PercentTok).Line
      let right ← Parser.unary ext expression fuel fuel
      factorLoop ext expression fuel n (Node.Binary expr right .Modulo line)
    else pure expr

/-- Method `factor`. -/
def Parser.factor (ext : Externals) (expression : Parse Node) (fuel : Nat) : Parse Node := do
  let expr ← Parser.unary ext expression fuel fuel
  factorLoop ext expression fuel fuel expr

/-- The loop of `term`. -/
def termLoop (ext : Externals) (expression : Parse Node) (fuel : Nat) :
    Nat → Node → Parse Node
  | 0, _ => raise Panic.outOfFuel
  | n + 1, expr => do
    let t ← Parser.peekNext
    if t = .PlusTok then do
      let line := (← Parser.eat ext .PlusTok).Line
      let right ← Parser.factor ext expression fuel
      termLoop ext expression fuel n (Node.Binary expr right .Plus line)
    else if t = .MinusTok then do
      let line := (← Parser.eat ext .MinusTok).Line
      let right ← Parser.factor ext expression fuel
      termLoop ext expression fuel n (Node.Binary expr right .Minus line)
    else pure expr

/-- Method `term`. -/
def Parser.term (ext : Externals) (expression : Parse Node) (fuel : Nat) : Parse Node := do
  let expr ← Parser.factor ext expression fuel
  termLoop ext expression fuel fuel expr

/-- The loop of `comparison`. -/
def comparisonLoop (ext : Externals) (expression : Parse Node) (fuel : Nat) :
    Nat → Node → Parse Node
  | 0, _ => raise Panic.outOfFuel
  | n + 1, expr => do
    let t ← Parser.peekNext
    if t = .GreaterTok then do
      let line := (← Parser.eat ext .GreaterTok).Line
      let right ← Parser.term ext expression fuel
      comparisonLoop ext expression fuel n (Node.Binary expr right .Greater line)
    else if t = .GreaterEqualTok then do
      let line := (← Parser.eat ext .GreaterEqualTok).Line
      let right ← Parser.term ext expression fuel
      comparisonLoop ext expression fuel n (Node.Binary expr right .GreaterEqual line)
    else if t = .LessTok then do
      let line := (← Parser.eat ext .LessTok).Line
      let right ← Parser.term ext expression fuel
      comparisonLoop ext expression fuel n (Node.Binary expr right .Less line)
    else if t = .LessEqualTok then do
      let line := (← Parser.eat ext .LessEqualTok).Line
      let right ← Parser.term ext expression fuel
      comparisonLoop ext expression fuel n (Node.Binary expr right .LessEqual line)
    else pure expr

/-- Method `comparison`. -/
def Parser.comparison (ext : Externals) (expression : Parse Node) (fuel : Nat) :
    Parse Node := do
  let expr ← Parser.term ext expression fuel
  comparisonLoop ext expression fuel fuel expr

/-- The loop of `equality`. -/
def equalityLoop (ext : Externals) (expression : Parse Node) (fuel : Nat) :
    Nat → Node → Parse Node
  | 0, _ => raise Panic.outOfFuel
  | n + 1, expr => do
    let t ← Parser.peekNext
    if t = .EqualTok then do
      let line := (← Parser.eat ext .EqualTok).Line
      let right ← Parser.comparison ext expression fuel
      equalityLoop ext expression fuel n (Node.Binary expr right .Equal line)
    else if t = .NotequalTok then do
      let line := (← Parser.eat ext .NotequalTok).Line
      let right ← Parser.comparison ext expression fuel
      equalityLoop ext expression fuel n (Node.Binary expr right .NotEqual line)
    else pure expr

/-- Method `equality`. -/
def Parser.equality (ext : Externals) (expression : Parse Node) (fuel : Nat) : Parse Node := do
  let expr ← Parser.comparison ext expression fuel
  equalityLoop ext expression fuel fuel expr

/-- The loop of `and`. -/
def andLoop (ext : Externals) (expression : Parse Node) (fuel : Nat) :
    Nat → Node → Parse Node
  | 0, _ => raise Panic.outOfFuel
  | n + 1, expr => do
    let t ← Parser.peekNext
    if t = .AndTok then do
      let line := (← Parser.eat ext .AndTok).Line
      let right ← Parser.equality ext expression fuel
      andLoop ext expression fuel n (Node.Binary expr right .And line)
    else pure expr

/-- Method `and`. -/
def Parser.and (ext : Externals) (expression : Parse Node) (fuel : Nat) : Parse Node := do
  let expr ← Parser.equality ext expression fuel
  andLoop ext expression fuel fuel expr

/-- The loop of `or`. -/
def orLoop (ext : Externals) (expression : Parse Node) (fuel : Nat) :
    Nat → Node → Parse Node
  | 0, _ => raise Panic.outOfFuel
  | n + 1, expr => do
    let t ← Parser.peekNext
    if t = .OrTok then do
      let line := (← Parser.eat ext .OrTok).Line
      let right ← Parser.and ext expression fuel
      orLoop ext expression fuel n (Node.Binary expr right .Or line)
    else pure expr

/-- Method `or`. -/
def Parser.or (ext : Externals) (expression : Parse Node) (fuel : Nat) : Parse Node := do
  let expr ← Parser.and ext expression fuel
  orLoop ext expression fuel fuel expr

/-- Method `expression`. The methods of the parser call each other in a cycle through
`primary` and `call`; `fuel` bounds the depth of that recursion, and the loops and the
recursion of `unary` inside one level are bounded by the fuel left at that level. -/
def Parser.expression (ext : Externals) : Nat → Parse Node
  | 0 => raise Panic.outOfFuel
  | fuel + 1 => Parser.or ext (Parser.expression ext fuel) fuel

/-! ## Worked inputs -/

/-- The empty chunk produced by `beginCompile`. -/
def emptyChunk : Chunk Unit := { code := [], lines := [], constants := [] }

/-- The statement `while true` whose body is an `if false` with empty branches. -/
def sampleWhile : Node :=
  Node.While (Node.Bool true 1) [Node.If (Node.Bool false 2) [] [] 2] 1

/-- The statement `if x` with a `while` in the then-branch and a `break` in the else-branch. -/
def sampleIfElse : Node :=
  Node.If (Node.Variable "x" 1) [Node.While (Node.Bool true 2) [] 2] [Node.Break 3] 1

/-- The statement `if x` with an empty then-branch and a `while true` in the else-branch. -/
def sampleElseLoop : Node :=
  Node.If (Node.Variable "x" 1) [] [Node.While (Node.Bool true 2) [] 2] 1

/-- The statement `if x` with a `break` in the then-branch and no else-branch. -/
def sampleIfNoElse : Node :=
  Node.If (Node.Variable "x" 1) [Node.Break 2] [] 1

/-- The program frame that `machineAt` builds. -/
def scriptFrame (code : List Nat) (pc : Int) : CallFrame :=
  { locals := fun _ => Value.nil
    function := { name := "[script]", args := [], arity := 0,
                  body := some { code := code, lines := [], constants := [] } }
    pc := pc
    dest := 0
    chunkType := ChunkType.TypeProgram }

/-- A function of one parameter whose body is `Return` with operand 3. -/
def sampleCallee : AuroraFunction Value :=
  { name := "f", args := ["x"], arity := 1,
    body := some { code := [OpReturn, 3], lines := [], constants := [] } }

/-- A program at its first instruction, `Call` of the function in register 1 with the given
arity operand, argument base 3 and destination 2, followed by `Return 0`; registers 1, 2
and 3 hold `sampleCallee`, `false` and `true`. -/
def sampleCallMachine (arity : Nat) : AuroraVM :=
  machineAt [OpCall, 1, arity, 3, 2, OpReturn, 0] 0
    [(1, Value.function sampleCallee), (2, Value.bool false), (3, Value.bool true)]

/-- A function without parameters whose body loads constant 0, `false`, into register 3
and returns. -/
def sampleLoader : AuroraFunction Value :=
  { name := "g", args := [], arity := 0,
    body := some { code := [OpLoad, 0, 3, OpReturn, 3], lines := [],
                   constants := [Value.bool false] } }

/-- A program at its first instruction, `Call` of `sampleLoader` held in register 1, with
registers 2 and 3 holding `false` and `true`. -/
def sampleLoadMachine : AuroraVM :=
  machineAt [OpCall, 1, 0, 3, 2, OpReturn, 0] 0
    [(1, Value.function sampleLoader), (2, Value.bool false), (3, Value.bool true)]

/-- The opcodes that `Step` runs through `floatBinary`, each with the operation it applies to
two `float64` operands. -/
def floatBinaryTable : List (Opcode × (Float → Float → Value)) :=
  [(OpAdd, fun x y => Value.float64 (x + y)),
   (OpSub, fun x y => Value.float64 (x - y)),
   (OpMul, fun x y => Value.float64 (x * y)),
   (OpDiv, fun x y => Value.float64 (x / y)),
   (OpMod, fun x y => Value.float64 (mathMod x y)),
   (OpLess, fun x y => Value.bool (x < y)),
   (OpLessEqual, fun x y => Value.bool (x <= y)),
   (OpGreater, fun x y => Value.bool (x > y)),
   (OpGreaterEqual, fun x y => Value.bool (x >= y))]

/-- The three-operand opcodes that need `float64` operands: `Add`, `Sub`, `Mul`, `Div`, `Mod`
and the four ordering comparisons. -/
def floatBinaryOps : List Opcode := floatBinaryTable.map Prod.fst

/-- The opcodes that `Step` runs through `floatInPlace`. -/
def floatInPlaceTable : List (Opcode × (Float → Float → Value)) :=
  [(OpAddTo, fun x y => Value.float64 (x + y)),
   (OpSubFrom, fun x y => Value.float64 (x - y))]

/-- The two-operand opcodes `AddTo` and `SubFrom`. -/
def floatInPlaceOps : List Opcode := floatInPlaceTable.map Prod.fst

/-- The arithmetic machine `[op, 1, 2, 3]` at pc 0 with the given registers. -/
def sampleArithMachine (op : Opcode) (regs : List (Nat × Value)) : AuroraVM :=
  machineAt [op, 1, 2, 3] 0 regs

/-- The program that loads the Numbers 1 and 2 into registers 1 and 2 and adds them into
register 3, on the machine made by `NewAuroraVM`. -/
def sampleSumMachine : AuroraVM :=
  NewAuroraVM (some { code := [OpLoad, 0, 1, OpLoad, 1, 2, OpAdd, 1, 2, 3], lines := [],
                      constants := [Value.float64 1, Value.float64 2] })

/-- A machine at `[Index, 1, 2, 3]` whose register 1 holds the list `{1, 2, 3}`, register 2
the given index value and register 3 nil. -/
def sampleIndexMachine (index : Value) : AuroraVM :=
  { machineAt [OpIndex, 1, 2, 3] 0 [(1, Value.slice 0), (2, index), (3, Value.nil)] with
    arrays := fun _ => [Value.float64 1, Value.float64 2, Value.float64 3] }

/-- A machine at `[op, 1, 2, 3]` whose registers 1 and 2 hold the given operands and whose
register 3 holds nil. -/
def sampleEqualMachine (op : Opcode) (va vb : Value) : AuroraVM :=
  machineAt [op, 1, 2, 3] 0 [(1, va), (2, vb), (3, Value.nil)]

/-- A chunk whose constant pool is full for a one-byte index: 256 times `false`. -/
def fullPoolChunk : Chunk Bool :=
  { code := [], lines := [], constants := List.replicate 256 false }

/-- The output of the `String` method that `stringer` generates for `TokenType`: the name of
the constant. -/
def tokenTypeName : TokenType → String
  | .IdTok => "IdTok"
  | .NumberTok => "NumberTok"
  | .StringTok => "StringTok"
  | .NewlineTok => "NewlineTok"
  | .LparenTok => "LparenTok"
  | .RparenTok => "RparenTok"
  | .LbraceTok => "LbraceTok"
  | .RbraceTok => "RbraceTok"
  | .ArrowTok => "ArrowTok"
  | .CommaTok => "CommaTok"
  | .ColonTok => "ColonTok"
  | .PlusTok => "PlusTok"
  | .MinusTok => "MinusTok"
  | .StarTok => "StarTok"
  | .SlashTok => "SlashTok"
  | .PercentTok => "PercentTok"
  | .EqualTok => "EqualTok"
  | .NotequalTok => "NotequalTok"
  | .LessTok => "LessTok"
  | .LessEqualTok => "LessEqualTok"
  | .GreaterTok => "GreaterTok"
  | .GreaterEqualTok => "GreaterEqualTok"
  | .AssignTok => "AssignTok"
  | .PlusAssignTok => "PlusAssignTok"
  | .MinusAssignTok => "MinusAssignTok"
  | .StarAssignTok => "StarAssignTok"
  | .SlashAssignTok => "SlashAssignTok"
  | .PercentAssignTok => "PercentAssignTok"
  | .IfTok => "IfTok"
  | .ElseTok => "ElseTok"
  | .WhileTok => "WhileTok"
  | .ForTok => "ForTok"
  | .FnTok => "FnTok"
  | .SubTok => "SubTok"
  | .ReturnTok => "ReturnTok"
  | .BreakTok => "BreakTok"
  | .ContinueTok => "ContinueTok"
  | .TrueTok => "TrueTok"
  | .FalseTok => "FalseTok"
  | .AndTok => "AndTok"
  | .OrTok => "OrTok"
  | .NotTok => "NotTok"
  | .EndTok => "EndTok"
  | .EofTok => "EofTok"

/-- The digits of a numeral as a number, most significant first; other characters are
skipped. -/
def digitsValue (cs : List Char) : Nat :=
  cs.foldl (fun n c => if isDigit c then 10 * n + (c.toNat - '0'.toNat) else n) 0

/-- The value of a numeral `digits` or `digits.digits`, the form of a `NumberTok`: the
digits without the point, scaled down by the number of digits after the point. -/
def decimalValue (s : String) : Float :=
  let whole := s.data.takeWhile (fun c => c ≠ '.')
  let fraction := (s.data.dropWhile (fun c => c ≠ '.')).drop 1
  Float.ofScientific (digitsValue (whole ++ fraction)) true fraction.length

/-- The external functions used in worked examples: `decimalValue` stands for
`strconv.ParseFloat` on the numerals the lexer produces, and a token type is shown by the
name of its constant. -/
def sampleExternals : Externals :=
  { ParseFloat := decimalValue
    tokenTypeString := tokenTypeName }

/-- The parser made by `NewParser(NewLexer(input))`. -/
def parserOn (input : String) : Parser := (NewParser (NewLexer input)).state

/-- The lexer on `input` at position `pos` of line 1. -/
def lexerAt (input : String) (pos : Int) : Lexer :=
  { input := input, start := 0, pos := pos, line := 1 }

/-- A token of line 1. -/
def tok1 (typ : TokenType) (value : String) : Token :=
  { Typ := typ, Value := value, Line := 1 }

/-! ## Specification vocabulary for the compiler -/

/-- The chunk `c'` keeps the first `base` code bytes of `c`, is at least `base` bytes long
and has the line table and constant pool of `c`. -/
def KeepsPrefix {V : Type} (base : Nat) (c c' : Chunk V) : Prop :=
  c'.code.take base = c.code.take base ∧ base ≤ c'.code.length ∧
    c'.lines = c.lines ∧ c'.constants = c.constants

/-- Compiler code `m` leaves the first `base` code bytes alone whenever it is started on a
chunk of at least `base` bytes, whether it returns or panics, and a returned value
satisfies `Q`. -/
def Preserves {V α : Type} (base : Nat) (m : Compile V α) (Q : α → Prop) : Prop :=
  ∀ c : Chunk V, base ≤ c.code.length →
    KeepsPrefix base c (m c).state ∧ ∀ a c', m c = Res.ok a c' → Q a

/-- One call of an emitter of `compiler.go`, with its arguments. -/
inductive EmitCall (V : Type) where
  | emitByte (b : Nat)
  | emitOp (op : Opcode)
  | emitConstant (value : V)
  | emitJump (op : Opcode)
  | emitLoop (start : Int)
  | patchJump (offset : Int)

/-- Perform one emitter call on the current chunk (the result of `emitJump` is dropped). -/
def EmitCall.run {V : Type} : EmitCall V → Compile V Unit
  | .emitByte b => Aurora.emitByte b
  | .emitOp op => Aurora.emitOp op
  | .emitConstant value => Aurora.emitConstant value
  | .emitJump op => do
      let _ ← Aurora.emitJump op
      pure ()
  | .emitLoop start => Aurora.emitLoop start
  | .patchJump offset => Aurora.patchJump offset

/-- The number of code bytes a completed emitter call appends. -/
def EmitCall.size {V : Type} : EmitCall V → Nat
  | .emitByte _ => 1
  | .emitOp _ => 1
  | .emitConstant _ => 2
  | .emitJump _ => 3
  | .emitLoop _ => 3
  | .patchJump _ => 0

/-- Perform a sequence of emitter calls, stopping at the first panic. -/
def runCalls {V : Type} : List (EmitCall V) → Compile V Unit
  | [] => pure ()
  | call :: rest => do
      call.run
      runCalls rest

/-! ## Specification vocabulary for the machine -/

/-- Every global slot that is set in `s` is still set in `s'`. -/
def GlobalsKept (s s' : AuroraVM) : Prop :=
  ∀ k : Int, s.globals k ≠ none → s'.globals k ≠ none

/-- Machine code `m` never removes a global slot, whether it returns or panics. -/
def KeepsGlobals {α : Type} (m : VM α) : Prop :=
  ∀ s : AuroraVM, GlobalsKept s (m s).state

/-! ## Specification vocabulary for the lexer -/

/-- A blank for `Next`: a space or a tab. -/
def isBlank (c : Char) : Prop := c = ' ' ∨ c = '\t'

/-- The characters that have a case of their own in the `switch` of `Next`. -/
def switchChars : List Char :=
  [' ', '\t', '\n', '(', ')', '{', '}', ',', ':', '+', '-', '*', '/', '%', '=', '!', '<', '>',
   '&', '"']

/-- A character that starts no token: it has no case in the `switch` of `Next` and is
neither a digit nor a letter or underscore. -/
def startsNoToken (c : Char) : Prop :=
  c ∉ switchChars ∧ isDigit c = false ∧ isAlpha c = false

/-- The rest of the input at the lexer's position. -/
def Lexer.rest (l : Lexer) : List Char := l.input.data.drop l.pos.toNat

/-- A character that starts a token only together with the character after it: `!` needs
`=` and `&` needs `&`. -/
def needsPartner (c partner : Char) : Prop :=
  (c = '!' ∧ partner = '=') ∨ (c = '&' ∧ partner = '&')

/-- Lexer code `m` never returns a token of type `EofTok`. -/
def ReturnsNoEof (m : Lex Token) : Prop :=
  ∀ (l : Lexer) (tok : Token) (l' : Lexer), m l = Res.ok tok l' → tok.Typ ≠ TokenType.EofTok

/-- Lexer code `m`, started in `l`, does not return a token of type `EofTok`. -/
def ReturnsNoEofAt (l : Lexer) (m : Lex Token) : Prop :=
  ∀ (tok : Token) (l' : Lexer), m l = Res.ok tok l' → tok.Typ ≠ TokenType.EofTok

/-! ## Specification vocabulary for the parser -/

/-- The binary operator that a token type stands for between two operands. -/
def binaryOp : TokenType → Option OperatorType
  | .StarTok => some .Multiply
  | .SlashTok => some .Divide
  | .PercentTok => some .Modulo
  | .PlusTok => some .Plus
  | .MinusTok => some .Minus
  | .GreaterTok => some .Greater
  | .GreaterEqualTok => some .GreaterEqual
  | .LessTok => some .Less
  | .LessEqualTok => some .LessEqual
  | .EqualTok => some .Equal
  | .NotequalTok => some .NotEqual
  | .AndTok => some .And
  | .OrTok => some .Or
  | _ => none

/-- The precedence level of a binary operator, from 1 (`or`, binds loosest) to 6
(`* / %`, binds tightest); 0 for the operators that are not binary. -/
def precedence : OperatorType → Nat
  | .Or => 1
  | .And => 2
  | .Equal => 3
  | .NotEqual => 3
  | .Less => 4
  | .LessEqual => 4
  | .Greater => 4
  | .GreaterEqual => 4
  | .Plus => 5
  | .Minus => 5
  | .Multiply => 6
  | .Divide => 6
  | .Modulo => 6
  | _ => 0

/-- The precedence level of a binary operator token; 0 for any other token. -/
def tokenLevel (t : TokenType) : Nat :=
  match binaryOp t with
  | some op => precedence op
  | none => 0

/-- The binary operators of one precedence level, by token type. -/
def levelOp (k : Nat) (t : TokenType) : Option OperatorType :=
  match binaryOp t with
  | some op => if precedence op = k then some op else none
  | none => none

/-- A literal or identifier token. -/
def isAtom (t : TokenType) : Bool :=
  t = .NumberTok || t = .StringTok || t = .IdTok || t = .TrueTok || t = .FalseTok

/-- The node that a literal or identifier token denotes. -/
def atomNode (ext : Externals) (tok : Token) : Node :=
  match tok.Typ with
  | .NumberTok => Node.Number (ext.ParseFloat tok.Value) tok.Line
  | .StringTok => Node.String tok.Value tok.Line
  | .TrueTok => Node.Bool true tok.Line
  | .FalseTok => Node.Bool false tok.Line
  | _ => Node.Variable tok.Value tok.Line

/-- The unary operator that a token type stands for in front of an operand. -/
def unaryOp : TokenType → Option OperatorType
  | .MinusTok => some .Minus
  | .NotTok => some .Not
  | _ => none

/-- An operand of the sequences of the claim about `expression`: unary minus and `not` tokens,
outermost first, in front of a literal or identifier token. -/
structure Operand where
  unaries : List Token
  atom : Token

/-- The tokens of an operand. -/
def Operand.tokens (o : Operand) : List Token := o.unaries ++ [o.atom]

/-- The operand's unary tokens are unary minus or `not`, and its last token is a literal or an
identifier. -/
def WellFormedOperand (o : Operand) : Prop :=
  (∀ u ∈ o.unaries, unaryOp u.Typ ≠ none) ∧ isAtom o.atom.Typ = true

/-- The node of a unary token `u` applied to the node `n`. -/
def unaryNode (u : Token) (n : Node) : Node :=
  match unaryOp u.Typ with
  | some op => Node.Unary n op u.Line
  | none => n

/-- The node that an operand denotes: its unary operators bind tighter than anything around
the operand, the first one outermost. -/
def operandNode (ext : Externals) (o : Operand) : Node :=
  o.unaries.foldr unaryNode (atomNode ext o.atom)

/-- A token at which an expression made of operands and binary operators ends: no binary
operator, and neither `(` nor `:`, which would continue the last operand. -/
def endsExpression (t : TokenType) : Prop :=
  binaryOp t = none ∧ t ≠ .LparenTok ∧ t ≠ .ColonTok

/-- What is read off an expression tree from left to right: the operands, and between them
the binary operators with their lines. -/
inductive Item where
  | operand (n : Node)
  | operator (op : OperatorType) (line : Int)

/-- The operands and binary operators of a tree from left to right; a node that is not a
`Binary` is one operand. -/
def inorder : Node → List Item
  | .Binary l r op line => inorder l ++ Item.operator op line :: inorder r
  | .If c t e line => [Item.operand (.If c t e line)]
  | .While c b line => [Item.operand (.While c b line)]
  | .For n i b line => [Item.operand (.For n i b line)]
  | .Func n a b line => [Item.operand (.Func n a b line)]
  | .Sub n a b line => [Item.operand (.Sub n a b line)]
  | .Return e line => [Item.operand (.Return e line)]
  | .Break line => [Item.operand (.Break line)]
  | .Continue line => [Item.operand (.Continue line)]
  | .FuncCall f a line => [Item.operand (.FuncCall f a line)]
  | .Assignment l r op line => [Item.operand (.Assignment l r op line)]
  | .AssignIndex l i r op line => [Item.operand (.AssignIndex l i r op line)]
  | .Unary e op line => [Item.operand (.Unary e op line)]
  | .Number v line => [Item.operand (.Number v line)]
  | .String v line => [Item.operand (.String v line)]
  | .Bool v line => [Item.operand (.Bool v line)]
  | .List v line => [Item.operand (.List v line)]
  | .Variable n line => [Item.operand (.Variable n line)]
  | .Index e i line => [Item.operand (.Index e i line)]

/-- The precedence level at the root of a tree: that of its operator for a `Binary`, and 7
for an operand, which binds tighter than every binary operator. -/
def rootLevel : Node → Nat
  | .Binary _ _ op _ => precedence op
  | _ => 7

/-- Operators bind by precedence and equal levels nest to the left: at every `Binary` node
the root of the left subtree binds at least as tightly as the node's operator and the root
of the right subtree binds strictly tighter. -/
def Nested : Node → Prop
  | .Binary l r op _ =>
      precedence op ≤ rootLevel l ∧ precedence op < rootLevel r ∧ Nested l ∧ Nested r
  | _ => True

/-- The tokens of a sequence `op1 e1 ... opn en` of operator tokens and operands. -/
def tokensOf : List (Token × Operand) → List Token
  | [] => []
  | pr :: rest => pr.1 :: (pr.2.tokens ++ tokensOf rest)

/-- The items that the sequence `op1 e1 ... opn en` denotes. -/
def itemsOf (ext : Externals) : List (Token × Operand) → List Item
  | [] => []
  | pr :: rest =>
      match binaryOp pr.1.Typ with
      | some op =>
          Item.operator op pr.1.Line :: Item.operand (operandNode ext pr.2) :: itemsOf ext rest
      | none => Item.operand (operandNode ext pr.2) :: itemsOf ext rest

/-- Every pair is a binary operator token followed by a well-formed operand. -/
def WellFormedPairs (pairs : List (Token × Operand)) : Prop :=
  ∀ pr ∈ pairs, binaryOp pr.1.Typ ≠ none ∧ WellFormedOperand pr.2

/-- The parser `p` has the tokens `ts` in front of it, its current token first, and is in
state `q` once it has taken them one by one from its lexer. -/
def Reads : Parser → List Token → Parser → Prop
  | p, [], q => p = q
  | p, t :: ts, q =>
      p.current = t ∧
        ∃ tok l, Lexer.Next p.lexer = Res.ok tok l ∧ Reads { lexer := l, current := tok } ts q

/-- The loop shared by the binary levels of the parser: while the current token is an
operator of the table `ops`, take it, parse the right operand with `sub` and grow the tree
to the left. -/
def binLoop (ext : Externals) (ops : TokenType → Option OperatorType) (sub : Parse Node) :
    Nat → Node → Parse Node
  | 0, _ => raise Panic.outOfFuel
  | n + 1, expr => do
    let t ← Parser.peekNext
    match ops t with
    | some op => do
        let line := (← Parser.eat ext t).Line
        let right ← sub
        binLoop ext ops sub n (Node.Binary expr right op line)
    | none => pure expr

/-- Parser code `f` parses one precedence level `k` on every sequence of fewer than `bound`
tokens: started in front of `e0 op1 e1 ... opn en`, it takes the operand `e0` and the
longest run of pairs whose operators have level at least `k`, and returns a nested tree of
exactly these items whose root has level at least `k`. -/
def ParsesLevel (ext : Externals) (k bound : Nat) (f : Parse Node) : Prop :=
  ∀ (p q : Parser) (a : Operand) (pairs : List (Token × Operand)),
    WellFormedOperand a → WellFormedPairs pairs →
    (a.tokens ++ tokensOf pairs).length < bound →
    Reads p (a.tokens ++ tokensOf pairs) q → endsExpression q.current.Typ →
    ∃ (t : Node) (m : Parser), f p = Res.ok t m ∧
      Reads m (tokensOf (pairs.dropWhile (fun pr => decide (k ≤ tokenLevel pr.1.Typ)))) q ∧
      inorder t = Item.operand (operandNode ext a) ::
        itemsOf ext (pairs.takeWhile (fun pr => decide (k ≤ tokenLevel pr.1.Typ))) ∧
      Nested t ∧ k ≤ rootLevel t

/-- A node that stands as one operand: it is no `Binary`, so it is one item, binds tightest
and is nested. -/
def IsOperandNode (n : Node) : Prop :=
  inorder n = [Item.operand n] ∧ rootLevel n = 7 ∧ Nested n

/-! ## Worked inputs for the parser -/

/-- The operand made of one literal or identifier token of line 1. -/
def atom1 (typ : TokenType) (value : String) : Operand :=
  { unaries := [], atom := tok1 typ value }

/-- The operator tokens and operands that follow the first operand in `1 + 2 * 3`. -/
def sumProductPairs : List (Token × Operand) :=
  [(tok1 .PlusTok "+", atom1 .NumberTok "2"), (tok1 .StarTok "*", atom1 .NumberTok "3")]

/-- The parser at the end of the text `1 + 2 * 3`. -/
def sumProductEnd : Parser :=
  { lexer := lexerAt "1 + 2 * 3" 9, current := tok1 .EofTok "" }

/-- The first operand of the text `-1 + not 2 * 3`. -/
def signedFirst : Operand :=
  { unaries := [tok1 .MinusTok "-"], atom := tok1 .NumberTok "1" }

/-- The operator tokens and operands that follow the first operand in `-1 + not 2 * 3`. -/
def signedPairs : List (Token × Operand) :=
  [(tok1 .PlusTok "+", { unaries := [tok1 .NotTok "not"], atom := tok1 .NumberTok "2" }),
   (tok1 .StarTok "*", atom1 .NumberTok "3")]

/-- The parser at the end of the text `-1 + not 2 * 3`. -/
def signedEnd : Parser :=
  { lexer := lexerAt "-1 + not 2 * 3" 14, current := tok1 .EofTok "" }

/-! ## Basic facts about the execution monad and the emitters -/

section Lemmas

variable {V : Type}

@[simp] theorem Exec.pure_apply {σ α : Type} (a : α) (s : σ) :
    (pure a : Exec σ α) s = Res.ok a s := rfl

@[simp] theorem Exec.bind_apply {σ α β : Type} (m : Exec σ α) (f : α → Exec σ β) (s : σ) :
    (m >>= f) s = match m s with
      | .ok a s1 => f a s1
      | .panic p s1 => .panic p s1 := rfl

@[simp] theorem getState_apply {σ : Type} (s : σ) : (getState : Exec σ σ) s = Res.ok s s := rfl

@[simp] theorem putState_apply {σ : Type} (t s : σ) : putState t s = Res.ok () t := rfl

@[simp] theorem raise_apply {σ α : Type} (p : Panic) (s : σ) :
    (raise p : Exec σ α) s = Res.panic p s := rfl

@[simp] theorem emitByte_apply (b : Nat) (c : Chunk V) :
    emitByte b c = Res.ok () { c with code := c.code ++ [b] } := rfl

@[simp] theorem emitOp_apply (op : Opcode) (c : Chunk V) :
    emitOp op c = Res.ok () { c with code := c.code ++ [op % 256] } := rfl

theorem emitJump_apply (op : Opcode) (c : Chunk V) :
    emitJump op c =
      Res.ok ((c.code.length : Int) + 1) { c with code := c.code ++ [op % 256, 255, 255] } := by
  simp only [emitJump, Exec.bind_apply, emitOp_apply, emitByte_apply, getState_apply,
    Exec.pure_apply, List.append_assoc, List.singleton_append, List.length_append,
    List.length_cons, List.length_nil]
  congr 1
  push_cast
  ring

theorem toByte_natCast (k : Nat) : toByte (k : Int) = k % 256 := by
  unfold toByte
  omega

theorem toByte_shift_natCast (k : Nat) : toByte ((k : Int) >>> (8 : Nat)) = k / 256 % 256 := by
  have h : ((k : Int) >>> (8 : Nat)) = ((k / 256 : Nat) : Int) := by
    rw [Int.shiftRight_eq_div_pow]
    norm_num
  rw [h, toByte_natCast]

theorem emitLoop_apply (start : Int) (c : Chunk V) :
    emitLoop start c =
      if (c.code.length : Int) + 3 - start > 65535 then
        Res.panic (Panic.explicit "Loop body too large.") { c with code := c.code ++ [OpLoop] }
      else
        Res.ok () { c with code := c.code ++
          [OpLoop, toByte (((c.code.length : Int) + 3 - start) >>> (8 : Nat)),
            toByte ((c.code.length : Int) + 3 - start)] } := by
  have e : ((c.code ++ [OpLoop % 256]).length : Int) - start + 2
      = (c.code.length : Int) + 3 - start := by
    simp only [List.length_append, List.length_cons, List.length_nil]
    push_cast
    ring
  simp only [emitLoop, Exec.bind_apply, emitOp_apply, getState_apply, e]
  split
  · simp [OpLoop]
  · simp [OpLoop]

theorem patchJump_apply (offset : Int) (c : Chunk V) :
    patchJump offset c =
      if (c.code.length : Int) - offset - 2 > 65535 then
        Res.panic (Panic.explicit "Too much code to jump over.") c
      else if 0 ≤ offset ∧ offset < c.code.length then
        if offset + 1 < c.code.length then
          Res.ok () { c with code := (List.set
            (c.code.set offset.toNat (toByte (((c.code.length : Int) - offset - 2) >>> (8 : Nat))))
            (offset + 1).toNat (toByte ((c.code.length : Int) - offset - 2))) }
        else
          Res.panic Panic.indexOutOfRange { c with code := (List.set c.code offset.toNat
            (toByte (((c.code.length : Int) - offset - 2) >>> (8 : Nat)))) }
      else
        Res.panic Panic.indexOutOfRange c := by
  simp only [patchJump, Exec.bind_apply, getState_apply]
  split
  · simp
  · by_cases h1 : 0 ≤ offset ∧ offset < c.code.length
    · by_cases h2 : offset + 1 < c.code.length
      · have h3 : 0 ≤ offset + 1 := by omega
        simp [storeCode, h1, h2, h3]
      · have h3 : ¬ (offset + 1 < (c.code.length : Int)) := h2
        simp [storeCode, h1, h3]
    · simp [storeCode, h1]

end Lemmas

/-! ## The emitters: placeholders, patching and loops -/

section EmitterTheorems

variable {V : Type}

/-- C10: on a chunk whose code has length `n`, `emitJump(op)` returns `n + 1`, appends exactly
the three bytes `[op, 0xFF, 0xFF]` and leaves the `n` earlier bytes (and the line table and
constant pool) unchanged. -/
theorem emitJump_appends_placeholder (op : Opcode) (hop : op < 256) (c : Chunk V) :
    ∃ c' : Chunk V,
      emitJump op c = Res.ok ((c.code.length : Int) + 1) c' ∧
      c'.code = c.code ++ [op, 0xFF, 0xFF] ∧
      c'.code.length = c.code.length + 3 ∧
      (∀ i, i < c.code.length → c'.code[i]? = c.code[i]?) ∧
      c'.lines = c.lines ∧ c'.constants = c.constants := by
  refine ⟨{ c with code := c.code ++ [op, 0xFF, 0xFF] }, ?_, rfl, ?_, ?_, rfl, rfl⟩
  · rw [emitJump_apply, Nat.mod_eq_of_lt hop]
  · simp
  · intro i hi
    simp [List.getElem?_append_left hi]

theorem emitJump_appends_placeholder_witness :
    (19 : Nat) < 256 ∧ ∃ c' : Chunk Unit,
      emitJump 19 (Chunk.mk [7, 7] [] []) = Res.ok (((Chunk.mk [7, 7] [] [] : Chunk Unit).code.length : Int) + 1) c' ∧
      c'.code = (Chunk.mk [7, 7] [] [] : Chunk Unit).code ++ [19, 0xFF, 0xFF] ∧
      c'.code.length = (Chunk.mk [7, 7] [] [] : Chunk Unit).code.length + 3 ∧
      (∀ i, i < (Chunk.mk [7, 7] [] [] : Chunk Unit).code.length →
        c'.code[i]? = (Chunk.mk [7, 7] [] [] : Chunk Unit).code[i]?) ∧
      c'.lines = (Chunk.mk [7, 7] [] [] : Chunk Unit).lines ∧
      c'.constants = (Chunk.mk [7, 7] [] [] : Chunk Unit).constants :=
  ⟨by decide, emitJump_appends_placeholder 19 (by decide) (Chunk.mk [7, 7] [] [])⟩

/-- C4: for a placeholder at `offset` (two bytes inside the code) whose distance
`j = len(code) - offset - 2` to the end of the code is at most 65535, `patchJump(offset)`
returns normally and overwrites exactly `code[offset]` and `code[offset+1]` with the high and
the low byte of `j`, so `(offset + 2) + j = len(code)`; the length of the code, every other
byte, the line table and the constants are unchanged. -/
theorem patchJump_writes_distance (c : Chunk V) (offset : Nat)
    (h1 : offset + 2 ≤ c.code.length) (h2 : c.code.length - offset - 2 ≤ 65535) :
    ∃ (c' : Chunk V) (hi lo : Nat),
      patchJump (offset : Int) c = Res.ok () c' ∧
      hi < 256 ∧ lo < 256 ∧ hi * 256 + lo = c.code.length - offset - 2 ∧
      (offset + 2) + (hi * 256 + lo) = c.code.length ∧
      c'.code[offset]? = some hi ∧ c'.code[offset + 1]? = some lo ∧
      c'.code.length = c.code.length ∧
      (∀ i, i ≠ offset → i ≠ offset + 1 → c'.code[i]? = c.code[i]?) ∧
      c'.lines = c.lines ∧ c'.constants = c.constants := by
  have e : (c.code.length : Int) - (offset : Int) - 2 = ((c.code.length - offset - 2 : Nat) : Int) := by
    omega
  have hp := patchJump_apply (offset : Int) c
  rw [e, toByte_natCast, toByte_shift_natCast] at hp
  have g1 : ¬ (((c.code.length - offset - 2 : Nat) : Int) > 65535) := by omega
  have g2 : (0 : Int) ≤ (offset : Int) ∧ (offset : Int) < c.code.length := by omega
  have g3 : (offset : Int) + 1 < c.code.length := by omega
  rw [if_neg g1, if_pos g2, if_pos g3] at hp
  have t1 : ((offset : Int)).toNat = offset := by omega
  have t2 : ((offset : Int) + 1).toNat = offset + 1 := by omega
  rw [t1, t2] at hp
  refine ⟨_, (c.code.length - offset - 2) / 256 % 256, (c.code.length - offset - 2) % 256,
    hp, ?_, ?_, ?_, ?_, ?_, ?_, ?_, ?_, rfl, rfl⟩
  · omega
  · omega
  · omega
  · omega
  · have : offset < c.code.length := by omega
    simp [List.getElem?_set, this]
  · have : offset + 1 < c.code.length := by omega
    simp [List.getElem?_set, this]
  · simp
  · intro i hi1 hi2
    simp [List.getElem?_set, Ne.symm hi1, Ne.symm hi2]

theorem patchJump_writes_distance_witness :
    ∃ (c' : Chunk Unit) (hi lo : Nat),
      patchJump ((1 : Nat) : Int) (Chunk.mk [18, 255, 255, 9, 9] [] []) = Res.ok () c' ∧
      hi < 256 ∧ lo < 256 ∧
      hi * 256 + lo = (Chunk.mk [18, 255, 255, 9, 9] [] [] : Chunk Unit).code.length - 1 - 2 ∧
      (1 + 2) + (hi * 256 + lo) = (Chunk.mk [18, 255, 255, 9, 9] [] [] : Chunk Unit).code.length ∧
      c'.code[1]? = some hi ∧ c'.code[1 + 1]? = some lo ∧
      c'.code.length = (Chunk.mk [18, 255, 255, 9, 9] [] [] : Chunk Unit).code.length ∧
      (∀ i, i ≠ 1 → i ≠ 1 + 1 →
        c'.code[i]? = (Chunk.mk [18, 255, 255, 9, 9] [] [] : Chunk Unit).code[i]?) ∧
      c'.lines = (Chunk.mk [18, 255, 255, 9, 9] [] [] : Chunk Unit).lines ∧
      c'.constants = (Chunk.mk [18, 255, 255, 9, 9] [] [] : Chunk Unit).constants :=
  patchJump_writes_distance (Chunk.mk [18, 255, 255, 9, 9] [] []) 1 (by decide) (by decide)

/-- C5: on a chunk whose code has length `n`, for `start ≤ n` with `d = n + 3 - start` at
most 65535, `emitLoop(start)` returns normally and appends exactly `OpLoop` followed by the
high and the low byte of `d`; the position just after the offset field, `n + 3`, minus `d` is
`start`, and the `n` earlier bytes are unchanged. -/
theorem emitLoop_appends_distance (c : Chunk V) (start : Nat)
    (h1 : start ≤ c.code.length) (h2 : c.code.length + 3 - start ≤ 65535) :
    ∃ (c' : Chunk V) (hi lo : Nat),
      emitLoop (start : Int) c = Res.ok () c' ∧
      c'.code = c.code ++ [OpLoop, hi, lo] ∧
      hi < 256 ∧ lo < 256 ∧ hi * 256 + lo = c.code.length + 3 - start ∧
      (c.code.length + 3) - (hi * 256 + lo) = start ∧
      (∀ i, i < c.code.length → c'.code[i]? = c.code[i]?) ∧
      c'.lines = c.lines ∧ c'.constants = c.constants := by
  have e : (c.code.length : Int) + 3 - (start : Int) = ((c.code.length + 3 - start : Nat) : Int) := by
    omega
  have hp := emitLoop_apply (start : Int) c
  rw [e, toByte_natCast, toByte_shift_natCast] at hp
  have g1 : ¬ (((c.code.length + 3 - start : Nat) : Int) > 65535) := by omega
  rw [if_neg g1] at hp
  refine ⟨_, (c.code.length + 3 - start) / 256 % 256, (c.code.length + 3 - start) % 256,
    hp, rfl, ?_, ?_, ?_, ?_, ?_, rfl, rfl⟩
  · omega
  · omega
  · omega
  · omega
  · intro i hi
    simp [List.getElem?_append_left hi]

theorem emitLoop_appends_distance_witness :
    ∃ (c' : Chunk Unit) (hi lo : Nat),
      emitLoop ((1 : Nat) : Int) (Chunk.mk [9, 19, 255, 255] [] []) = Res.ok () c' ∧
      c'.code = (Chunk.mk [9, 19, 255, 255] [] [] : Chunk Unit).code ++ [OpLoop, hi, lo] ∧
      hi < 256 ∧ lo < 256 ∧
      hi * 256 + lo = (Chunk.mk [9, 19, 255, 255] [] [] : Chunk Unit).code.length + 3 - 1 ∧
      ((Chunk.mk [9, 19, 255, 255] [] [] : Chunk Unit).code.length + 3) - (hi * 256 + lo) = 1 ∧
      (∀ i, i < (Chunk.mk [9, 19, 255, 255] [] [] : Chunk Unit).code.length →
        c'.code[i]? = (Chunk.mk [9, 19, 255, 255] [] [] : Chunk Unit).code[i]?) ∧
      c'.lines = (Chunk.mk [9, 19, 255, 255] [] [] : Chunk Unit).lines ∧
      c'.constants = (Chunk.mk [9, 19, 255, 255] [] [] : Chunk Unit).constants :=
  emitLoop_appends_distance (Chunk.mk [9, 19, 255, 255] [] []) 1 (by decide) (by decide)

/-- C6: a branch of more than 65535 bytes is refused at compile time. `patchJump(offset)`
panics with its too-far message exactly when `len(code) - offset - 2 > 65535`, for a
placeholder inside the code that is its only failure, and the chunk is then unchanged;
`emitLoop(start)` fails exactly when its distance `len(code) + 3 - start` exceeds 65535, and
then only the `OpLoop` opcode has been appended: no offset byte is written for such a
distance. -/
theorem branch_too_far_is_refused (c : Chunk V) :
    (∀ offset : Int,
      (patchJump offset c).failure = some (Panic.explicit "Too much code to jump over.") ↔
        (c.code.length : Int) - offset - 2 > 65535) ∧
    (∀ offset : Nat, offset + 2 ≤ c.code.length →
      ((patchJump (offset : Int) c).failure ≠ none ↔ c.code.length - offset - 2 > 65535)) ∧
    (∀ offset : Int, (c.code.length : Int) - offset - 2 > 65535 →
      (patchJump offset c).state = c) ∧
    (∀ start : Int,
      (emitLoop start c).failure ≠ none ↔ (c.code.length : Int) + 3 - start > 65535) ∧
    (∀ start : Int,
      (emitLoop start c).failure = some (Panic.explicit "Loop body too large.") ↔
        (c.code.length : Int) + 3 - start > 65535) ∧
    (∀ start : Int, (c.code.length : Int) + 3 - start > 65535 →
      (emitLoop start c).state.code = c.code ++ [OpLoop]) := by
  refine ⟨?_, ?_, ?_, ?_, ?_, ?_⟩
  · intro offset
    rw [patchJump_apply]
    by_cases h : (c.code.length : Int) - offset - 2 > 65535
    · simp [h, Res.failure]
    · simp only [h, if_false, iff_false]
      split
      · split <;> simp [Res.failure]
      · simp [Res.failure]
  · intro offset hoff
    rw [patchJump_apply]
    by_cases h : (c.code.length : Int) - (offset : Int) - 2 > 65535
    · have h' : c.code.length - offset - 2 > 65535 := by omega
      simp [h, h', Res.failure]
    · have h' : ¬ (c.code.length - offset - 2 > 65535) := by omega
      have g2 : (0 : Int) ≤ (offset : Int) ∧ (offset : Int) < c.code.length := by omega
      have g3 : (offset : Int) + 1 < c.code.length := by omega
      simp only [if_neg h, if_pos g2, if_pos g3]
      simp [h', Res.failure]
  · intro offset h
    rw [patchJump_apply, if_pos h]
    rfl
  · intro start
    rw [emitLoop_apply]
    by_cases h : (c.code.length : Int) + 3 - start > 65535
    · simp [h, Res.failure]
    · simp [h, Res.failure]
  · intro start
    rw [emitLoop_apply]
    by_cases h : (c.code.length : Int) + 3 - start > 65535
    · simp [h, Res.failure]
    · simp [h, Res.failure]
  · intro start h
    rw [emitLoop_apply, if_pos h]
    rfl

end EmitterTheorems

/-! ## Compilation only ever touches the code it appends -/

section CompileAppends

variable {V : Type}

theorem KeepsPrefix.refl (base : Nat) (c : Chunk V) (h : base ≤ c.code.length) :
    KeepsPrefix base c c :=
  ⟨rfl, h, rfl, rfl⟩

theorem KeepsPrefix.trans {base : Nat} {c c1 c2 : Chunk V}
    (h1 : KeepsPrefix base c c1) (h2 : KeepsPrefix base c1 c2) : KeepsPrefix base c c2 :=
  ⟨h2.1.trans h1.1, h2.2.1, h2.2.2.1.trans h1.2.2.1, h2.2.2.2.trans h1.2.2.2⟩

theorem take_set_of_le {α : Type} (l : List α) (a : α) {base i : Nat} (h : base ≤ i) :
    (l.set i a).take base = l.take base := by
  induction l generalizing base i with
  | nil => simp
  | cons x xs ih =>
    cases i with
    | zero =>
      have : base = 0 := by omega
      subst this
      simp
    | succ i =>
      cases base with
      | zero => simp
      | succ base =>
        simp only [List.set_cons_succ, List.take_succ_cons]
        rw [ih (by omega)]

theorem Preserves.bind {α β : Type} {base : Nat} {m : Compile V α} {f : α → Compile V β}
    {Q : α → Prop} {Q' : β → Prop}
    (hm : Preserves base m Q) (hf : ∀ a, Q a → Preserves base (f a) Q') :
    Preserves base (m >>= f) Q' := by
  intro c hc
  obtain ⟨k1, q1⟩ := hm c hc
  rw [Exec.bind_apply]
  cases hmc : m c with
  | ok a c1 =>
    rw [hmc] at k1
    have hlen : base ≤ c1.code.length := k1.2.1
    obtain ⟨k2, q2⟩ := hf a (q1 a c1 hmc) c1 hlen
    exact ⟨k1.trans k2, q2⟩
  | panic p c1 =>
    rw [hmc] at k1
    refine ⟨k1, ?_⟩
    intro a c' h
    cases h

theorem Preserves.pure {α : Type} (base : Nat) (a : α) :
    Preserves base (pure a : Compile V α) (fun _ => True) :=
  fun c hc => ⟨KeepsPrefix.refl base c hc, fun _ _ _ => trivial⟩

theorem Preserves.getState (base : Nat) :
    Preserves base (getState : Compile V (Chunk V)) (fun _ => True) :=
  fun c hc => ⟨KeepsPrefix.refl base c hc, fun _ _ _ => trivial⟩

theorem Preserves.emitJump (base : Nat) (op : Opcode) :
    Preserves base (emitJump op : Compile V Int) (fun j => (base : Int) ≤ j) := by
  intro c hc
  rw [emitJump_apply]
  refine ⟨⟨?_, ?_, rfl, rfl⟩, ?_⟩
  · simp [Res.state, List.take_append_of_le_length hc]
  · simp [Res.state]
    omega
  · intro a c' h
    cases h
    omega

theorem Preserves.emitLoop (base : Nat) (start : Int) :
    Preserves base (emitLoop start : Compile V Unit) (fun _ => True) := by
  intro c hc
  rw [emitLoop_apply]
  refine ⟨?_, fun _ _ _ => trivial⟩
  split
  · refine ⟨?_, ?_, rfl, rfl⟩
    · simp [Res.state, List.take_append_of_le_length hc]
    · simp [Res.state]
      omega
  · refine ⟨?_, ?_, rfl, rfl⟩
    · simp [Res.state, List.take_append_of_le_length hc]
    · simp [Res.state]
      omega

theorem Preserves.patchJump (base : Nat) (offset : Int) (h : (base : Int) ≤ offset) :
    Preserves base (patchJump offset : Compile V Unit) (fun _ => True) := by
  intro c hc
  rw [patchJump_apply]
  refine ⟨?_, fun _ _ _ => trivial⟩
  have t1 : base ≤ offset.toNat := by omega
  have t2 : base ≤ (offset + 1).toNat := by omega
  split
  · exact KeepsPrefix.refl base c hc
  · split
    · split
      · refine ⟨?_, ?_, rfl, rfl⟩
        · simp only [Res.state]
          rw [take_set_of_le _ _ t2, take_set_of_le _ _ t1]
        · simpa [Res.state] using hc
      · refine ⟨?_, ?_, rfl, rfl⟩
        · simp only [Res.state]
          rw [take_set_of_le _ _ t1]
        · simpa [Res.state] using hc
    · exact KeepsPrefix.refl base c hc

mutual
theorem compile_preserves :
    ∀ (base : Nat) (n : Node), Preserves base (compile n : Compile V Unit) (fun _ => True)
  | base, .If cond thn els _ => by
      simp only [compile]
      exact (compile_preserves base cond).bind fun _ _ =>
        (Preserves.emitJump base OpJumpIfFalse).bind fun falseJump hfj =>
        (compileList_preserves base thn).bind fun _ _ =>
        (Preserves.emitJump base OpJump).bind fun endJump hej =>
        (Preserves.patchJump base falseJump hfj).bind fun _ _ =>
        (compileList_preserves base els).bind fun _ _ =>
        Preserves.patchJump base endJump hej
  | base, .While cond body _ => by
      simp only [compile]
      exact (Preserves.getState base).bind fun c _ =>
        (compile_preserves base cond).bind fun _ _ =>
        (Preserves.emitJump base OpJumpIfFalse).bind fun exitJump hxj =>
        (compileList_preserves base body).bind fun _ _ =>
        (Preserves.emitLoop base (c.code.length : Int)).bind fun _ _ =>
        Preserves.patchJump base exitJump hxj
  | base, .For _ _ _ _ => by
      simp only [compile]
      exact Preserves.pure base ()
  | base, .Func _ _ _ _ => by
      simp only [compile]
      exact Preserves.pure base ()
  | base, .Sub _ _ _ _ => by
      simp only [compile]
      exact Preserves.pure base ()
  | base, .Return _ _ => by
      simp only [compile]
      exact Preserves.pure base ()
  | base, .Break _ => by
      simp only [compile]
      exact Preserves.pure base ()
  | base, .Continue _ => by
      simp only [compile]
      exact Preserves.pure base ()
  | base, .FuncCall _ _ _ => by
      simp only [compile]
      exact Preserves.pure base ()
  | base, .Assignment _ _ _ _ => by
      simp only [compile]
      exact Preserves.pure base ()
  | base, .AssignIndex _ _ _ _ _ => by
      simp only [compile]
      exact Preserves.pure base ()
  | base, .Unary _ _ _ => by
      simp only [compile]
      exact Preserves.pure base ()
  | base, .Binary _ _ _ _ => by
      simp only [compile]
      exact Preserves.pure base ()
  | base, .Number _ _ => by
      simp only [compile]
      exact Preserves.pure base ()
  | base, .String _ _ => by
      simp only [compile]
      exact Preserves.pure base ()
  | base, .Bool _ _ => by
      simp only [compile]
      exact Preserves.pure base ()
  | base, .List _ _ => by
      simp only [compile]
      exact Preserves.pure base ()
  | base, .Variable _ _ => by
      simp only [compile]
      exact Preserves.pure base ()
  | base, .Index _ _ _ => by
      simp only [compile]
      exact Preserves.pure base ()
theorem compileList_preserves :
    ∀ (base : Nat) (ns : List Node),
      Preserves base (compileList ns : Compile V Unit) (fun _ => True)
  | base, [] => by
      simp only [compileList]
      exact Preserves.pure base ()
  | base, n :: rest => by
      simp only [compileList]
      exact (compile_preserves base n).bind fun _ _ => compileList_preserves base rest
end

/-- Whether it returns or panics, `compile` leaves the chunk as it was except that bytes
have been appended to the code. -/
theorem compile_appends (n : Node) (c : Chunk V) :
    ∃ bs : List Nat, (compile n c).state = { c with code := c.code ++ bs } := by
  obtain ⟨⟨h1, h2, h3, h4⟩, _⟩ := compile_preserves c.code.length n c (le_refl _)
  refine ⟨(compile n c).state.code.drop c.code.length, ?_⟩
  have hc : (compile n c).state.code
      = c.code ++ (compile n c).state.code.drop c.code.length := by
    conv_lhs => rw [← List.take_append_drop c.code.length (compile n c).state.code]
    rw [h1, List.take_length]
  cases hs : (compile n c).state with
  | mk code lines constants =>
    rw [hs] at hc h3 h4
    simp only at hc h3 h4
    rw [← hc, h3, h4]

/-- The same for a list of statements. -/
theorem compileList_appends (ns : List Node) (c : Chunk V) :
    ∃ bs : List Nat, (compileList ns c).state = { c with code := c.code ++ bs } := by
  obtain ⟨⟨h1, h2, h3, h4⟩, _⟩ := compileList_preserves c.code.length ns c (le_refl _)
  refine ⟨(compileList ns c).state.code.drop c.code.length, ?_⟩
  have hc : (compileList ns c).state.code
      = c.code ++ (compileList ns c).state.code.drop c.code.length := by
    conv_lhs => rw [← List.take_append_drop c.code.length (compileList ns c).state.code]
    rw [h1, List.take_length]
  cases hs : (compileList ns c).state with
  | mk code lines constants =>
    rw [hs] at hc h3 h4
    simp only at hc h3 h4
    rw [← hc, h3, h4]

theorem set_append_length {α : Type} (pre suf : List α) (x a : α) :
    (pre ++ x :: suf).set pre.length a = pre ++ a :: suf := by
  induction pre with
  | nil => rfl
  | cons p ps ih => simp [ih]

/-- Patching a placeholder that is followed by `suf`: the two placeholder bytes become the
high and the low byte of `suf.length`, unless that exceeds 65535. -/
theorem patchJump_placeholder (c : Chunk V) (pre suf : List Nat) (x y : Nat)
    (h : c.code = pre ++ x :: y :: suf) :
    patchJump (pre.length : Int) c =
      if suf.length > 65535 then
        Res.panic (Panic.explicit "Too much code to jump over.") c
      else
        Res.ok () { c with code :=
          pre ++ (suf.length / 256 % 256) :: (suf.length % 256) :: suf } := by
  have hlen : c.code.length = pre.length + (suf.length + 2) := by
    rw [h]
    simp
  have e : (c.code.length : Int) - (pre.length : Int) - 2 = ((suf.length : Nat) : Int) := by
    omega
  rw [patchJump_apply, e, toByte_natCast, toByte_shift_natCast]
  by_cases hs : suf.length > 65535
  · have hs' : ((suf.length : Nat) : Int) > 65535 := by omega
    rw [if_pos hs, if_pos hs']
  · have hs' : ¬ (((suf.length : Nat) : Int) > 65535) := by omega
    have g2 : (0 : Int) ≤ (pre.length : Int) ∧ (pre.length : Int) < c.code.length := by omega
    have g3 : (pre.length : Int) + 1 < c.code.length := by omega
    have t1 : ((pre.length : Int)).toNat = pre.length := by omega
    have t2 : ((pre.length : Int) + 1).toNat = (pre ++ [suf.length / 256 % 256]).length := by
      simp
    rw [if_neg hs, if_neg hs', if_pos g2, if_pos g3, t1, h, set_append_length]
    have a1 : pre ++ (suf.length / 256 % 256) :: y :: suf
        = (pre ++ [suf.length / 256 % 256]) ++ y :: suf := by simp
    rw [a1, t2, set_append_length]
    simp

/-- A returning `While.compile`, step by step. -/
theorem While_compile_run (cond : Node) (body : List Node) (line : Int) (c c' : Chunk V)
    (h : compile (Node.While cond body line) c = Res.ok () c') :
    ∃ condCode bodyCode : List Nat,
      compile cond c = Res.ok () { c with code := c.code ++ condCode } ∧
      compileList body { c with code := c.code ++ condCode ++ [OpJumpIfFalse, 255, 255] } =
        Res.ok () { c with code := c.code ++ condCode ++ [OpJumpIfFalse, 255, 255] ++ bodyCode } ∧
      condCode.length + bodyCode.length + 6 ≤ 65535 ∧
      c' = { c with code := c.code ++ condCode ++
        [OpJumpIfFalse, (bodyCode.length + 3) / 256, (bodyCode.length + 3) % 256] ++ bodyCode ++
        [OpLoop, (condCode.length + bodyCode.length + 6) / 256,
          (condCode.length + bodyCode.length + 6) % 256] } := by
  simp only [compile, Exec.bind_apply, getState_apply] at h
  obtain ⟨condCode, hcs⟩ := compile_appends cond c
  cases hc : compile cond c with
  | panic p s =>
    rw [hc] at h
    cases h
  | ok u c1 =>
    rw [hc] at h hcs
    simp only [Res.state] at hcs
    subst hcs
    simp only [emitJump_apply] at h
    obtain ⟨bodyCode, hbs⟩ := compileList_appends body
      ({ c with code := c.code ++ condCode ++ [OpJumpIfFalse % 256, 255, 255] } : Chunk V)
    cases hb : compileList body
        ({ c with code := c.code ++ condCode ++ [OpJumpIfFalse % 256, 255, 255] } : Chunk V) with
    | panic p s =>
      rw [hb] at h
      cases h
    | ok u2 c3 =>
      rw [hb] at h hbs
      simp only [Res.state] at hbs
      subst hbs
      have e19 : OpJumpIfFalse % 256 = OpJumpIfFalse := rfl
      rw [e19] at h hb
      have hd : ((c.code ++ condCode ++ [OpJumpIfFalse, 255, 255] ++ bodyCode).length : Int) + 3
          - (c.code.length : Int) = ((condCode.length + bodyCode.length + 6 : Nat) : Int) := by
        simp only [List.length_append, List.length_cons, List.length_nil]
        omega
      simp only [emitLoop_apply, hd, toByte_natCast, toByte_shift_natCast] at h
      by_cases hbig : condCode.length + bodyCode.length + 6 > 65535
      · have hbig' : ((condCode.length + bodyCode.length + 6 : Nat) : Int) > 65535 := by omega
        rw [if_pos hbig'] at h
        cases h
      · have hbig' : ¬ (((condCode.length + bodyCode.length + 6 : Nat) : Int) > 65535) := by omega
        rw [if_neg hbig'] at h
        simp only at h
        have hp := patchJump_placeholder
          ({ c with code := c.code ++ condCode ++ [OpJumpIfFalse, 255, 255] ++ bodyCode ++
              [OpLoop, (condCode.length + bodyCode.length + 6) / 256 % 256,
                (condCode.length + bodyCode.length + 6) % 256] } : Chunk V)
          (c.code ++ condCode ++ [OpJumpIfFalse])
          (bodyCode ++ [OpLoop, (condCode.length + bodyCode.length + 6) / 256 % 256,
                (condCode.length + bodyCode.length + 6) % 256]) 255 255 (by simp)
        have hpre : ((c.code ++ condCode ++ [OpJumpIfFalse]).length : Int)
            = ((c.code ++ condCode).length : Int) + 1 := by
          simp only [List.length_append, List.length_cons, List.length_nil]
          omega
        have hsuf : ¬ ((bodyCode ++ [OpLoop, (condCode.length + bodyCode.length + 6) / 256 % 256,
                (condCode.length + bodyCode.length + 6) % 256]).length > 65535) := by
          simp only [List.length_append, List.length_cons, List.length_nil]
          omega
        rw [hpre, if_neg hsuf] at hp
        rw [hp] at h
        have e1 : (condCode.length + bodyCode.length + 6) / 256 % 256
            = (condCode.length + bodyCode.length + 6) / 256 := Nat.mod_eq_of_lt (by omega)
        have e2 : (bodyCode.length + 3) / 256 % 256 = (bodyCode.length + 3) / 256 :=
          Nat.mod_eq_of_lt (by omega)
        have e3 : (bodyCode ++ [OpLoop, (condCode.length + bodyCode.length + 6) / 256 % 256,
                (condCode.length + bodyCode.length + 6) % 256]).length = bodyCode.length + 3 := by
          simp
        rw [e3, e1, e2] at h
        simp only [Res.ok.injEq, true_and] at h
        subst h
        refine ⟨condCode, bodyCode, rfl, hb, by omega, ?_⟩
        simp

/-- A returning `If.compile`, step by step. -/
theorem If_compile_run (cond : Node) (thn els : List Node) (line : Int) (c c' : Chunk V)
    (h : compile (Node.If cond thn els line) c = Res.ok () c') :
    ∃ condCode thenCode elseCode : List Nat,
      compile cond c = Res.ok () { c with code := c.code ++ condCode } ∧
      compileList thn { c with code := c.code ++ condCode ++ [OpJumpIfFalse, 255, 255] } =
        Res.ok () { c with code := c.code ++ condCode ++ [OpJumpIfFalse, 255, 255] ++ thenCode } ∧
      compileList els { c with code := c.code ++ condCode ++
          [OpJumpIfFalse, (thenCode.length + 3) / 256, (thenCode.length + 3) % 256] ++ thenCode ++
          [OpJump, 255, 255] } =
        Res.ok () { c with code := c.code ++ condCode ++
          [OpJumpIfFalse, (thenCode.length + 3) / 256, (thenCode.length + 3) % 256] ++ thenCode ++
          [OpJump, 255, 255] ++ elseCode } ∧
      thenCode.length + 3 ≤ 65535 ∧ elseCode.length ≤ 65535 ∧
      c' = { c with code := c.code ++ condCode ++
        [OpJumpIfFalse, (thenCode.length + 3) / 256, (thenCode.length + 3) % 256] ++ thenCode ++
        [OpJump, elseCode.length / 256, elseCode.length % 256] ++ elseCode } := by
  simp only [compile, Exec.bind_apply] at h
  obtain ⟨condCode, hcs⟩ := compile_appends cond c
  cases hc : compile cond c with
  | panic p s =>
    rw [hc] at h
    cases h
  | ok u c1 =>
    rw [hc] at h hcs
    simp only [Res.state] at hcs
    subst hcs
    have e19 : OpJumpIfFalse % 256 = OpJumpIfFalse := rfl
    have e18 : OpJump % 256 = OpJump := rfl
    simp only [emitJump_apply, e19] at h
    obtain ⟨thenCode, hts⟩ := compileList_appends thn
      ({ c with code := c.code ++ condCode ++ [OpJumpIfFalse, 255, 255] } : Chunk V)
    cases ht : compileList thn
        ({ c with code := c.code ++ condCode ++ [OpJumpIfFalse, 255, 255] } : Chunk V) with
    | panic p s =>
      rw [ht] at h
      cases h
    | ok u2 c3 =>
      rw [ht] at h hts
      simp only [Res.state] at hts
      subst hts
      simp only [emitJump_apply, e18] at h
      have hp := patchJump_placeholder
        ({ c with code := c.code ++ condCode ++ [OpJumpIfFalse, 255, 255] ++ thenCode ++
            [OpJump, 255, 255] } : Chunk V)
        (c.code ++ condCode ++ [OpJumpIfFalse]) (thenCode ++ [OpJump, 255, 255]) 255 255
        (by simp)
      have hpre : ((c.code ++ condCode ++ [OpJumpIfFalse]).length : Int)
          = ((c.code ++ condCode).length : Int) + 1 := by
        simp only [List.length_append, List.length_cons, List.length_nil]
        omega
      have e3 : (thenCode ++ [OpJump, 255, 255]).length = thenCode.length + 3 := by
        simp
      rw [hpre, e3] at hp
      rw [hp] at h
      by_cases hbig : thenCode.length + 3 > 65535
      · rw [if_pos hbig] at h
        cases h
      · rw [if_neg hbig] at h
        have e2 : (thenCode.length + 3) / 256 % 256 = (thenCode.length + 3) / 256 :=
          Nat.mod_eq_of_lt (by omega)
        rw [e2] at h
        simp only at h
        have a1 : c.code ++ condCode ++ [OpJumpIfFalse] ++
              (thenCode.length + 3) / 256 :: (thenCode.length + 3) % 256 ::
              (thenCode ++ [OpJump, 255, 255])
            = c.code ++ condCode ++
              [OpJumpIfFalse, (thenCode.length + 3) / 256, (thenCode.length + 3) % 256] ++
              thenCode ++ [OpJump, 255, 255] := by
          simp
        rw [a1] at h
        obtain ⟨elseCode, hes⟩ := compileList_appends els
          ({ c with code := c.code ++ condCode ++
            [OpJumpIfFalse, (thenCode.length + 3) / 256, (thenCode.length + 3) % 256] ++
            thenCode ++ [OpJump, 255, 255] } : Chunk V)
        cases he : compileList els
            ({ c with code := c.code ++ condCode ++
              [OpJumpIfFalse, (thenCode.length + 3) / 256, (thenCode.length + 3) % 256] ++
              thenCode ++ [OpJump, 255, 255] } : Chunk V) with
        | panic p s =>
          rw [he] at h
          cases h
        | ok u3 c6 =>
          rw [he] at h hes
          simp only [Res.state] at hes
          subst hes
          simp only at h
          have hq := patchJump_placeholder
            ({ c with code := c.code ++ condCode ++
              [OpJumpIfFalse, (thenCode.length + 3) / 256, (thenCode.length + 3) % 256] ++
              thenCode ++ [OpJump, 255, 255] ++ elseCode } : Chunk V)
            (c.code ++ condCode ++
              [OpJumpIfFalse, (thenCode.length + 3) / 256, (thenCode.length + 3) % 256] ++
              thenCode ++ [OpJump]) elseCode 255 255 (by simp)
          have hpre2 : ((c.code ++ condCode ++
              [OpJumpIfFalse, (thenCode.length + 3) / 256, (thenCode.length + 3) % 256] ++
              thenCode ++ [OpJump]).length : Int)
              = ((c.code ++ condCode ++ [OpJumpIfFalse, 255, 255] ++ thenCode).length : Int) + 1 := by
            simp only [List.length_append, List.length_cons, List.length_nil]
            omega
          rw [hpre2] at hq
          rw [hq] at h
          by_cases hbig2 : elseCode.length > 65535
          · rw [if_pos hbig2] at h
            cases h
          · rw [if_neg hbig2] at h
            have e4 : elseCode.length / 256 % 256 = elseCode.length / 256 :=
              Nat.mod_eq_of_lt (by omega)
            rw [e4] at h
            simp only [Res.ok.injEq, true_and] at h
            subst h
            refine ⟨condCode, thenCode, elseCode, rfl, ht, he, by omega, by omega, ?_⟩
            simp

/-- `While.compile` returns whenever the condition and the body compile and the loop is at
most 65535 bytes long. -/
theorem While_compile_returns (cond : Node) (body : List Node) (line : Int) (c : Chunk V)
    (condCode bodyCode : List Nat)
    (hc : compile cond c = Res.ok () { c with code := c.code ++ condCode })
    (hb : compileList body { c with code := c.code ++ condCode ++ [OpJumpIfFalse, 255, 255] } =
      Res.ok () { c with code := c.code ++ condCode ++ [OpJumpIfFalse, 255, 255] ++ bodyCode })
    (hd : condCode.length + bodyCode.length + 6 ≤ 65535) :
    compile (Node.While cond body line) c =
      Res.ok () { c with code := c.code ++ condCode ++
        [OpJumpIfFalse, (bodyCode.length + 3) / 256, (bodyCode.length + 3) % 256] ++ bodyCode ++
        [OpLoop, (condCode.length + bodyCode.length + 6) / 256,
          (condCode.length + bodyCode.length + 6) % 256] } := by
  have e19 : OpJumpIfFalse % 256 = OpJumpIfFalse := rfl
  have hd' : ((c.code ++ condCode ++ [OpJumpIfFalse, 255, 255] ++ bodyCode).length : Int) + 3
      - (c.code.length : Int) = ((condCode.length + bodyCode.length + 6 : Nat) : Int) := by
    simp only [List.length_append, List.length_cons, List.length_nil]
    omega
  have hbig' : ¬ (((condCode.length + bodyCode.length + 6 : Nat) : Int) > 65535) := by omega
  have hp := patchJump_placeholder
    ({ c with code := c.code ++ condCode ++ [OpJumpIfFalse, 255, 255] ++ bodyCode ++
        [OpLoop, (condCode.length + bodyCode.length + 6) / 256 % 256,
          (condCode.length + bodyCode.length + 6) % 256] } : Chunk V)
    (c.code ++ condCode ++ [OpJumpIfFalse])
    (bodyCode ++ [OpLoop, (condCode.length + bodyCode.length + 6) / 256 % 256,
          (condCode.length + bodyCode.length + 6) % 256]) 255 255 (by simp)
  have hpre : ((c.code ++ condCode ++ [OpJumpIfFalse]).length : Int)
      = ((c.code ++ condCode).length : Int) + 1 := by
    simp only [List.length_append, List.length_cons, List.length_nil]
    omega
  have e3 : (bodyCode ++ [OpLoop, (condCode.length + bodyCode.length + 6) / 256 % 256,
          (condCode.length + bodyCode.length + 6) % 256]).length = bodyCode.length + 3 := by
    simp
  have hsuf : ¬ (bodyCode.length + 3 > 65535) := by omega
  have e1 : (condCode.length + bodyCode.length + 6) / 256 % 256
      = (condCode.length + bodyCode.length + 6) / 256 := Nat.mod_eq_of_lt (by omega)
  have e2 : (bodyCode.length + 3) / 256 % 256 = (bodyCode.length + 3) / 256 :=
    Nat.mod_eq_of_lt (by omega)
  rw [hpre, e3, if_neg hsuf, e1, e2] at hp
  simp only [compile, Exec.bind_apply, getState_apply, hc, emitJump_apply, e19, hb,
    emitLoop_apply, hd', if_neg hbig', toByte_natCast, toByte_shift_natCast, e1, hp]
  simp

/-- `If.compile` returns whenever the condition and both branches compile and neither jump
is longer than 65535 bytes. -/
theorem If_compile_returns (cond : Node) (thn els : List Node) (line : Int) (c : Chunk V)
    (condCode thenCode elseCode : List Nat)
    (hc : compile cond c = Res.ok () { c with code := c.code ++ condCode })
    (ht : compileList thn { c with code := c.code ++ condCode ++ [OpJumpIfFalse, 255, 255] } =
      Res.ok () { c with code := c.code ++ condCode ++ [OpJumpIfFalse, 255, 255] ++ thenCode })
    (he : compileList els { c with code := c.code ++ condCode ++
        [OpJumpIfFalse, (thenCode.length + 3) / 256, (thenCode.length + 3) % 256] ++ thenCode ++
        [OpJump, 255, 255] } =
      Res.ok () { c with code := c.code ++ condCode ++
        [OpJumpIfFalse, (thenCode.length + 3) / 256, (thenCode.length + 3) % 256] ++ thenCode ++
        [OpJump, 255, 255] ++ elseCode })
    (h1 : thenCode.length + 3 ≤ 65535) (h2 : elseCode.length ≤ 65535) :
    compile (Node.If cond thn els line) c =
      Res.ok () { c with code := c.code ++ condCode ++
        [OpJumpIfFalse, (thenCode.length + 3) / 256, (thenCode.length + 3) % 256] ++ thenCode ++
        [OpJump, elseCode.length / 256, elseCode.length % 256] ++ elseCode } := by
  have e19 : OpJumpIfFalse % 256 = OpJumpIfFalse := rfl
  have e18 : OpJump % 256 = OpJump := rfl
  have hp := patchJump_placeholder
    ({ c with code := c.code ++ condCode ++ [OpJumpIfFalse, 255, 255] ++ thenCode ++
        [OpJump, 255, 255] } : Chunk V)
    (c.code ++ condCode ++ [OpJumpIfFalse]) (thenCode ++ [OpJump, 255, 255]) 255 255
    (by simp)
  have hpre : ((c.code ++ condCode ++ [OpJumpIfFalse]).length : Int)
      = ((c.code ++ condCode).length : Int) + 1 := by
    simp only [List.length_append, List.length_cons, List.length_nil]
    omega
  have e3 : (thenCode ++ [OpJump, 255, 255]).length = thenCode.length + 3 := by
    simp
  have hbig : ¬ (thenCode.length + 3 > 65535) := by omega
  have e2 : (thenCode.length + 3) / 256 % 256 = (thenCode.length + 3) / 256 :=
    Nat.mod_eq_of_lt (by omega)
  have a1 : c.code ++ condCode ++ [OpJumpIfFalse] ++
        (thenCode.length + 3) / 256 :: (thenCode.length + 3) % 256 ::
        (thenCode ++ [OpJump, 255, 255])
      = c.code ++ condCode ++
        [OpJumpIfFalse, (thenCode.length + 3) / 256, (thenCode.length + 3) % 256] ++
        thenCode ++ [OpJump, 255, 255] := by
    simp
  rw [hpre, e3, if_neg hbig, e2, a1] at hp
  have hq := patchJump_placeholder
    ({ c with code := c.code ++ condCode ++
      [OpJumpIfFalse, (thenCode.length + 3) / 256, (thenCode.length + 3) % 256] ++
      thenCode ++ [OpJump, 255, 255] ++ elseCode } : Chunk V)
    (c.code ++ condCode ++
      [OpJumpIfFalse, (thenCode.length + 3) / 256, (thenCode.length + 3) % 256] ++
      thenCode ++ [OpJump]) elseCode 255 255 (by simp)
  have hpre2 : ((c.code ++ condCode ++
      [OpJumpIfFalse, (thenCode.length + 3) / 256, (thenCode.length + 3) % 256] ++
      thenCode ++ [OpJump]).length : Int)
      = ((c.code ++ condCode ++ [OpJumpIfFalse, 255, 255] ++ thenCode).length : Int) + 1 := by
    simp only [List.length_append, List.length_cons, List.length_nil]
    omega
  have hbig2 : ¬ (elseCode.length > 65535) := by omega
  have e4 : elseCode.length / 256 % 256 = elseCode.length / 256 :=
    Nat.mod_eq_of_lt (by omega)
  rw [hpre2, if_neg hbig2, e4] at hq
  simp only [compile, Exec.bind_apply, hc, emitJump_apply, e19, e18, ht, hp, he, hq]
  simp

end CompileAppends

/-! ## Layout of compiled `While` and `If` statements -/

section ControlFlowLayout

variable {V : Type}

theorem compile_sampleWhile :
    compile sampleWhile emptyChunk =
      Res.ok () { code := [19, 0, 9, 19, 0, 3, 18, 0, 0, 23, 0, 12], lines := [], constants := [] } := by
  simp [compile, compileList, sampleWhile, emptyChunk, emitJump_apply, emitLoop_apply,
    patchJump_apply, OpJumpIfFalse, OpJump, OpLoop, toByte]
  decide

theorem compile_sampleIfElse :
    compile sampleIfElse emptyChunk =
      Res.ok () { code := [19, 0, 9, 19, 0, 3, 23, 0, 6, 18, 0, 0], lines := [], constants := [] } := by
  simp [compile, compileList, sampleIfElse, emptyChunk, emitJump_apply, emitLoop_apply,
    patchJump_apply, OpJumpIfFalse, OpJump, OpLoop, toByte]
  decide

theorem compile_sampleElseLoop :
    compile sampleElseLoop emptyChunk =
      Res.ok () { code := [19, 0, 3, 18, 0, 6, 19, 0, 3, 23, 0, 6], lines := [], constants := [] } := by
  simp [compile, compileList, sampleElseLoop, emptyChunk, emitJump_apply, emitLoop_apply,
    patchJump_apply, OpJumpIfFalse, OpJump, OpLoop, toByte]
  decide

theorem compile_sampleIfNoElse :
    compile sampleIfNoElse emptyChunk =
      Res.ok () { code := [19, 0, 3, 18, 0, 0], lines := [], constants := [] } := by
  simp [compile, compileList, sampleIfNoElse, emptyChunk, emitJump_apply, emitLoop_apply,
    patchJump_apply, OpJumpIfFalse, OpJump, OpLoop, toByte]
  decide

/-- C7: when `While.compile` returns, having been started at code length `s`, the code is
the old code followed by the condition's code, a `JumpIfFalse` with a two-byte offset, the
body's code and a `Loop` with a two-byte offset, in that order. The position just after the
exit jump's offset field plus its big-endian offset is the final code length, the final
code length (the position just after the loop's offset field) minus the loop's big-endian
offset is `s`, and the bytes before `s` are unchanged. -/
theorem While_compile_layout (cond : Node) (body : List Node) (line : Int) (c c' : Chunk V)
    (h : compile (Node.While cond body line) c = Res.ok () c') :
    ∃ (condCode bodyCode : List Nat) (hi lo lhi llo : Nat),
      (compile cond c).state.code = c.code ++ condCode ∧
      (compileList body (emitJump OpJumpIfFalse (compile cond c).state).state).state.code =
        c.code ++ condCode ++ [OpJumpIfFalse, 0xFF, 0xFF] ++ bodyCode ∧
      c'.code = c.code ++ condCode ++ [OpJumpIfFalse, hi, lo] ++ bodyCode ++ [OpLoop, lhi, llo] ∧
      hi < 256 ∧ lo < 256 ∧ lhi < 256 ∧ llo < 256 ∧
      (c.code.length + condCode.length + 3) + (hi * 256 + lo) = c'.code.length ∧
      lhi * 256 + llo ≤ c'.code.length ∧
      c'.code.length - (lhi * 256 + llo) = c.code.length ∧
      (∀ i, i < c.code.length → c'.code[i]? = c.code[i]?) := by
  obtain ⟨condCode, bodyCode, hc, hb, hd, rfl⟩ := While_compile_run cond body line c c' h
  refine ⟨condCode, bodyCode, (bodyCode.length + 3) / 256, (bodyCode.length + 3) % 256,
    (condCode.length + bodyCode.length + 6) / 256, (condCode.length + bodyCode.length + 6) % 256,
    ?_, ?_, rfl, ?_, ?_, ?_, ?_, ?_, ?_, ?_, ?_⟩
  · rw [hc]
    rfl
  · rw [hc]
    simp only [Res.state, emitJump_apply]
    have e19 : OpJumpIfFalse % 256 = OpJumpIfFalse := rfl
    rw [e19, hb]
  · omega
  · omega
  · omega
  · omega
  · simp only [List.length_append, List.length_cons, List.length_nil]
    omega
  · simp only [List.length_append, List.length_cons, List.length_nil]
    omega
  · simp only [List.length_append, List.length_cons, List.length_nil]
    omega
  · intro i hi
    simp only [List.append_assoc]
    exact List.getElem?_append_left hi

theorem While_compile_layout_witness :
    compile sampleWhile emptyChunk =
        Res.ok () { code := [19, 0, 9, 19, 0, 3, 18, 0, 0, 23, 0, 12], lines := [], constants := [] } ∧
    ∃ (condCode bodyCode : List Nat) (hi lo lhi llo : Nat),
      (compile (Node.Bool true 1) emptyChunk).state.code = emptyChunk.code ++ condCode ∧
      (compileList [Node.If (Node.Bool false 2) [] [] 2]
          (emitJump OpJumpIfFalse (compile (Node.Bool true 1) emptyChunk).state).state).state.code =
        emptyChunk.code ++ condCode ++ [OpJumpIfFalse, 0xFF, 0xFF] ++ bodyCode ∧
      [19, 0, 9, 19, 0, 3, 18, 0, 0, 23, 0, 12] =
        emptyChunk.code ++ condCode ++ [OpJumpIfFalse, hi, lo] ++ bodyCode ++ [OpLoop, lhi, llo] ∧
      hi < 256 ∧ lo < 256 ∧ lhi < 256 ∧ llo < 256 ∧
      (emptyChunk.code.length + condCode.length + 3) + (hi * 256 + lo) = 12 ∧
      lhi * 256 + llo ≤ 12 ∧
      12 - (lhi * 256 + llo) = emptyChunk.code.length ∧
      (∀ i, i < emptyChunk.code.length →
        [19, 0, 9, 19, 0, 3, 18, 0, 0, 23, 0, 12][i]? = emptyChunk.code[i]?) :=
  ⟨compile_sampleWhile,
    While_compile_layout (Node.Bool true 1) [Node.If (Node.Bool false 2) [] [] 2] 1
      emptyChunk { code := [19, 0, 9, 19, 0, 3, 18, 0, 0, 23, 0, 12], lines := [], constants := [] }
      compile_sampleWhile⟩

/-- C8: when `If.compile` returns (in particular for a node with a non-empty `Else`), the
code is the old code followed by the condition's code, a `JumpIfFalse` with a two-byte
offset, the then-branch's code, an unconditional `Jump` with a two-byte offset and the
else-branch's code, in that order. The position just after the false-jump's offset field plus
its big-endian offset is the position of the first byte of the else-branch's code, and the
position just after the `Jump`'s offset field plus its big-endian offset is the final code
length. -/
theorem If_compile_layout (cond : Node) (thn els : List Node) (line : Int) (c c' : Chunk V)
    (h : compile (Node.If cond thn els line) c = Res.ok () c') :
    ∃ (condCode thenCode elseCode : List Nat) (hi lo jhi jlo : Nat),
      (compile cond c).state.code = c.code ++ condCode ∧
      (compileList thn (emitJump OpJumpIfFalse (compile cond c).state).state).state.code =
        c.code ++ condCode ++ [OpJumpIfFalse, 0xFF, 0xFF] ++ thenCode ∧
      (compileList els { c with code := c.code ++ condCode ++ [OpJumpIfFalse, hi, lo] ++
          thenCode ++ [OpJump, 0xFF, 0xFF] }).state.code =
        c.code ++ condCode ++ [OpJumpIfFalse, hi, lo] ++ thenCode ++ [OpJump, 0xFF, 0xFF] ++
          elseCode ∧
      c'.code = c.code ++ condCode ++ [OpJumpIfFalse, hi, lo] ++ thenCode ++ [OpJump, jhi, jlo] ++
        elseCode ∧
      hi < 256 ∧ lo < 256 ∧ jhi < 256 ∧ jlo < 256 ∧
      (c.code.length + condCode.length + 3) + (hi * 256 + lo) =
        (c.code ++ condCode ++ [OpJumpIfFalse, hi, lo] ++ thenCode ++ [OpJump, jhi, jlo]).length ∧
      (c.code ++ condCode ++ [OpJumpIfFalse, hi, lo] ++ thenCode ++ [OpJump, jhi, jlo]).length +
        (jhi * 256 + jlo) = c'.code.length := by
  obtain ⟨condCode, thenCode, elseCode, hc, ht, he, h1, h2, rfl⟩ :=
    If_compile_run cond thn els line c c' h
  refine ⟨condCode, thenCode, elseCode, (thenCode.length + 3) / 256, (thenCode.length + 3) % 256,
    elseCode.length / 256, elseCode.length % 256, ?_, ?_, ?_, rfl, ?_, ?_, ?_, ?_, ?_, ?_⟩
  · rw [hc]
    rfl
  · rw [hc]
    simp only [Res.state, emitJump_apply]
    have e19 : OpJumpIfFalse % 256 = OpJumpIfFalse := rfl
    rw [e19, ht]
  · rw [he]
    rfl
  · omega
  · omega
  · omega
  · omega
  · simp only [List.length_append, List.length_cons, List.length_nil]
    omega
  · simp only [List.length_append, List.length_cons, List.length_nil]
    omega

theorem If_compile_layout_witness :
    compile sampleIfElse emptyChunk =
        Res.ok () { code := [19, 0, 9, 19, 0, 3, 23, 0, 6, 18, 0, 0], lines := [], constants := [] } ∧
    ∃ (condCode thenCode elseCode : List Nat) (hi lo jhi jlo : Nat),
      (compile (Node.Variable "x" 1) emptyChunk).state.code = emptyChunk.code ++ condCode ∧
      (compileList [Node.While (Node.Bool true 2) [] 2]
          (emitJump OpJumpIfFalse (compile (Node.Variable "x" 1) emptyChunk).state).state).state.code =
        emptyChunk.code ++ condCode ++ [OpJumpIfFalse, 0xFF, 0xFF] ++ thenCode ∧
      (compileList [Node.Break 3] { emptyChunk with code := emptyChunk.code ++ condCode ++
          [OpJumpIfFalse, hi, lo] ++ thenCode ++ [OpJump, 0xFF, 0xFF] }).state.code =
        emptyChunk.code ++ condCode ++ [OpJumpIfFalse, hi, lo] ++ thenCode ++
          [OpJump, 0xFF, 0xFF] ++ elseCode ∧
      [19, 0, 9, 19, 0, 3, 23, 0, 6, 18, 0, 0] =
        emptyChunk.code ++ condCode ++ [OpJumpIfFalse, hi, lo] ++ thenCode ++ [OpJump, jhi, jlo] ++
          elseCode ∧
      hi < 256 ∧ lo < 256 ∧ jhi < 256 ∧ jlo < 256 ∧
      (emptyChunk.code.length + condCode.length + 3) + (hi * 256 + lo) =
        (emptyChunk.code ++ condCode ++ [OpJumpIfFalse, hi, lo] ++ thenCode ++
          [OpJump, jhi, jlo]).length ∧
      (emptyChunk.code ++ condCode ++ [OpJumpIfFalse, hi, lo] ++ thenCode ++
          [OpJump, jhi, jlo]).length + (jhi * 256 + jlo) = 12 :=
  ⟨compile_sampleIfElse,
    If_compile_layout (Node.Variable "x" 1) [Node.While (Node.Bool true 2) [] 2]
      [Node.Break 3] 1 emptyChunk
      { code := [19, 0, 9, 19, 0, 3, 23, 0, 6, 18, 0, 0], lines := [], constants := [] }
      compile_sampleIfElse⟩

/-- C9, as the claim states it, fails: for an `If` without else-branch the emitted bytes are
not just the condition's code, one `JumpIfFalse` and the then-branch's code, because an
unconditional `Jump` follows. -/
theorem If_without_else_emits_Jump :
    (compile sampleIfNoElse emptyChunk).failure = none ∧
    (compile sampleIfNoElse emptyChunk).state.code = [OpJumpIfFalse, 0, 3, OpJump, 0, 0] ∧
    ¬ ∃ hi lo : Nat,
      (compile sampleIfNoElse emptyChunk).state.code =
        (compile (Node.Variable "x" 1) emptyChunk).state.code ++ [OpJumpIfFalse, hi, lo] ++
          (compileList [Node.Break 2] emptyChunk).state.code := by
  have hc := compile_sampleIfNoElse
  refine ⟨by rw [hc]; rfl, by rw [hc]; rfl, ?_⟩
  rintro ⟨hi, lo, h⟩
  rw [hc] at h
  have hl := congrArg List.length h
  simp [Res.state, compile, compileList, emptyChunk] at hl

/-- C9, amended: when `If.compile` returns for a node whose `Else` is empty, the code is the
old code followed by the condition's code, one `JumpIfFalse` with a two-byte offset, the
then-branch's code and an unconditional `Jump` whose offset is 0; the position just after the
false-jump's offset field plus its big-endian offset is the final code length. -/
theorem If_compile_layout_without_else (cond : Node) (thn : List Node) (line : Int)
    (c c' : Chunk V) (h : compile (Node.If cond thn [] line) c = Res.ok () c') :
    ∃ (condCode thenCode : List Nat) (hi lo : Nat),
      (compile cond c).state.code = c.code ++ condCode ∧
      (compileList thn (emitJump OpJumpIfFalse (compile cond c).state).state).state.code =
        c.code ++ condCode ++ [OpJumpIfFalse, 0xFF, 0xFF] ++ thenCode ∧
      c'.code = c.code ++ condCode ++ [OpJumpIfFalse, hi, lo] ++ thenCode ++ [OpJump, 0, 0] ∧
      hi < 256 ∧ lo < 256 ∧
      (c.code.length + condCode.length + 3) + (hi * 256 + lo) = c'.code.length := by
  obtain ⟨condCode, thenCode, elseCode, hc, ht, he, h1, h2, rfl⟩ :=
    If_compile_run cond thn [] line c c' h
  have hnil : elseCode = [] := by
    simp only [compileList, Exec.pure_apply, Res.ok.injEq, true_and, Chunk.mk.injEq,
      and_true] at he
    exact List.self_eq_append_right.mp he
  subst hnil
  refine ⟨condCode, thenCode, (thenCode.length + 3) / 256, (thenCode.length + 3) % 256,
    ?_, ?_, ?_, ?_, ?_, ?_⟩
  · rw [hc]
    rfl
  · rw [hc]
    simp only [Res.state, emitJump_apply]
    have e19 : OpJumpIfFalse % 256 = OpJumpIfFalse := rfl
    rw [e19, ht]
  · simp
  · omega
  · omega
  · simp only [List.length_append, List.length_cons, List.length_nil]
    omega

theorem If_compile_layout_without_else_witness :
    compile sampleIfNoElse emptyChunk =
        Res.ok () { code := [19, 0, 3, 18, 0, 0], lines := [], constants := [] } ∧
    ∃ (condCode thenCode : List Nat) (hi lo : Nat),
      (compile (Node.Variable "x" 1) emptyChunk).state.code = emptyChunk.code ++ condCode ∧
      (compileList [Node.Break 2]
          (emitJump OpJumpIfFalse (compile (Node.Variable "x" 1) emptyChunk).state).state).state.code =
        emptyChunk.code ++ condCode ++ [OpJumpIfFalse, 0xFF, 0xFF] ++ thenCode ∧
      [19, 0, 3, 18, 0, 0] =
        emptyChunk.code ++ condCode ++ [OpJumpIfFalse, hi, lo] ++ thenCode ++ [OpJump, 0, 0] ∧
      hi < 256 ∧ lo < 256 ∧
      (emptyChunk.code.length + condCode.length + 3) + (hi * 256 + lo) = 6 :=
  ⟨compile_sampleIfNoElse,
    If_compile_layout_without_else (Node.Variable "x" 1) [Node.Break 2] 1 emptyChunk
      { code := [19, 0, 3, 18, 0, 0], lines := [], constants := [] } compile_sampleIfNoElse⟩

end ControlFlowLayout

/-! ## Operand decoding in the machine against the compiler's encoding -/

section Decoding

/-- What `readByte` does when the top frame has a chunk and its pc is inside the code. -/
theorem readByte_apply (vm : AuroraVM) (rest : List CallFrame) (f : CallFrame)
    (ch : Chunk Value) (b : Nat)
    (hs : vm.callStack = rest ++ [f]) (hb : f.function.body = some ch)
    (hpc : 0 ≤ f.pc) (hcode : ch.code[f.pc.toNat]? = some b) :
    readByte vm = Res.ok b { vm with callStack := rest ++ [{ f with pc := f.pc + 1 }] } := by
  have hlen : vm.callStack.length - 1 = rest.length := by
    rw [hs]
    simp
  have hne : vm.callStack.length ≠ 0 := by
    rw [hs]
    simp
  have e1 : f.pc + 1 - 1 = f.pc := by omega
  have e2 : ¬ (f.pc < 0) := by omega
  simp [readByte, topFrame, getFrame, setFrame, hne, hlen, hs, hb, indexInt, e1, e2, hcode]

/-- What `readShort` does on two bytes `b0`, `b1` read in that order: the result is
`b0 + 256 * b1`. -/
theorem readShort_apply (vm : AuroraVM) (rest : List CallFrame) (f : CallFrame)
    (ch : Chunk Value) (b0 b1 : Nat)
    (hs : vm.callStack = rest ++ [f]) (hb : f.function.body = some ch)
    (hpc : 0 ≤ f.pc) (h0 : ch.code[f.pc.toNat]? = some b0)
    (h1 : ch.code[f.pc.toNat + 1]? = some b1) (hb0 : b0 < 256) (hb1 : b1 < 256) :
    readShort vm = Res.ok (b0 + 256 * b1)
      { vm with callStack := rest ++ [{ f with pc := f.pc + 2 }] } := by
  have r0 := readByte_apply vm rest f ch b0 hs hb hpc h0
  have hpc1 : (f.pc + 1).toNat = f.pc.toNat + 1 := by omega
  have r1 := readByte_apply { vm with callStack := rest ++ [{ f with pc := f.pc + 1 }] } rest
    { f with pc := f.pc + 1 } ch b1 rfl hb (by show (0:Int) ≤ f.pc + 1; omega)
    (by show ch.code[(f.pc + 1).toNat]? = some b1; rw [hpc1]; exact h1)
  have e : f.pc + 1 + 1 = f.pc + 2 := by omega
  simp only [readShort, Exec.bind_apply, r0, r1, Exec.pure_apply, e]
  congr 1
  have m0 : b0 % 65536 = b0 := Nat.mod_eq_of_lt (by omega)
  have m1 : b1 % 65536 = b1 := Nat.mod_eq_of_lt (by omega)
  rw [m0, m1, Nat.shiftLeft_eq]
  have m2 : b1 * 2 ^ 8 % 65536 = 2 ^ 8 * b1 := by
    rw [Nat.mod_eq_of_lt (by omega)]
    omega
  rw [m2, Nat.or_comm, ← Nat.mul_add_lt_is_or (by omega : b0 < 2 ^ 8)]
  omega

/-- What `Step` does on a conditional jump whose four bytes are `[op, x1, x2, x3]`: the
register tested is `x3`, the offset is `x1 + 256 * x2`, and the pc ends at 4 past the opcode,
plus the offset when the register's Boolean matches the opcode. -/
theorem Step_conditional_jump_apply (vm : AuroraVM) (rest : List CallFrame) (f : CallFrame)
    (ch : Chunk Value) (op x1 x2 x3 addr : Nat) (b : Bool)
    (hop : op = OpJumpIfFalse ∨ op = OpJumpIfTrue)
    (hs : vm.callStack = rest ++ [f]) (hb : f.function.body = some ch) (hpc : 0 ≤ f.pc)
    (h0 : ch.code[f.pc.toNat]? = some op) (h1 : ch.code[f.pc.toNat + 1]? = some x1)
    (h2 : ch.code[f.pc.toNat + 2]? = some x2) (h3 : ch.code[f.pc.toNat + 3]? = some x3)
    (hx1 : x1 < 256) (hx2 : x2 < 256)
    (hreg : vm.registers x3 = some addr) (hval : vm.heap addr = Value.bool b) :
    Step vm = Res.ok () { vm with callStack := rest ++
      [{ f with pc := if b = decide (op = OpJumpIfTrue) then f.pc + 4 + ((x1 + 256 * x2 : Nat) : Int)
                      else f.pc + 4 }] } := by
  have hlen : vm.callStack.length - 1 = rest.length := by
    rw [hs]
    simp
  have hne : vm.callStack.length ≠ 0 := by
    rw [hs]
    simp
  have r0 := readByte_apply vm rest f ch op hs hb hpc h0
  have hpc1 : (f.pc + 1).toNat = f.pc.toNat + 1 := by omega
  have hpc3 : (f.pc + 3).toNat = f.pc.toNat + 3 := by omega
  have r1 := readShort_apply { vm with callStack := rest ++ [{ f with pc := f.pc + 1 }] } rest
    { f with pc := f.pc + 1 } ch x1 x2 rfl hb (by show (0:Int) ≤ f.pc + 1; omega)
    (by show ch.code[(f.pc + 1).toNat]? = some x1; rw [hpc1]; exact h1)
    (by show ch.code[(f.pc + 1).toNat + 1]? = some x2; rw [hpc1]; exact h2) hx1 hx2
  have e3 : f.pc + 1 + 2 = f.pc + 3 := by omega
  have e4 : f.pc + 3 + 1 = f.pc + 4 := by omega
  have r2 := readByte_apply { vm with callStack := rest ++ [{ f with pc := f.pc + 3 }] } rest
    { f with pc := f.pc + 3 } ch x3 rfl hb (by show (0:Int) ≤ f.pc + 3; omega)
    (by show ch.code[(f.pc + 3).toNat]? = some x3; rw [hpc3]; exact h3)
  simp only [e3] at r1
  simp only [e4] at r2
  rcases hop with rfl | rfl
  · cases b <;>
      simp [Step, topFrame, hne, hlen, r0, r1, r2, loadReg, hreg, hval, asBool, addPc, getFrame,
        setFrame, OpLoad, OpStore, OpStoreGlobal, OpAdd, OpAddTo, OpSub, OpSubFrom, OpMul, OpDiv,
        OpMod, OpNeg, OpNot, OpEqual, OpNotEqual, OpLess, OpLessEqual, OpGreater, OpGreaterEqual,
        OpJump, OpJumpIfFalse, OpJumpIfTrue]
  · cases b <;>
      simp [Step, topFrame, hne, hlen, r0, r1, r2, loadReg, hreg, hval, asBool, addPc, getFrame,
        setFrame, OpLoad, OpStore, OpStoreGlobal, OpAdd, OpAddTo, OpSub, OpSubFrom, OpMul, OpDiv,
        OpMod, OpNeg, OpNot, OpEqual, OpNotEqual, OpLess, OpLessEqual, OpGreater, OpGreaterEqual,
        OpJump, OpJumpIfFalse, OpJumpIfTrue]

/-- C1, evaluated on the code: compiling `if x {} else { while true {} }` writes the
distance 6 of the `Jump` (by `patchJump`) and of the `Loop` (by `emitLoop`) as the bytes
`0, 6`, high byte first; `readShort` reads those two bytes as 1536, because the first byte it
reads is taken as the low byte. `Step` on the `Jump` at pc 3 moves the pc to 1542 instead of
12, and on the `Loop` at pc 9 to -1524 instead of 6. -/
theorem readShort_takes_first_byte_as_low :
    (compile sampleElseLoop emptyChunk).state.code =
      [OpJumpIfFalse, 0, 3, OpJump, 0, 6, OpJumpIfFalse, 0, 3, OpLoop, 0, 6] ∧
    (readShort (machineAt [OpJumpIfFalse, 0, 3, OpJump, 0, 6, OpJumpIfFalse, 0, 3, OpLoop, 0, 6]
      4 [])).value = some 1536 ∧
    (Step (machineAt [OpJumpIfFalse, 0, 3, OpJump, 0, 6, OpJumpIfFalse, 0, 3, OpLoop, 0, 6]
      3 [])).state.pc = some 1542 ∧
    (readShort (machineAt [OpJumpIfFalse, 0, 3, OpJump, 0, 6, OpJumpIfFalse, 0, 3, OpLoop, 0, 6]
      10 [])).value = some 1536 ∧
    (Step (machineAt [OpJumpIfFalse, 0, 3, OpJump, 0, 6, OpJumpIfFalse, 0, 3, OpLoop, 0, 6]
      9 [])).state.pc = some (-1524) := by
  have h := compile_sampleElseLoop
  refine ⟨?_, ?_, ?_, ?_, ?_⟩
  · rw [h]
    rfl
  · decide
  · decide
  · decide
  · decide

/-- C2, evaluated on the code: the `JumpIfFalse` emitted by `If.compile` and by
`While.compile` is three bytes long (opcode and offset; the next byte is already the opcode
of the following `Jump` or `Loop`), while `Step` consumes four bytes for a `JumpIfFalse` and
takes that following opcode, 18, as the register to test. -/
theorem emitted_JumpIfFalse_is_three_bytes :
    (compile (Node.If (Node.Bool true 1) [] [] 1) (Chunk.mk [] [] [] : Chunk Value)).state.code =
      [OpJumpIfFalse, 0, 3, OpJump, 0, 0] ∧
    (compile (Node.While (Node.Bool true 1) [] 1) (Chunk.mk [] [] [] : Chunk Value)).state.code =
      [OpJumpIfFalse, 0, 3, OpLoop, 0, 6] ∧
    (Step (machineAt [OpJumpIfFalse, 0, 3, OpJump, 0, 0] 0 [(18, Value.bool true)])).failure =
      none ∧
    (Step (machineAt [OpJumpIfFalse, 0, 3, OpJump, 0, 0] 0 [(18, Value.bool true)])).state.pc =
      some 4 ∧
    (Step (machineAt [OpJumpIfFalse, 0, 3, OpJump, 0, 0] 0 [(0, Value.bool true)])).failure =
      some Panic.nilDereference := by
  decide

/-- C3, evaluated on the code: on the bytes `[op, 1, 0, 2]` at pc 0, with register 1 holding
the Boolean that the opcode jumps on and register 2 holding the other one, `Step` does not
jump: it reads the offset from the bytes `1, 0` and tests register 2, so the new pc is 4.
With the two registers exchanged, `JumpIfFalse` jumps, by the offset 1, to pc 5. -/
theorem Step_conditional_jump_reads_offset_first :
    (Step (machineAt [OpJumpIfFalse, 1, 0, 2] 0
      [(1, Value.bool false), (2, Value.bool true)])).failure = none ∧
    (Step (machineAt [OpJumpIfFalse, 1, 0, 2] 0
      [(1, Value.bool false), (2, Value.bool true)])).state.pc = some 4 ∧
    (Step (machineAt [OpJumpIfTrue, 1, 0, 2] 0
      [(1, Value.bool true), (2, Value.bool false)])).failure = none ∧
    (Step (machineAt [OpJumpIfTrue, 1, 0, 2] 0
      [(1, Value.bool true), (2, Value.bool false)])).state.pc = some 4 ∧
    (Step (machineAt [OpJumpIfFalse, 1, 0, 2] 0
      [(1, Value.bool true), (2, Value.bool false)])).state.pc = some 5 := by
  decide

end Decoding

/-! ## The machine on a state given by its fields -/

section MachineSteps

theorem topFrame_mk (regs : Nat → Option Nat) (rest : List CallFrame) (g : CallFrame)
    (globals : Int → Option Value) (heap : Nat → Value) (hn : Nat) (arrs : Nat → List Value) :
    topFrame ⟨regs, rest ++ [g], globals, heap, hn, arrs⟩ =
      Res.ok rest.length ⟨regs, rest ++ [g], globals, heap, hn, arrs⟩ := by
  simp [topFrame]

theorem getFrame_mk (regs : Nat → Option Nat) (rest : List CallFrame) (g : CallFrame)
    (globals : Int → Option Value) (heap : Nat → Value) (hn : Nat) (arrs : Nat → List Value) :
    getFrame rest.length ⟨regs, rest ++ [g], globals, heap, hn, arrs⟩ =
      Res.ok g ⟨regs, rest ++ [g], globals, heap, hn, arrs⟩ := by
  simp [getFrame]

theorem setFrame_mk (regs : Nat → Option Nat) (rest : List CallFrame) (g g' : CallFrame)
    (globals : Int → Option Value) (heap : Nat → Value) (hn : Nat) (arrs : Nat → List Value) :
    setFrame rest.length g' ⟨regs, rest ++ [g], globals, heap, hn, arrs⟩ =
      Res.ok () ⟨regs, rest ++ [g'], globals, heap, hn, arrs⟩ := by
  simp [setFrame]

/-- `readByte` on a machine given by its fields. -/
theorem readByte_mk (regs : Nat → Option Nat) (rest : List CallFrame)
    (locals : Nat → Value) (fn : AuroraFunction Value) (pc : Int) (dest : Nat) (ct : ChunkType)
    (globals : Int → Option Value) (heap : Nat → Value) (hn : Nat) (arrs : Nat → List Value)
    (ch : Chunk Value) (hb : fn.body = some ch) :
    readByte ⟨regs, rest ++ [⟨locals, fn, pc, dest, ct⟩], globals, heap, hn, arrs⟩ =
      if pc < 0 then
        Res.panic Panic.indexOutOfRange
          ⟨regs, rest ++ [⟨locals, fn, pc + 1, dest, ct⟩], globals, heap, hn, arrs⟩
      else match ch.code[pc.toNat]? with
        | some b => Res.ok b
            ⟨regs, rest ++ [⟨locals, fn, pc + 1, dest, ct⟩], globals, heap, hn, arrs⟩
        | none => Res.panic Panic.indexOutOfRange
            ⟨regs, rest ++ [⟨locals, fn, pc + 1, dest, ct⟩], globals, heap, hn, arrs⟩ := by
  simp only [readByte, Exec.bind_apply, topFrame_mk, getFrame_mk, setFrame_mk, hb, indexInt]
  have e : pc + 1 - 1 = pc := by omega
  rw [e]
  split
  · rfl
  · cases ch.code[pc.toNat]? <;> rfl

/-- The bytes of a window of the code. -/
theorem lookup_of_window {code w : List Nat} {q n : Nat} (h : (code.drop q).take n = w)
    (k : Nat) (hk : k < n) : code[q + k]? = w[k]? := by
  rw [← h, List.getElem?_take_of_lt hk, List.getElem?_drop]


/-- What `Step` does on a `Call` whose function register holds a function. -/
theorem Step_Call_apply (vm : AuroraVM) (rest : List CallFrame) (f : CallFrame)
    (ch : Chunk Value) (fr ar base dest addr : Nat) (fn : AuroraFunction Value)
    (hs : vm.callStack = rest ++ [f]) (hb : f.function.body = some ch) (hpc : 0 ≤ f.pc)
    (hcode : (ch.code.drop f.pc.toNat).take 5 = [OpCall, fr, ar, base, dest])
    (hreg : vm.registers fr = some addr) (hval : vm.heap addr = Value.function fn) :
    Step vm =
      if (ar : Int) ≠ fn.arity then
        Res.panic (Panic.explicit "Arity mismatch")
          { vm with callStack := rest ++ [{ f with pc := f.pc + 5 }] }
      else
        Res.ok () { vm with callStack := rest ++ [{ f with pc := f.pc + 5 }] ++
          [{ function := fn, pc := 0, locals := callLocals vm.registers base ar, dest := dest,
             chunkType := ChunkType.TypeFunction }] } := by
  obtain ⟨regs, cs, globals, heap, hn, arrs⟩ := vm
  obtain ⟨locals, ffn, pc, fdest, ct⟩ := f
  simp only at hs hb hpc hcode hreg hval
  subst hs
  have h0 : ch.code[pc.toNat]? = some OpCall := by
    simpa using lookup_of_window hcode 0 (by decide)
  have h1 : ch.code[(pc + 1).toNat]? = some fr := by
    rw [show (pc + 1).toNat = pc.toNat + 1 by omega]
    simpa using lookup_of_window hcode 1 (by decide)
  have h2 : ch.code[(pc + 1 + 1).toNat]? = some ar := by
    rw [show (pc + 1 + 1).toNat = pc.toNat + 2 by omega]
    simpa using lookup_of_window hcode 2 (by decide)
  have h3 : ch.code[(pc + 1 + 1 + 1).toNat]? = some base := by
    rw [show (pc + 1 + 1 + 1).toNat = pc.toNat + 3 by omega]
    simpa using lookup_of_window hcode 3 (by decide)
  have h4 : ch.code[(pc + 1 + 1 + 1 + 1).toNat]? = some dest := by
    rw [show (pc + 1 + 1 + 1 + 1).toNat = pc.toNat + 4 by omega]
    simpa using lookup_of_window hcode 4 (by decide)
  have n0 : ¬ (pc < 0) := by omega
  have n1 : ¬ (pc + 1 < 0) := by omega
  have n2 : ¬ (pc + 1 + 1 < 0) := by omega
  have n3 : ¬ (pc + 1 + 1 + 1 < 0) := by omega
  have n4 : ¬ (pc + 1 + 1 + 1 + 1 < 0) := by omega
  have e5 : pc + 1 + 1 + 1 + 1 + 1 = pc + 5 := by omega
  simp only [Step, Exec.bind_apply, topFrame_mk,
    readByte_mk regs rest locals ffn _ fdest ct globals heap hn arrs ch hb,
    n0, n1, n2, n3, n4, h0, h1, h2, h3, h4, if_false, e5, loadReg, hreg, hval, asFunction,
    Exec.pure_apply, getState_apply, putState_apply, raise_apply,
    OpLoad, OpStore, OpStoreGlobal, OpAdd, OpAddTo, OpSub, OpSubFrom, OpMul, OpDiv,
    OpMod, OpNeg, OpNot, OpEqual, OpNotEqual, OpLess, OpLessEqual, OpGreater, OpGreaterEqual,
    OpJump, OpJumpIfFalse, OpJumpIfTrue, OpJumpIfEqual, OpJumpIfNotEqual, OpLoop, OpCall,
    Nat.reduceEqDiff, reduceIte, ne_eq, ite_not]
  split <;> simp_all

end MachineSteps

/-! ## Calls -/

section Calls

/-- C11: on a `Call` whose function register holds a function, `Step` fails with the arity
mismatch panic exactly when the arity operand differs from the function's declared arity;
when it does, the call stack still consists of the same frames (only the caller's pc has
moved past the instruction), and when the arity operand equals the declared arity `Step`
does not fail. -/
theorem Call_checks_arity (vm : AuroraVM) (rest : List CallFrame) (f : CallFrame)
    (ch : Chunk Value) (fr ar base dest addr : Nat) (fn : AuroraFunction Value)
    (hs : vm.callStack = rest ++ [f]) (hb : f.function.body = some ch) (hpc : 0 ≤ f.pc)
    (hcode : (ch.code.drop f.pc.toNat).take 5 = [OpCall, fr, ar, base, dest])
    (hreg : vm.registers fr = some addr) (hval : vm.heap addr = Value.function fn) :
    ((Step vm).failure = some (Panic.explicit "Arity mismatch") ↔ (ar : Int) ≠ fn.arity) ∧
    ((ar : Int) ≠ fn.arity →
      (Step vm).state.callStack = rest ++ [{ f with pc := f.pc + 5 }]) ∧
    ((ar : Int) = fn.arity → (Step vm).failure = none) := by
  rw [Step_Call_apply vm rest f ch fr ar base dest addr fn hs hb hpc hcode hreg hval]
  by_cases h : (ar : Int) = fn.arity
  · simp [h, Res.failure]
  · simp [h, Res.failure, Res.state]

theorem Call_checks_arity_witness :
    ((Step (sampleCallMachine 2)).failure = some (Panic.explicit "Arity mismatch") ↔
      ((2 : Nat) : Int) ≠ sampleCallee.arity) ∧
    (((2 : Nat) : Int) ≠ sampleCallee.arity →
      (Step (sampleCallMachine 2)).state.callStack =
        [] ++ [{ scriptFrame [OpCall, 1, 2, 3, 2, OpReturn, 0] 0 with
                 pc := (scriptFrame [OpCall, 1, 2, 3, 2, OpReturn, 0] 0).pc + 5 }]) ∧
    (((2 : Nat) : Int) = sampleCallee.arity → (Step (sampleCallMachine 2)).failure = none) :=
  Call_checks_arity (sampleCallMachine 2) [] (scriptFrame [OpCall, 1, 2, 3, 2, OpReturn, 0] 0)
    { code := [OpCall, 1, 2, 3, 2, OpReturn, 0], lines := [], constants := [] }
    1 2 3 2 0 sampleCallee rfl rfl (by decide) rfl rfl rfl

/-- C12, evaluated on the code: a `Call` with matching arity 1 and argument base 3 pushes a
frame with pc 0 above the caller, whose pc is now 5, but argument slot 0 of the new frame
does not hold the value `true` of caller register 3: it holds the pointer stored in
`registers[3]` (the address of that register's variable), so nothing is copied. -/
theorem Call_stores_register_pointers :
    (Step (sampleCallMachine 1)).failure = none ∧
    (Step (sampleCallMachine 1)).state.callStack.map (fun f => f.pc) = [5, 0] ∧
    (loadReg 3 (sampleCallMachine 1)).value = some (Value.bool true) ∧
    (sampleCallMachine 1).registers 3 = some 2 ∧
    ((Step (sampleCallMachine 1)).state.callStack.getLast?).map (fun f => f.locals 0) =
      some (Value.pointer (some 2)) ∧
    Value.pointer (some 2) ≠ Value.bool true := by
  refine ⟨by decide, by decide, rfl, rfl, rfl, ?_⟩
  intro h
  cases h

end Calls

/-! ## Returns -/

section Returns

theorem length_append_singleton_sub_one {α : Type} (l : List α) (x : α) :
    (l ++ [x]).length - 1 = l.length := by
  simp

theorem take_length_append_singleton {α : Type} (l : List α) (x : α) :
    (l ++ [x]).take l.length = l := by
  simp

/-- What `Step` does on a `Return`: the top frame is popped first, and the operand is then
read by `readByte` from the frame that has become the top one. -/
theorem Step_Return_pop (vm : AuroraVM) (rest : List CallFrame) (f : CallFrame)
    (ch : Chunk Value)
    (hs : vm.callStack = rest ++ [f]) (hb : f.function.body = some ch) (hpc : 0 ≤ f.pc)
    (hcode : ch.code[f.pc.toNat]? = some OpReturn) :
    Step vm =
      (do
        let r ← readByte
        let vm' ← getState
        storeReg f.dest (Value.pointer (vm'.registers r)))
      { vm with callStack := rest } := by
  obtain ⟨regs, cs, globals, heap, hn, arrs⟩ := vm
  obtain ⟨locals, ffn, pc, fdest, ct⟩ := f
  simp only at hs hb hpc hcode
  subst hs
  have n0 : ¬ (pc < 0) := by omega
  simp only [Step, Exec.bind_apply, topFrame_mk,
    readByte_mk regs rest locals ffn _ fdest ct globals heap hn arrs ch hb,
    n0, hcode, if_false, Exec.pure_apply, getState_apply, putState_apply, raise_apply,
    OpLoad, OpStore, OpStoreGlobal, OpAdd, OpAddTo, OpSub, OpSubFrom, OpMul, OpDiv,
    OpMod, OpNeg, OpNot, OpEqual, OpNotEqual, OpLess, OpLessEqual, OpGreater, OpGreaterEqual,
    OpJump, OpJumpIfFalse, OpJumpIfTrue, OpJumpIfEqual, OpJumpIfNotEqual, OpLoop, OpCall,
    OpReturn, Nat.reduceEqDiff, reduceIte, length_append_singleton_sub_one, getFrame_mk,
    take_length_append_singleton]

/-- A `Return` in the only frame of the machine: the frame is popped and reading the operand
then panics, because no frame is left. -/
theorem Step_Return_last (vm : AuroraVM) (f : CallFrame) (ch : Chunk Value)
    (hs : vm.callStack = [f]) (hb : f.function.body = some ch) (hpc : 0 ≤ f.pc)
    (hcode : ch.code[f.pc.toNat]? = some OpReturn) :
    Step vm = Res.panic Panic.indexOutOfRange { vm with callStack := [] } := by
  rw [Step_Return_pop vm [] f ch (by simpa using hs) hb hpc hcode]
  simp [readByte, topFrame]

/-- A `Return` with a caller beneath: the operand is the byte at the caller's pc in the
caller's chunk, the caller's pc moves past it, and the variable of the popped frame's `dest`
register receives the pointer held by the operand register. -/
theorem Step_Return_apply (vm : AuroraVM) (rest : List CallFrame) (g f : CallFrame)
    (chf chg : Chunk Value) (r addr : Nat)
    (hs : vm.callStack = rest ++ [g] ++ [f])
    (hbf : f.function.body = some chf) (hpcf : 0 ≤ f.pc)
    (hcf : chf.code[f.pc.toNat]? = some OpReturn)
    (hbg : g.function.body = some chg) (hpcg : 0 ≤ g.pc)
    (hcg : chg.code[g.pc.toNat]? = some r)
    (hreg : vm.registers f.dest = some addr) :
    Step vm = Res.ok ()
      { vm with callStack := rest ++ [{ g with pc := g.pc + 1 }]
                heap := Function.update vm.heap addr (Value.pointer (vm.registers r)) } := by
  rw [Step_Return_pop vm (rest ++ [g]) f chf hs hbf hpcf hcf]
  obtain ⟨regs, cs, globals, heap, hn, arrs⟩ := vm
  obtain ⟨locals, gfn, pc, gdest, ct⟩ := g
  simp only at hs hbg hpcg hcg hreg
  have n0 : ¬ (pc < 0) := by omega
  simp only [Exec.bind_apply,
    readByte_mk regs rest locals gfn _ gdest ct globals heap hn arrs chg hbg,
    n0, hcg, if_false, getState_apply, storeReg, hreg]

/-- C13, evaluated on the code: after the call of `sampleCallee` (body `[Return, 3]`, dest
2) the caller is at pc 5, where its own code has the byte 25. `Step` on the callee's
`Return` pops the callee, reads that byte 25 of the caller's chunk as the operand and moves
the caller's pc to 6; register 2 then holds the nil pointer found in `registers[25]`, not
the value `true` of register 3. -/
theorem Return_reads_operand_from_caller :
    (Step (sampleCallMachine 1)).state.callStack.map (fun f => f.pc) = [5, 0] ∧
    (Step (sampleCallMachine 1)).state.callStack.map (fun f => f.dest) = [0, 2] ∧
    (loadReg 3 (Step (sampleCallMachine 1)).state).value = some (Value.bool true) ∧
    (Step (Step (sampleCallMachine 1)).state).failure = none ∧
    (Step (Step (sampleCallMachine 1)).state).state.callStack.map (fun f => f.pc) = [6] ∧
    (loadReg 2 (Step (Step (sampleCallMachine 1)).state).state).value =
      some (Value.pointer none) := by
  refine ⟨by decide, by decide, rfl, by decide, by decide, rfl⟩

/-- C14, evaluated on the code: on the machine made by `NewAuroraVM` for the program
`[Return, 0]`, `Step` pops the only frame and then panics with an index out of range while
reading the operand; the same happens when register 0 has been initialised. -/
theorem Return_of_last_frame_panics :
    (NewAuroraVM (some { code := [OpReturn, 0], lines := [], constants := [] })).callStack.length
      = 1 ∧
    (Step (NewAuroraVM (some { code := [OpReturn, 0], lines := [], constants := [] }))).failure =
      some Panic.indexOutOfRange ∧
    (Step (NewAuroraVM (some { code := [OpReturn, 0], lines := [], constants := [] }))
      ).state.callStack.length = 0 ∧
    (Step (machineAt [OpReturn, 0] 0 [(0, Value.nil)])).failure = some Panic.indexOutOfRange := by
  decide

end Returns

/-! ## Registers are shared by all frames -/

section SharedRegisters

/-- What `Step` does on a `Load` of a constant that is in the pool. -/
theorem Step_Load_apply (vm : AuroraVM) (rest : List CallFrame) (f : CallFrame)
    (ch : Chunk Value) (k r : Nat) (v : Value)
    (hs : vm.callStack = rest ++ [f]) (hb : f.function.body = some ch) (hpc : 0 ≤ f.pc)
    (hcode : (ch.code.drop f.pc.toNat).take 3 = [OpLoad, k, r])
    (hk : ch.constants[k]? = some v) :
    Step vm = Res.ok ()
      { vm with callStack := rest ++ [{ f with pc := f.pc + 3 }]
                registers := Function.update vm.registers r (some vm.heapNext)
                heap := Function.update vm.heap vm.heapNext v
                heapNext := vm.heapNext + 1 } := by
  obtain ⟨regs, cs, globals, heap, hn, arrs⟩ := vm
  obtain ⟨locals, ffn, pc, fdest, ct⟩ := f
  simp only at hs hb hpc hcode
  subst hs
  have h0 : ch.code[pc.toNat]? = some OpLoad := by
    simpa using lookup_of_window hcode 0 (by decide)
  have h1 : ch.code[(pc + 1).toNat]? = some k := by
    rw [show (pc + 1).toNat = pc.toNat + 1 by omega]
    simpa using lookup_of_window hcode 1 (by decide)
  have h2 : ch.code[(pc + 1 + 1).toNat]? = some r := by
    rw [show (pc + 1 + 1).toNat = pc.toNat + 2 by omega]
    simpa using lookup_of_window hcode 2 (by decide)
  have n0 : ¬ (pc < 0) := by omega
  have n1 : ¬ (pc + 1 < 0) := by omega
  have n2 : ¬ (pc + 1 + 1 < 0) := by omega
  have nk : ¬ ((k : Int) < 0) := by omega
  have e3 : pc + 1 + 1 + 1 = pc + 3 := by omega
  simp only [Step, readConstant, Exec.bind_apply, topFrame_mk, getFrame_mk,
    readByte_mk regs rest locals ffn _ fdest ct globals heap hn arrs ch hb,
    n0, n1, n2, nk, h0, h1, h2, hk, hb, if_false, e3, indexInt, Int.toNat_ofNat, pointReg,
    OpLoad, reduceIte]


/-- C15, as the claim states it, fails: the caller's register 3 reads `true`; the callee, on
top of the caller, loads the constant `false` into register 3; after the callee's `Return`
the caller is the top frame again and its register 3 reads `false`. -/
theorem callee_Load_changes_caller_register :
    (loadReg 3 sampleLoadMachine).value = some (Value.bool true) ∧
    (Step sampleLoadMachine).failure = none ∧
    (Step sampleLoadMachine).state.callStack.length = 2 ∧
    (loadReg 3 (Step sampleLoadMachine).state).value = some (Value.bool true) ∧
    (Step (Step sampleLoadMachine).state).failure = none ∧
    (Step (Step sampleLoadMachine).state).state.callStack.length = 2 ∧
    (Step (Step (Step sampleLoadMachine).state).state).failure = none ∧
    (Step (Step (Step sampleLoadMachine).state).state).state.callStack.length = 1 ∧
    (loadReg 3 (Step (Step (Step sampleLoadMachine).state).state).state).value =
      some (Value.bool false) := by
  refine ⟨rfl, by decide, by decide, rfl, by decide, by decide, by decide, by decide, rfl⟩

/-- C15, amended: the registers are one array of the machine, shared by all frames. A `Load`
of the constant `v` into register `r`, executed by `Step` in the top frame, leaves the
frames beneath unchanged and moves the top frame's pc by 3, and afterwards register `r`
reads `v` whatever frames are on the call stack, in particular when the caller is the top
frame again. -/
theorem Load_writes_shared_register (vm : AuroraVM) (rest : List CallFrame) (f : CallFrame)
    (ch : Chunk Value) (k r : Nat) (v : Value)
    (hs : vm.callStack = rest ++ [f]) (hb : f.function.body = some ch) (hpc : 0 ≤ f.pc)
    (hcode : (ch.code.drop f.pc.toNat).take 3 = [OpLoad, k, r])
    (hk : ch.constants[k]? = some v) :
    ∃ s' : AuroraVM, Step vm = Res.ok () s' ∧
      s'.callStack = rest ++ [{ f with pc := f.pc + 3 }] ∧
      (∀ frames : List CallFrame,
        (loadReg r { s' with callStack := frames }).value = some v) ∧
      (loadReg r { s' with callStack := rest }).value = some v := by
  refine ⟨_, Step_Load_apply vm rest f ch k r v hs hb hpc hcode hk, rfl, ?_, ?_⟩
  · intro frames
    simp [loadReg, Res.value]
  · simp [loadReg, Res.value]

theorem Load_writes_shared_register_witness :
    ∃ s' : AuroraVM, Step (Step sampleLoadMachine).state = Res.ok () s' ∧
      s'.callStack = [{ scriptFrame [OpCall, 1, 0, 3, 2, OpReturn, 0] 0 with pc := 5 }] ++
        [{ ({ locals := callLocals sampleLoadMachine.registers 3 0, function := sampleLoader,
              pc := 0, dest := 2, chunkType := ChunkType.TypeFunction } : CallFrame) with
            pc := (0 : Int) + 3 }] ∧
      (∀ frames : List CallFrame,
        (loadReg 3 { s' with callStack := frames }).value = some (Value.bool false)) ∧
      (loadReg 3 { s' with callStack :=
        [{ scriptFrame [OpCall, 1, 0, 3, 2, OpReturn, 0] 0 with pc := 5 }] }).value =
          some (Value.bool false) :=
  Load_writes_shared_register (Step sampleLoadMachine).state
    [{ scriptFrame [OpCall, 1, 0, 3, 2, OpReturn, 0] 0 with pc := 5 }]
    { locals := callLocals sampleLoadMachine.registers 3 0, function := sampleLoader,
      pc := 0, dest := 2, chunkType := ChunkType.TypeFunction }
    { code := [OpLoad, 0, 3, OpReturn, 3], lines := [], constants := [Value.bool false] }
    0 3 (Value.bool false) rfl rfl (by decide) rfl rfl

end SharedRegisters

/-! ## Operators and the variants of their operands -/

section Operators

/-- `floatBinary` when `*registers[a]` is not a `float64`: the type switch has no case for it
and nothing but the pc changes. -/
theorem floatBinary_skip_mk (fop : Float → Float → Value)
    (regs : Nat → Option Nat) (rest : List CallFrame)
    (locals : Nat → Value) (fn : AuroraFunction Value) (pc : Int) (dest : Nat) (ct : ChunkType)
    (globals : Int → Option Value) (heap : Nat → Value) (hn : Nat) (arrs : Nat → List Value)
    (ch : Chunk Value) (a b c addr : Nat) (hb : fn.body = some ch) (hpc : 0 ≤ pc)
    (ha : ch.code[pc.toNat]? = some a) (hb' : ch.code[pc.toNat + 1]? = some b)
    (hc : ch.code[pc.toNat + 2]? = some c)
    (hreg : regs a = some addr) (hv : ∀ x, heap addr ≠ Value.float64 x) :
    floatBinary fop ⟨regs, rest ++ [⟨locals, fn, pc, dest, ct⟩], globals, heap, hn, arrs⟩ =
      Res.ok () ⟨regs, rest ++ [⟨locals, fn, pc + 3, dest, ct⟩], globals, heap, hn, arrs⟩ := by
  have h1 : ch.code[(pc + 1).toNat]? = some b := by
    rw [show (pc + 1).toNat = pc.toNat + 1 by omega]
    exact hb'
  have h2 : ch.code[(pc + 1 + 1).toNat]? = some c := by
    rw [show (pc + 1 + 1).toNat = pc.toNat + 2 by omega]
    exact hc
  have n0 : ¬ (pc < 0) := by omega
  have n1 : ¬ (pc + 1 < 0) := by omega
  have n2 : ¬ (pc + 1 + 1 < 0) := by omega
  have e3 : pc + 1 + 1 + 1 = pc + 3 := by omega
  simp only [floatBinary, Exec.bind_apply,
    readByte_mk regs rest locals fn _ dest ct globals heap hn arrs ch hb,
    n0, n1, n2, ha, h1, h2, if_false, e3, loadReg, hreg]
  rfl

/-- `floatBinary` when `*registers[a]` is a `float64` and `*registers[b]` is not: the type
assertion on `b` panics. -/
theorem floatBinary_second_mk (fop : Float → Float → Value)
    (regs : Nat → Option Nat) (rest : List CallFrame)
    (locals : Nat → Value) (fn : AuroraFunction Value) (pc : Int) (dest : Nat) (ct : ChunkType)
    (globals : Int → Option Value) (heap : Nat → Value) (hn : Nat) (arrs : Nat → List Value)
    (ch : Chunk Value) (a b c addr addrB : Nat) (x : Float)
    (hb : fn.body = some ch) (hpc : 0 ≤ pc)
    (ha : ch.code[pc.toNat]? = some a) (hb' : ch.code[pc.toNat + 1]? = some b)
    (hc : ch.code[pc.toNat + 2]? = some c)
    (hreg : regs a = some addr) (hv : heap addr = Value.float64 x)
    (hregB : regs b = some addrB) (hvB : ∀ y, heap addrB ≠ Value.float64 y) :
    floatBinary fop ⟨regs, rest ++ [⟨locals, fn, pc, dest, ct⟩], globals, heap, hn, arrs⟩ =
      Res.panic Panic.typeAssertion
        ⟨regs, rest ++ [⟨locals, fn, pc + 3, dest, ct⟩], globals, heap, hn, arrs⟩ := by
  have h1 : ch.code[(pc + 1).toNat]? = some b := by
    rw [show (pc + 1).toNat = pc.toNat + 1 by omega]
    exact hb'
  have h2 : ch.code[(pc + 1 + 1).toNat]? = some c := by
    rw [show (pc + 1 + 1).toNat = pc.toNat + 2 by omega]
    exact hc
  have n0 : ¬ (pc < 0) := by omega
  have n1 : ¬ (pc + 1 < 0) := by omega
  have n2 : ¬ (pc + 1 + 1 < 0) := by omega
  have e3 : pc + 1 + 1 + 1 = pc + 3 := by omega
  simp only [floatBinary, Exec.bind_apply,
    readByte_mk regs rest locals fn _ dest ct globals heap hn arrs ch hb,
    n0, n1, n2, ha, h1, h2, if_false, e3, loadReg, hreg, hv, hregB]
  cases hy : heap addrB with
  | float64 y => exact absurd hy (hvB y)
  | _ => rfl

/-- `floatBinary` on two `float64` operands: the result is written through the pointer in
`registers[dest]`, which panics when that pointer is nil. -/
theorem floatBinary_floats_mk (fop : Float → Float → Value)
    (regs : Nat → Option Nat) (rest : List CallFrame)
    (locals : Nat → Value) (fn : AuroraFunction Value) (pc : Int) (dest : Nat) (ct : ChunkType)
    (globals : Int → Option Value) (heap : Nat → Value) (hn : Nat) (arrs : Nat → List Value)
    (ch : Chunk Value) (a b c addr addrB : Nat) (x y : Float)
    (hb : fn.body = some ch) (hpc : 0 ≤ pc)
    (ha : ch.code[pc.toNat]? = some a) (hb' : ch.code[pc.toNat + 1]? = some b)
    (hc : ch.code[pc.toNat + 2]? = some c)
    (hreg : regs a = some addr) (hv : heap addr = Value.float64 x)
    (hregB : regs b = some addrB) (hvB : heap addrB = Value.float64 y) :
    floatBinary fop ⟨regs, rest ++ [⟨locals, fn, pc, dest, ct⟩], globals, heap, hn, arrs⟩ =
      match regs c with
      | none => Res.panic Panic.nilDereference
          ⟨regs, rest ++ [⟨locals, fn, pc + 3, dest, ct⟩], globals, heap, hn, arrs⟩
      | some d => Res.ok ()
          ⟨regs, rest ++ [⟨locals, fn, pc + 3, dest, ct⟩], globals,
            Function.update heap d (fop x y), hn, arrs⟩ := by
  have h1 : ch.code[(pc + 1).toNat]? = some b := by
    rw [show (pc + 1).toNat = pc.toNat + 1 by omega]
    exact hb'
  have h2 : ch.code[(pc + 1 + 1).toNat]? = some c := by
    rw [show (pc + 1 + 1).toNat = pc.toNat + 2 by omega]
    exact hc
  have n0 : ¬ (pc < 0) := by omega
  have n1 : ¬ (pc + 1 < 0) := by omega
  have n2 : ¬ (pc + 1 + 1 < 0) := by omega
  have e3 : pc + 1 + 1 + 1 = pc + 3 := by omega
  simp only [floatBinary, Exec.bind_apply,
    readByte_mk regs rest locals fn _ dest ct globals heap hn arrs ch hb,
    n0, n1, n2, ha, h1, h2, if_false, e3, loadReg, hreg, hv, hregB, hvB, asFloat64,
    Exec.pure_apply, storeReg]


/-- On an opcode of `floatBinaryTable`, `Step` reads the opcode and runs `floatBinary` with
the operation of the table. -/
theorem Step_floatBinary (vm : AuroraVM) (rest : List CallFrame) (f : CallFrame)
    (ch : Chunk Value) (op : Opcode) (fop : Float → Float → Value)
    (hmem : (op, fop) ∈ floatBinaryTable)
    (hs : vm.callStack = rest ++ [f]) (hb : f.function.body = some ch) (hpc : 0 ≤ f.pc)
    (h0 : ch.code[f.pc.toNat]? = some op) :
    Step vm = floatBinary fop { vm with callStack := rest ++ [{ f with pc := f.pc + 1 }] } := by
  obtain ⟨regs, cs, globals, heap, hn, arrs⟩ := vm
  obtain ⟨locals, ffn, pc, fdest, ct⟩ := f
  simp only at hs hb hpc h0
  subst hs
  have n0 : ¬ (pc < 0) := by omega
  simp only [floatBinaryTable, List.mem_cons, Prod.mk.injEq, List.mem_singleton,
    List.not_mem_nil, or_false] at hmem
  rcases hmem with ⟨rfl, rfl⟩ | ⟨rfl, rfl⟩ | ⟨rfl, rfl⟩ | ⟨rfl, rfl⟩ | ⟨rfl, rfl⟩ | ⟨rfl, rfl⟩ |
    ⟨rfl, rfl⟩ | ⟨rfl, rfl⟩ | ⟨rfl, rfl⟩ <;>
  simp only [Step, Exec.bind_apply, topFrame_mk,
    readByte_mk regs rest locals ffn _ fdest ct globals heap hn arrs ch hb,
    n0, h0, if_false,
    OpLoad, OpStore, OpStoreGlobal, OpAdd, OpAddTo, OpSub, OpSubFrom, OpMul, OpDiv,
    OpMod, OpNeg, OpNot, OpEqual, OpNotEqual, OpLess, OpLessEqual, OpGreater, OpGreaterEqual,
    Nat.reduceEqDiff, reduceIte]

/-- On an opcode of `floatInPlaceTable`, `Step` reads the opcode and runs `floatInPlace`. -/
theorem Step_floatInPlace (vm : AuroraVM) (rest : List CallFrame) (f : CallFrame)
    (ch : Chunk Value) (op : Opcode) (fop : Float → Float → Value)
    (hmem : (op, fop) ∈ floatInPlaceTable)
    (hs : vm.callStack = rest ++ [f]) (hb : f.function.body = some ch) (hpc : 0 ≤ f.pc)
    (h0 : ch.code[f.pc.toNat]? = some op) :
    Step vm = floatInPlace fop { vm with callStack := rest ++ [{ f with pc := f.pc + 1 }] } := by
  obtain ⟨regs, cs, globals, heap, hn, arrs⟩ := vm
  obtain ⟨locals, ffn, pc, fdest, ct⟩ := f
  simp only at hs hb hpc h0
  subst hs
  have n0 : ¬ (pc < 0) := by omega
  simp only [floatInPlaceTable, List.mem_cons, Prod.mk.injEq, List.mem_singleton,
    List.not_mem_nil, or_false] at hmem
  rcases hmem with ⟨rfl, rfl⟩ | ⟨rfl, rfl⟩ <;>
  simp only [Step, Exec.bind_apply, topFrame_mk,
    readByte_mk regs rest locals ffn _ fdest ct globals heap hn arrs ch hb,
    n0, h0, if_false,
    OpLoad, OpStore, OpStoreGlobal, OpAdd, OpAddTo, OpSub, OpSubFrom, OpMul, OpDiv,
    OpMod, OpNeg, OpNot, OpEqual, OpNotEqual, OpLess, OpLessEqual, OpGreater, OpGreaterEqual,
    Nat.reduceEqDiff, reduceIte]

/-- `floatInPlace` when `*registers[a]` is not a `float64`: nothing but the pc changes. -/
theorem floatInPlace_skip_mk (fop : Float → Float → Value)
    (regs : Nat → Option Nat) (rest : List CallFrame)
    (locals : Nat → Value) (fn : AuroraFunction Value) (pc : Int) (dest : Nat) (ct : ChunkType)
    (globals : Int → Option Value) (heap : Nat → Value) (hn : Nat) (arrs : Nat → List Value)
    (ch : Chunk Value) (a b addr : Nat) (hb : fn.body = some ch) (hpc : 0 ≤ pc)
    (ha : ch.code[pc.toNat]? = some a) (hb' : ch.code[pc.toNat + 1]? = some b)
    (hreg : regs a = some addr) (hv : ∀ x, heap addr ≠ Value.float64 x) :
    floatInPlace fop ⟨regs, rest ++ [⟨locals, fn, pc, dest, ct⟩], globals, heap, hn, arrs⟩ =
      Res.ok () ⟨regs, rest ++ [⟨locals, fn, pc + 2, dest, ct⟩], globals, heap, hn, arrs⟩ := by
  have h1 : ch.code[(pc + 1).toNat]? = some b := by
    rw [show (pc + 1).toNat = pc.toNat + 1 by omega]
    exact hb'
  have n0 : ¬ (pc < 0) := by omega
  have n1 : ¬ (pc + 1 < 0) := by omega
  have e2 : pc + 1 + 1 = pc + 2 := by omega
  simp only [floatInPlace, Exec.bind_apply,
    readByte_mk regs rest locals fn _ dest ct globals heap hn arrs ch hb,
    n0, n1, ha, h1, if_false, e2, loadReg, hreg]
  cases hx : heap addr with
  | float64 x => exact absurd hx (hv x)
  | _ => rfl

/-- `floatInPlace` when `*registers[a]` is a `float64` and `*registers[b]` is not: the type
assertion on `b` panics. -/
theorem floatInPlace_second_mk (fop : Float → Float → Value)
    (regs : Nat → Option Nat) (rest : List CallFrame)
    (locals : Nat → Value) (fn : AuroraFunction Value) (pc : Int) (dest : Nat) (ct : ChunkType)
    (globals : Int → Option Value) (heap : Nat → Value) (hn : Nat) (arrs : Nat → List Value)
    (ch : Chunk Value) (a b addr addrB : Nat) (x : Float)
    (hb : fn.body = some ch) (hpc : 0 ≤ pc)
    (ha : ch.code[pc.toNat]? = some a) (hb' : ch.code[pc.toNat + 1]? = some b)
    (hreg : regs a = some addr) (hv : heap addr = Value.float64 x)
    (hregB : regs b = some addrB) (hvB : ∀ y, heap addrB ≠ Value.float64 y) :
    floatInPlace fop ⟨regs, rest ++ [⟨locals, fn, pc, dest, ct⟩], globals, heap, hn, arrs⟩ =
      Res.panic Panic.typeAssertion
        ⟨regs, rest ++ [⟨locals, fn, pc + 2, dest, ct⟩], globals, heap, hn, arrs⟩ := by
  have h1 : ch.code[(pc + 1).toNat]? = some b := by
    rw [show (pc + 1).toNat = pc.toNat + 1 by omega]
    exact hb'
  have n0 : ¬ (pc < 0) := by omega
  have n1 : ¬ (pc + 1 < 0) := by omega
  have e2 : pc + 1 + 1 = pc + 2 := by omega
  simp only [floatInPlace, Exec.bind_apply,
    readByte_mk regs rest locals fn _ dest ct globals heap hn arrs ch hb,
    n0, n1, ha, h1, if_false, e2, loadReg, hreg, hv, hregB]
  cases hy : heap addrB with
  | float64 y => exact absurd hy (hvB y)
  | _ => rfl


/-- What `Step` does on `Neg` and `Not` when `*registers[a]` is not of the variant of the
single case of the type switch: nothing but the pc changes. -/
theorem Step_unary_skip (vm : AuroraVM) (rest : List CallFrame) (f : CallFrame)
    (ch : Chunk Value) (op a dest addr : Nat)
    (hs : vm.callStack = rest ++ [f]) (hb : f.function.body = some ch) (hpc : 0 ≤ f.pc)
    (h0 : ch.code[f.pc.toNat]? = some op) (h1 : ch.code[f.pc.toNat + 1]? = some a)
    (h2 : ch.code[f.pc.toNat + 2]? = some dest)
    (hreg : vm.registers a = some addr)
    (hop : (op = OpNeg ∧ ∀ x, vm.heap addr ≠ Value.float64 x) ∨
      (op = OpNot ∧ ∀ x, vm.heap addr ≠ Value.bool x)) :
    Step vm = Res.ok () { vm with callStack := rest ++ [{ f with pc := f.pc + 3 }] } := by
  obtain ⟨regs, cs, globals, heap, hn, arrs⟩ := vm
  obtain ⟨locals, ffn, pc, fdest, ct⟩ := f
  simp only at hs hb hpc h0 h1 h2 hreg hop
  subst hs
  have h1' : ch.code[(pc + 1).toNat]? = some a := by
    rw [show (pc + 1).toNat = pc.toNat + 1 by omega]
    exact h1
  have h2' : ch.code[(pc + 1 + 1).toNat]? = some dest := by
    rw [show (pc + 1 + 1).toNat = pc.toNat + 2 by omega]
    exact h2
  have n0 : ¬ (pc < 0) := by omega
  have n1 : ¬ (pc + 1 < 0) := by omega
  have n2 : ¬ (pc + 1 + 1 < 0) := by omega
  have e3 : pc + 1 + 1 + 1 = pc + 3 := by omega
  rcases hop with ⟨rfl, hv⟩ | ⟨rfl, hv⟩
  · simp only [Step, Exec.bind_apply, topFrame_mk,
      readByte_mk regs rest locals ffn _ fdest ct globals heap hn arrs ch hb,
      n0, n1, n2, h0, h1', h2', if_false, e3, loadReg, hreg,
      OpLoad, OpStore, OpStoreGlobal, OpAdd, OpAddTo, OpSub, OpSubFrom, OpMul, OpDiv,
      OpMod, OpNeg, OpNot, Nat.reduceEqDiff, reduceIte]
    cases hx : heap addr with
    | float64 x => exact absurd hx (hv x)
    | _ => rfl
  · simp only [Step, Exec.bind_apply, topFrame_mk,
      readByte_mk regs rest locals ffn _ fdest ct globals heap hn arrs ch hb,
      n0, n1, n2, h0, h1', h2', if_false, e3, loadReg, hreg,
      OpLoad, OpStore, OpStoreGlobal, OpAdd, OpAddTo, OpSub, OpSubFrom, OpMul, OpDiv,
      OpMod, OpNeg, OpNot, Nat.reduceEqDiff, reduceIte]
    cases hx : heap addr with
    | bool x => exact absurd hx (hv x)
    | _ => rfl


/-- C16, as the claim states it, fails: `Add`, `Less`, `AddTo`, `Neg` on a Boolean first
operand and `Not` on a nil first operand complete without failure, and the destination
register 3 still holds what it held. -/
theorem wrong_variant_completes_as_no_op :
    (Step (sampleArithMachine OpAdd
      [(1, Value.bool true), (2, Value.bool false), (3, Value.nil)])).failure = none ∧
    (loadReg 3 (Step (sampleArithMachine OpAdd
      [(1, Value.bool true), (2, Value.bool false), (3, Value.nil)])).state).value =
        some Value.nil ∧
    (Step (sampleArithMachine OpAdd
      [(1, Value.bool true), (2, Value.bool false), (3, Value.nil)])).state.pc = some 4 ∧
    (Step (sampleArithMachine OpLess
      [(1, Value.bool true), (2, Value.bool false), (3, Value.nil)])).failure = none ∧
    (Step (sampleArithMachine OpAddTo
      [(1, Value.bool true), (2, Value.bool false), (3, Value.nil)])).failure = none ∧
    (Step (sampleArithMachine OpNeg
      [(1, Value.bool true), (2, Value.bool false), (3, Value.nil)])).failure = none ∧
    (Step (sampleArithMachine OpNot
      [(1, Value.nil), (2, Value.bool false), (3, Value.nil)])).failure = none := by
  refine ⟨by decide, rfl, by decide, by decide, by decide, by decide, by decide⟩

/-- C16, amended: on the arithmetic opcodes, `Neg`, `Not` and the ordering comparisons the
variant of the first operand `a` gates the work. When register `a` holds a value of the
wrong variant (not a Number; for `Not`, not a Boolean), `Step` completes as a no-op: only the
pc moves past the instruction and no register is written. When `a` holds a Number and the
second operand `b` of a binary opcode holds a non-Number, `Step` fails with the panic of a
failed type assertion. -/
theorem wrong_variant_is_skipped_or_panics (vm : AuroraVM) (rest : List CallFrame)
    (f : CallFrame) (ch : Chunk Value) (op a b addr : Nat)
    (hs : vm.callStack = rest ++ [f]) (hb : f.function.body = some ch) (hpc : 0 ≤ f.pc)
    (h0 : ch.code[f.pc.toNat]? = some op) (h1 : ch.code[f.pc.toNat + 1]? = some a)
    (h2 : ch.code[f.pc.toNat + 2]? = some b)
    (hreg : vm.registers a = some addr) :
    (op ∈ floatBinaryOps → ∀ c, ch.code[f.pc.toNat + 3]? = some c →
      (∀ x, vm.heap addr ≠ Value.float64 x) →
      Step vm = Res.ok () { vm with callStack := rest ++ [{ f with pc := f.pc + 4 }] }) ∧
    (op ∈ floatInPlaceOps ∨ op = OpNeg → (∀ x, vm.heap addr ≠ Value.float64 x) →
      Step vm = Res.ok () { vm with callStack := rest ++ [{ f with pc := f.pc + 3 }] }) ∧
    (op = OpNot → (∀ x, vm.heap addr ≠ Value.bool x) →
      Step vm = Res.ok () { vm with callStack := rest ++ [{ f with pc := f.pc + 3 }] }) ∧
    (op ∈ floatBinaryOps → ∀ c x addrB, ch.code[f.pc.toNat + 3]? = some c →
      vm.heap addr = Value.float64 x → vm.registers b = some addrB →
      (∀ y, vm.heap addrB ≠ Value.float64 y) →
      Step vm = Res.panic Panic.typeAssertion
        { vm with callStack := rest ++ [{ f with pc := f.pc + 4 }] }) ∧
    (op ∈ floatInPlaceOps → ∀ x addrB,
      vm.heap addr = Value.float64 x → vm.registers b = some addrB →
      (∀ y, vm.heap addrB ≠ Value.float64 y) →
      Step vm = Res.panic Panic.typeAssertion
        { vm with callStack := rest ++ [{ f with pc := f.pc + 3 }] }) := by
  have t1 : (f.pc + 1).toNat = f.pc.toNat + 1 := by omega
  have q1 : (0 : Int) ≤ f.pc + 1 := by omega
  have k1 : ch.code[(f.pc + 1).toNat]? = some a := by rw [t1]; exact h1
  have k2 : ch.code[(f.pc + 1).toNat + 1]? = some b := by rw [t1]; exact h2
  have e4 : f.pc + 1 + 3 = f.pc + 4 := by omega
  have e3 : f.pc + 1 + 2 = f.pc + 3 := by omega
  refine ⟨?_, ?_, ?_, ?_, ?_⟩
  · intro hop c h3 hv
    obtain ⟨⟨op', fop⟩, hmem, rfl⟩ := List.mem_map.mp hop
    have k3 : ch.code[(f.pc + 1).toNat + 2]? = some c := by rw [t1]; exact h3
    rw [Step_floatBinary vm rest f ch op' fop hmem hs hb hpc h0]
    have := floatBinary_skip_mk fop vm.registers rest f.locals f.function (f.pc + 1) f.dest
      f.chunkType vm.globals vm.heap vm.heapNext vm.arrays ch a b c addr hb q1 k1 k2 k3 hreg hv
    rw [e4] at this
    exact this
  · intro hop hv
    rcases hop with hop | rfl
    · obtain ⟨⟨op', fop⟩, hmem, rfl⟩ := List.mem_map.mp hop
      rw [Step_floatInPlace vm rest f ch op' fop hmem hs hb hpc h0]
      have := floatInPlace_skip_mk fop vm.registers rest f.locals f.function (f.pc + 1) f.dest
        f.chunkType vm.globals vm.heap vm.heapNext vm.arrays ch a b addr hb q1 k1 k2 hreg hv
      rw [e3] at this
      exact this
    · exact Step_unary_skip vm rest f ch OpNeg a b addr hs hb hpc h0 h1 h2 hreg
        (Or.inl ⟨rfl, hv⟩)
  · rintro rfl hv
    exact Step_unary_skip vm rest f ch OpNot a b addr hs hb hpc h0 h1 h2 hreg
      (Or.inr ⟨rfl, hv⟩)
  · intro hop c x addrB h3 hv hregB hvB
    obtain ⟨⟨op', fop⟩, hmem, rfl⟩ := List.mem_map.mp hop
    have k3 : ch.code[(f.pc + 1).toNat + 2]? = some c := by rw [t1]; exact h3
    rw [Step_floatBinary vm rest f ch op' fop hmem hs hb hpc h0]
    have := floatBinary_second_mk fop vm.registers rest f.locals f.function (f.pc + 1) f.dest
      f.chunkType vm.globals vm.heap vm.heapNext vm.arrays ch a b c addr addrB x hb q1 k1 k2 k3
      hreg hv hregB hvB
    rw [e4] at this
    exact this
  · intro hop x addrB hv hregB hvB
    obtain ⟨⟨op', fop⟩, hmem, rfl⟩ := List.mem_map.mp hop
    rw [Step_floatInPlace vm rest f ch op' fop hmem hs hb hpc h0]
    have := floatInPlace_second_mk fop vm.registers rest f.locals f.function (f.pc + 1) f.dest
      f.chunkType vm.globals vm.heap vm.heapNext vm.arrays ch a b addr addrB x hb q1 k1 k2
      hreg hv hregB hvB
    rw [e3] at this
    exact this


theorem wrong_variant_is_skipped_or_panics_witness :
    OpAdd ∈ floatBinaryOps ∧
    (∀ x, (sampleArithMachine OpAdd
      [(1, Value.bool true), (2, Value.bool false), (3, Value.nil)]).heap 0 ≠ Value.float64 x) ∧
    Step (sampleArithMachine OpAdd
        [(1, Value.bool true), (2, Value.bool false), (3, Value.nil)]) =
      Res.ok () { sampleArithMachine OpAdd
          [(1, Value.bool true), (2, Value.bool false), (3, Value.nil)] with
        callStack := [] ++ [{ scriptFrame [OpAdd, 1, 2, 3] 0 with
          pc := (scriptFrame [OpAdd, 1, 2, 3] 0).pc + 4 }] } :=
  ⟨by decide, fun x h => Value.noConfusion h,
    (wrong_variant_is_skipped_or_panics
      (sampleArithMachine OpAdd [(1, Value.bool true), (2, Value.bool false), (3, Value.nil)])
      [] (scriptFrame [OpAdd, 1, 2, 3] 0)
      { code := [OpAdd, 1, 2, 3], lines := [], constants := [] } OpAdd 1 2 0
      rfl rfl (by decide) rfl rfl rfl rfl).1 (by decide) 3 rfl
      (fun x h => Value.noConfusion h)⟩

/-- What `Step` does on an opcode of `floatBinaryTable` when both operands are Numbers: the
result is written through the pointer in `registers[dest]`; when that pointer is nil, which
it is until a `Load` has set the register, `Step` panics. -/
theorem Step_floatBinary_floats (vm : AuroraVM) (rest : List CallFrame) (f : CallFrame)
    (ch : Chunk Value) (op : Opcode) (fop : Float → Float → Value) (a b c addr addrB : Nat)
    (x y : Float) (hmem : (op, fop) ∈ floatBinaryTable)
    (hs : vm.callStack = rest ++ [f]) (hb : f.function.body = some ch) (hpc : 0 ≤ f.pc)
    (hcode : (ch.code.drop f.pc.toNat).take 4 = [op, a, b, c])
    (hreg : vm.registers a = some addr) (hv : vm.heap addr = Value.float64 x)
    (hregB : vm.registers b = some addrB) (hvB : vm.heap addrB = Value.float64 y) :
    Step vm =
      match vm.registers c with
      | none => Res.panic Panic.nilDereference
          { vm with callStack := rest ++ [{ f with pc := f.pc + 4 }] }
      | some d => Res.ok ()
          { vm with callStack := rest ++ [{ f with pc := f.pc + 4 }]
                    heap := Function.update vm.heap d (fop x y) } := by
  have h0 : ch.code[f.pc.toNat]? = some op := by
    simpa using lookup_of_window hcode 0 (by decide)
  have h1 : ch.code[f.pc.toNat + 1]? = some a := by
    simpa using lookup_of_window hcode 1 (by decide)
  have h2 : ch.code[f.pc.toNat + 2]? = some b := by
    simpa using lookup_of_window hcode 2 (by decide)
  have h3 : ch.code[f.pc.toNat + 3]? = some c := by
    simpa using lookup_of_window hcode 3 (by decide)
  have t1 : (f.pc + 1).toNat = f.pc.toNat + 1 := by omega
  have q1 : (0 : Int) ≤ f.pc + 1 := by omega
  have k1 : ch.code[(f.pc + 1).toNat]? = some a := by rw [t1]; exact h1
  have k2 : ch.code[(f.pc + 1).toNat + 1]? = some b := by rw [t1]; exact h2
  have k3 : ch.code[(f.pc + 1).toNat + 2]? = some c := by rw [t1]; exact h3
  have e4 : f.pc + 1 + 3 = f.pc + 4 := by omega
  rw [Step_floatBinary vm rest f ch op fop hmem hs hb hpc h0]
  have := floatBinary_floats_mk fop vm.registers rest f.locals f.function (f.pc + 1) f.dest
    f.chunkType vm.globals vm.heap vm.heapNext vm.arrays ch a b c addr addrB x y hb q1 k1 k2 k3
    hreg hv hregB hvB
  rw [e4] at this
  rw [this]

set_option maxHeartbeats 4000000 in
/-- The third step of `Load 0 1; Load 1 2; Add 1 2 3` on a new machine. -/
theorem sampleSumMachine_third_step :
    (Step (Step (Step sampleSumMachine).state).state).failure = some Panic.nilDereference := by
  decide

/-- C17, evaluated on the code: with Numbers in registers 1 and 2 and register 3 never
written, `Step` on `Add`, `Sub`, `Mul`, `Div` and `Mod` with destination 3 panics with a nil
dereference; so does the third step of the program `Load 0 1; Load 1 2; Add 1 2 3` started
by `NewAuroraVM`, whose two loads succeed. -/
theorem arithmetic_into_fresh_register_panics :
    (Step (sampleArithMachine OpAdd [(1, Value.float64 1), (2, Value.float64 2)])).failure =
      some Panic.nilDereference ∧
    (Step (sampleArithMachine OpSub [(1, Value.float64 1), (2, Value.float64 2)])).failure =
      some Panic.nilDereference ∧
    (Step (sampleArithMachine OpMul [(1, Value.float64 1), (2, Value.float64 2)])).failure =
      some Panic.nilDereference ∧
    (Step (sampleArithMachine OpDiv [(1, Value.float64 1), (2, Value.float64 2)])).failure =
      some Panic.nilDereference ∧
    (Step (sampleArithMachine OpMod [(1, Value.float64 1), (2, Value.float64 2)])).failure =
      some Panic.nilDereference ∧
    (Step sampleSumMachine).failure = none ∧
    (Step (Step sampleSumMachine).state).failure = none ∧
    (Step (Step sampleSumMachine).state).state.pc = some 6 ∧
    (Step (Step (Step sampleSumMachine).state).state).failure = some Panic.nilDereference := by
  refine ⟨by decide, by decide, by decide, by decide, by decide, by decide, by decide,
    by decide, sampleSumMachine_third_step⟩

end Operators

/-! ## Locals -/

section Locals

/-- What `Step` does on a `Store`: the local slot receives the operand byte itself. -/
theorem Step_Store_apply (vm : AuroraVM) (rest : List CallFrame) (f : CallFrame)
    (ch : Chunk Value) (src slot : Nat)
    (hs : vm.callStack = rest ++ [f]) (hb : f.function.body = some ch) (hpc : 0 ≤ f.pc)
    (hcode : (ch.code.drop f.pc.toNat).take 3 = [OpStore, src, slot]) :
    Step vm = Res.ok ()
      { vm with callStack := rest ++
          [{ f with pc := f.pc + 3
                    locals := Function.update f.locals slot (Value.uint8 src) }] } := by
  obtain ⟨regs, cs, globals, heap, hn, arrs⟩ := vm
  obtain ⟨locals, ffn, pc, fdest, ct⟩ := f
  simp only at hs hb hpc hcode
  subst hs
  have h0 : ch.code[pc.toNat]? = some OpStore := by
    simpa using lookup_of_window hcode 0 (by decide)
  have h1 : ch.code[(pc + 1).toNat]? = some src := by
    rw [show (pc + 1).toNat = pc.toNat + 1 by omega]
    simpa using lookup_of_window hcode 1 (by decide)
  have h2 : ch.code[(pc + 1 + 1).toNat]? = some slot := by
    rw [show (pc + 1 + 1).toNat = pc.toNat + 2 by omega]
    simpa using lookup_of_window hcode 2 (by decide)
  have n0 : ¬ (pc < 0) := by omega
  have n1 : ¬ (pc + 1 < 0) := by omega
  have n2 : ¬ (pc + 1 + 1 < 0) := by omega
  have e3 : pc + 1 + 1 + 1 = pc + 3 := by omega
  simp only [Step, Exec.bind_apply, topFrame_mk, getFrame_mk, setFrame_mk,
    readByte_mk regs rest locals ffn _ fdest ct globals heap hn arrs ch hb,
    n0, n1, n2, h0, h1, h2, if_false, e3,
    OpLoad, OpStore, Nat.reduceEqDiff, reduceIte]

/-- C18, evaluated on the code: on `[Store, 1, 7]` with register 1 holding `true`, `Step`
completes and moves the pc to 3, but local slot 7 of the top frame then holds the operand
byte 1 (the register index, as a `uint8`), not the value `true` held in register 1. -/
theorem Store_writes_register_index :
    (loadReg 1 (machineAt [OpStore, 1, 7] 0 [(1, Value.bool true)])).value =
      some (Value.bool true) ∧
    (Step (machineAt [OpStore, 1, 7] 0 [(1, Value.bool true)])).failure = none ∧
    (Step (machineAt [OpStore, 1, 7] 0 [(1, Value.bool true)])).state.pc = some 3 ∧
    ((Step (machineAt [OpStore, 1, 7] 0 [(1, Value.bool true)])).state.callStack.getLast?).map
      (fun f => f.locals 7) = some (Value.uint8 1) ∧
    Value.uint8 1 ≠ Value.bool true := by
  refine ⟨rfl, by decide, by decide, rfl, fun h => Value.noConfusion h⟩

end Locals

/-! ## Globals -/

section Globals

/-- What `Step` does on a `StoreGlobal` of an initialised register. -/
theorem Step_StoreGlobal_apply (vm : AuroraVM) (rest : List CallFrame) (f : CallFrame)
    (ch : Chunk Value) (src g addr : Nat)
    (hs : vm.callStack = rest ++ [f]) (hb : f.function.body = some ch) (hpc : 0 ≤ f.pc)
    (hcode : (ch.code.drop f.pc.toNat).take 3 = [OpStoreGlobal, src, g])
    (hreg : vm.registers src = some addr) :
    Step vm = Res.ok ()
      { vm with callStack := rest ++ [{ f with pc := f.pc + 3 }]
                globals := Function.update vm.globals (g : Int) (some (vm.heap addr)) } := by
  obtain ⟨regs, cs, globals, heap, hn, arrs⟩ := vm
  obtain ⟨locals, ffn, pc, fdest, ct⟩ := f
  simp only at hs hb hpc hcode hreg
  subst hs
  have h0 : ch.code[pc.toNat]? = some OpStoreGlobal := by
    simpa using lookup_of_window hcode 0 (by decide)
  have h1 : ch.code[(pc + 1).toNat]? = some src := by
    rw [show (pc + 1).toNat = pc.toNat + 1 by omega]
    simpa using lookup_of_window hcode 1 (by decide)
  have h2 : ch.code[(pc + 1 + 1).toNat]? = some g := by
    rw [show (pc + 1 + 1).toNat = pc.toNat + 2 by omega]
    simpa using lookup_of_window hcode 2 (by decide)
  have n0 : ¬ (pc < 0) := by omega
  have n1 : ¬ (pc + 1 < 0) := by omega
  have n2 : ¬ (pc + 1 + 1 < 0) := by omega
  have e3 : pc + 1 + 1 + 1 = pc + 3 := by omega
  simp only [Step, Exec.bind_apply, topFrame_mk, getState_apply, putState_apply,
    readByte_mk regs rest locals ffn _ fdest ct globals heap hn arrs ch hb,
    n0, n1, n2, h0, h1, h2, if_false, e3, loadReg, hreg,
    OpLoad, OpStore, OpStoreGlobal, Nat.reduceEqDiff, reduceIte]


theorem globalsKept_refl (s : AuroraVM) : GlobalsKept s s := fun _ h => h

theorem globalsKept_trans {s s1 s2 : AuroraVM} (h1 : GlobalsKept s s1) (h2 : GlobalsKept s1 s2) :
    GlobalsKept s s2 := fun k h => h2 k (h1 k h)

theorem globalsKept_of_eq {s s' : AuroraVM} (h : s'.globals = s.globals) : GlobalsKept s s' := by
  intro k hk
  rw [h]
  exact hk

theorem keepsGlobals_of_globals_eq {α : Type} {m : VM α}
    (h : ∀ s, (m s).state.globals = s.globals) : KeepsGlobals m :=
  fun s => globalsKept_of_eq (h s)

theorem keepsGlobals_bind {α β : Type} {m : VM α} {f : α → VM β}
    (hm : KeepsGlobals m) (hf : ∀ a, KeepsGlobals (f a)) : KeepsGlobals (m >>= f) := by
  intro s
  have h1 := hm s
  rw [Exec.bind_apply]
  cases hms : m s with
  | ok a s1 =>
    rw [hms] at h1
    exact globalsKept_trans h1 (hf a s1)
  | panic p s1 =>
    rw [hms] at h1
    exact h1

theorem keepsGlobals_ite {α : Type} (c : Prop) [Decidable c] {a b : VM α}
    (ha : KeepsGlobals a) (hb : KeepsGlobals b) : KeepsGlobals (if c then a else b) := by
  split
  · exact ha
  · exact hb

theorem keepsGlobals_pure {α : Type} (a : α) : KeepsGlobals (pure a : VM α) :=
  fun s => globalsKept_refl s

theorem keepsGlobals_raise {α : Type} (p : Panic) : KeepsGlobals (raise p : VM α) :=
  fun s => globalsKept_refl s

theorem keepsGlobals_getState : KeepsGlobals (getState : VM AuroraVM) :=
  fun s => globalsKept_refl s

theorem keepsGlobals_topFrame : KeepsGlobals topFrame := by
  refine keepsGlobals_of_globals_eq fun s => ?_
  unfold Aurora.topFrame
  split <;> rfl

theorem keepsGlobals_getFrame (i : Nat) : KeepsGlobals (getFrame i) := by
  refine keepsGlobals_of_globals_eq fun s => ?_
  unfold Aurora.getFrame
  split <;> rfl

theorem keepsGlobals_setFrame (i : Nat) (f : CallFrame) : KeepsGlobals (setFrame i f) :=
  keepsGlobals_of_globals_eq fun _ => rfl

theorem keepsGlobals_indexInt {α : Type} (xs : List α) (k : Int) :
    KeepsGlobals (indexInt xs k : VM α) := by
  refine keepsGlobals_of_globals_eq fun s => ?_
  unfold Aurora.indexInt
  split
  · rfl
  · split <;> rfl

theorem keepsGlobals_loadReg (r : Nat) : KeepsGlobals (loadReg r) := by
  refine keepsGlobals_of_globals_eq fun s => ?_
  unfold Aurora.loadReg
  split <;> rfl

theorem keepsGlobals_storeReg (r : Nat) (v : Value) : KeepsGlobals (storeReg r v) := by
  refine keepsGlobals_of_globals_eq fun s => ?_
  unfold Aurora.storeReg
  split <;> rfl

theorem keepsGlobals_pointReg (r : Nat) (v : Value) : KeepsGlobals (pointReg r v) :=
  keepsGlobals_of_globals_eq fun _ => rfl

theorem keepsGlobals_asFloat64 (v : Value) : KeepsGlobals (asFloat64 v : VM Float) := by
  cases v <;> first | exact keepsGlobals_pure _ | exact keepsGlobals_raise _

theorem keepsGlobals_asBool (v : Value) : KeepsGlobals (asBool v : VM Bool) := by
  cases v <;> first | exact keepsGlobals_pure _ | exact keepsGlobals_raise _

theorem keepsGlobals_asInt (v : Value) : KeepsGlobals (asInt v : VM Int) := by
  cases v <;> first | exact keepsGlobals_pure _ | exact keepsGlobals_raise _

theorem keepsGlobals_asFunction (v : Value) :
    KeepsGlobals (asFunction v : VM (AuroraFunction Value)) := by
  cases v <;> first | exact keepsGlobals_pure _ | exact keepsGlobals_raise _

theorem keepsGlobals_anyEq (a b : Value) : KeepsGlobals (anyEq a b : VM Bool) := by
  cases a <;> cases b <;> first | exact keepsGlobals_pure _ | exact keepsGlobals_raise _

theorem keepsGlobals_readByte : KeepsGlobals readByte := by
  unfold Aurora.readByte
  refine keepsGlobals_bind keepsGlobals_topFrame fun i => ?_
  refine keepsGlobals_bind (keepsGlobals_getFrame i) fun frame => ?_
  refine keepsGlobals_bind (keepsGlobals_setFrame i _) fun _ => ?_
  refine keepsGlobals_bind (keepsGlobals_getFrame i) fun frame => ?_
  split
  · exact keepsGlobals_raise _
  · exact keepsGlobals_indexInt _ _

theorem keepsGlobals_readConstant : KeepsGlobals readConstant := by
  unfold Aurora.readConstant
  refine keepsGlobals_bind keepsGlobals_topFrame fun i => ?_
  refine keepsGlobals_bind keepsGlobals_readByte fun k => ?_
  refine keepsGlobals_bind (keepsGlobals_getFrame i) fun frame => ?_
  split
  · exact keepsGlobals_raise _
  · exact keepsGlobals_indexInt _ _

theorem keepsGlobals_readShort : KeepsGlobals readShort := by
  unfold Aurora.readShort
  refine keepsGlobals_bind keepsGlobals_readByte fun b0 => ?_
  refine keepsGlobals_bind keepsGlobals_readByte fun b1 => ?_
  exact keepsGlobals_pure _

theorem keepsGlobals_addPc (frame : Nat) (offset : Int) : KeepsGlobals (addPc frame offset) := by
  unfold Aurora.addPc
  refine keepsGlobals_bind (keepsGlobals_getFrame frame) fun f => ?_
  exact keepsGlobals_setFrame _ _

theorem keepsGlobals_floatBinary (f : Float → Float → Value) : KeepsGlobals (floatBinary f) := by
  unfold Aurora.floatBinary
  refine keepsGlobals_bind keepsGlobals_readByte fun a => ?_
  refine keepsGlobals_bind keepsGlobals_readByte fun b => ?_
  refine keepsGlobals_bind keepsGlobals_readByte fun dest => ?_
  refine keepsGlobals_bind (keepsGlobals_loadReg a) fun v => ?_
  split
  · refine keepsGlobals_bind (keepsGlobals_loadReg b) fun w => ?_
    refine keepsGlobals_bind (keepsGlobals_asFloat64 w) fun y => ?_
    exact keepsGlobals_storeReg _ _
  · exact keepsGlobals_pure _

theorem keepsGlobals_floatInPlace (f : Float → Float → Value) :
    KeepsGlobals (floatInPlace f) := by
  unfold Aurora.floatInPlace
  refine keepsGlobals_bind keepsGlobals_readByte fun a => ?_
  refine keepsGlobals_bind keepsGlobals_readByte fun b => ?_
  refine keepsGlobals_bind (keepsGlobals_loadReg a) fun v => ?_
  split
  · refine keepsGlobals_bind (keepsGlobals_loadReg b) fun w => ?_
    refine keepsGlobals_bind (keepsGlobals_asFloat64 w) fun y => ?_
    exact keepsGlobals_storeReg _ _
  · exact keepsGlobals_pure _


/-- Setting a global slot keeps every slot that was set. -/
theorem keepsGlobals_setGlobal (g : Int) (v : Value) :
    KeepsGlobals (getState >>= fun vm : AuroraVM =>
      putState { vm with globals := Function.update vm.globals g (some v) }) := by
  intro s k hk
  simp only [Exec.bind_apply, getState_apply, putState_apply, Res.state]
  by_cases h : k = g
  · subst h
    simp
  · rw [Function.update_noteq h]
    exact hk

/-- Pushing a frame does not touch the globals. -/
theorem keepsGlobals_pushFrame (F : AuroraVM → CallFrame) :
    KeepsGlobals (getState >>= fun vm : AuroraVM =>
      putState { vm with callStack := vm.callStack ++ [F vm] }) :=
  keepsGlobals_of_globals_eq fun _ => rfl

theorem indexInt_state {σ α : Type} (xs : List α) (k : Int) (s : σ) :
    (indexInt xs k s).state = s := by
  unfold indexInt
  split
  · rfl
  · split <;> rfl

theorem getFrame_state (i : Nat) (s : AuroraVM) : (getFrame i s).state = s := by
  unfold getFrame
  split <;> rfl

/-- The in-place write of `IndexAssign` does not touch the globals. -/
theorem keepsGlobals_indexAssign (ref : Nat) (i : Int) (v : Value) :
    KeepsGlobals (getState >>= fun vm : AuroraVM =>
      indexInt (vm.arrays ref) i >>= fun _ =>
        putState { vm with arrays :=
          (Function.update vm.arrays ref ((vm.arrays ref).set i.toNat v)) }) := by
  refine keepsGlobals_of_globals_eq fun s => ?_
  simp only [Exec.bind_apply, getState_apply]
  have hst := indexInt_state (s.arrays ref) i s
  cases h : indexInt (s.arrays ref) i s with
  | ok a s1 => rfl
  | panic p s1 =>
    rw [h] at hst
    simp only [Res.state] at hst ⊢
    rw [hst]

/-- The case `OpReturn` of `Step` does not touch the globals. -/
theorem keepsGlobals_returnCase :
    KeepsGlobals (getState >>= fun vm : AuroraVM =>
      getFrame (vm.callStack.length - 1) >>= fun popped =>
        putState { vm with callStack := vm.callStack.take (vm.callStack.length - 1) } >>=
          fun _ => readByte >>= fun r => getState >>= fun vm' : AuroraVM =>
            storeReg popped.dest (Value.pointer (vm'.registers r))) := by
  intro s
  have hrest : ∀ d, KeepsGlobals (readByte >>= fun r => getState >>= fun vm' : AuroraVM =>
      storeReg d (Value.pointer (vm'.registers r))) := fun d =>
    keepsGlobals_bind keepsGlobals_readByte fun r =>
      keepsGlobals_bind keepsGlobals_getState fun vm' => keepsGlobals_storeReg _ _
  simp only [Exec.bind_apply, getState_apply]
  have hst := getFrame_state (s.callStack.length - 1) s
  cases h : getFrame (s.callStack.length - 1) s with
  | ok popped s1 =>
    simp only [putState_apply]
    have h1 : GlobalsKept s
        { s with callStack := s.callStack.take (s.callStack.length - 1) } :=
      globalsKept_of_eq rfl
    have h2 := hrest popped.dest
      { s with callStack := s.callStack.take (s.callStack.length - 1) }
    exact globalsKept_trans h1 h2
  | panic p s1 =>
    rw [h] at hst
    simp only [Res.state] at hst ⊢
    rw [hst]
    exact globalsKept_refl s

/-- No `Step` removes a slot from the globals table. -/
theorem keepsGlobals_Step : KeepsGlobals Step := by
  unfold Aurora.Step
  refine keepsGlobals_bind keepsGlobals_topFrame fun frame => ?_
  refine keepsGlobals_bind keepsGlobals_readByte fun instruction => ?_
  repeat' first
    | with_reducible apply keepsGlobals_ite
    | with_reducible exact keepsGlobals_pure _
    | with_reducible exact keepsGlobals_raise _
    | with_reducible exact keepsGlobals_readByte
    | with_reducible exact keepsGlobals_readShort
    | with_reducible exact keepsGlobals_readConstant
    | with_reducible exact keepsGlobals_loadReg _
    | with_reducible exact keepsGlobals_storeReg _ _
    | with_reducible exact keepsGlobals_pointReg _ _
    | with_reducible exact keepsGlobals_asFloat64 _
    | with_reducible exact keepsGlobals_asBool _
    | with_reducible exact keepsGlobals_asInt _
    | with_reducible exact keepsGlobals_asFunction _
    | with_reducible exact keepsGlobals_anyEq _ _
    | with_reducible exact keepsGlobals_addPc _ _
    | with_reducible exact keepsGlobals_getFrame _
    | with_reducible exact keepsGlobals_setFrame _ _
    | with_reducible exact keepsGlobals_indexInt _ _
    | with_reducible exact keepsGlobals_floatBinary _
    | with_reducible exact keepsGlobals_floatInPlace _
    | with_reducible exact keepsGlobals_setGlobal _ _
    | with_reducible exact keepsGlobals_pushFrame _
    | with_reducible exact keepsGlobals_indexAssign _ _ _
    | with_reducible exact keepsGlobals_returnCase
    | with_reducible exact keepsGlobals_getState
    | with_reducible apply keepsGlobals_bind
    | split
    | intro _


/-- C19: on `[StoreGlobal, src, g]` with register `src` initialised, `Step` completes and
sets `globals[g]` to the value held in register `src`; every other global slot, every
register (the pointers and the variables they point to) and the call-stack depth are
unchanged. And no `Step`, of any opcode and whether it returns or panics, removes a slot
from the globals table. -/
theorem StoreGlobal_sets_one_slot (vm : AuroraVM) (rest : List CallFrame) (f : CallFrame)
    (ch : Chunk Value) (src g addr : Nat)
    (hs : vm.callStack = rest ++ [f]) (hb : f.function.body = some ch) (hpc : 0 ≤ f.pc)
    (hcode : (ch.code.drop f.pc.toNat).take 3 = [OpStoreGlobal, src, g])
    (hreg : vm.registers src = some addr) :
    (loadReg src vm).value = some (vm.heap addr) ∧
    (∃ s' : AuroraVM, Step vm = Res.ok () s' ∧
      s'.globals (g : Int) = some (vm.heap addr) ∧
      (∀ k : Int, k ≠ (g : Int) → s'.globals k = vm.globals k) ∧
      s'.registers = vm.registers ∧ s'.heap = vm.heap ∧
      s'.callStack.length = vm.callStack.length) ∧
    (∀ (m : AuroraVM) (k : Int), m.globals k ≠ none → (Step m).state.globals k ≠ none) := by
  refine ⟨?_, ⟨_, Step_StoreGlobal_apply vm rest f ch src g addr hs hb hpc hcode hreg,
    ?_, ?_, rfl, rfl, ?_⟩, fun m k hk => keepsGlobals_Step m k hk⟩
  · simp [loadReg, hreg, Res.value]
  · simp
  · intro k hk
    simp [Function.update_noteq hk]
  · simp [hs]

theorem StoreGlobal_sets_one_slot_witness :
    (loadReg 1 (machineAt [OpStoreGlobal, 1, 4] 0 [(1, Value.bool true)])).value =
      some ((machineAt [OpStoreGlobal, 1, 4] 0 [(1, Value.bool true)]).heap 0) ∧
    (∃ s' : AuroraVM,
      Step (machineAt [OpStoreGlobal, 1, 4] 0 [(1, Value.bool true)]) = Res.ok () s' ∧
      s'.globals ((4 : Nat) : Int) =
        some ((machineAt [OpStoreGlobal, 1, 4] 0 [(1, Value.bool true)]).heap 0) ∧
      (∀ k : Int, k ≠ ((4 : Nat) : Int) →
        s'.globals k = (machineAt [OpStoreGlobal, 1, 4] 0 [(1, Value.bool true)]).globals k) ∧
      s'.registers = (machineAt [OpStoreGlobal, 1, 4] 0 [(1, Value.bool true)]).registers ∧
      s'.heap = (machineAt [OpStoreGlobal, 1, 4] 0 [(1, Value.bool true)]).heap ∧
      s'.callStack.length =
        (machineAt [OpStoreGlobal, 1, 4] 0 [(1, Value.bool true)]).callStack.length) ∧
    (∀ (m : AuroraVM) (k : Int), m.globals k ≠ none → (Step m).state.globals k ≠ none) :=
  StoreGlobal_sets_one_slot (machineAt [OpStoreGlobal, 1, 4] 0 [(1, Value.bool true)]) []
    (scriptFrame [OpStoreGlobal, 1, 4] 0)
    { code := [OpStoreGlobal, 1, 4], lines := [], constants := [] } 1 4 0
    rfl rfl (by decide) rfl rfl

end Globals

/-! ## Indexing -/

section Indexing

/-- What `Step` does on an `Index` whose register `a` holds a list and whose register `b`
holds a Number: the type assertion `.(int)` on the index panics. -/
theorem Step_Index_number_panics (vm : AuroraVM) (rest : List CallFrame) (f : CallFrame)
    (ch : Chunk Value) (a b dest addrA addrB ref : Nat) (x : Float)
    (hs : vm.callStack = rest ++ [f]) (hb : f.function.body = some ch) (hpc : 0 ≤ f.pc)
    (hcode : (ch.code.drop f.pc.toNat).take 4 = [OpIndex, a, b, dest])
    (hregA : vm.registers a = some addrA) (hvA : vm.heap addrA = Value.slice ref)
    (hregB : vm.registers b = some addrB) (hvB : vm.heap addrB = Value.float64 x) :
    Step vm = Res.panic Panic.typeAssertion
      { vm with callStack := rest ++ [{ f with pc := f.pc + 4 }] } := by
  obtain ⟨regs, cs, globals, heap, hn, arrs⟩ := vm
  obtain ⟨locals, ffn, pc, fdest, ct⟩ := f
  simp only at hs hb hpc hcode hregA hvA hregB hvB
  subst hs
  have h0 : ch.code[pc.toNat]? = some OpIndex := by
    simpa using lookup_of_window hcode 0 (by decide)
  have h1 : ch.code[(pc + 1).toNat]? = some a := by
    rw [show (pc + 1).toNat = pc.toNat + 1 by omega]
    simpa using lookup_of_window hcode 1 (by decide)
  have h2 : ch.code[(pc + 1 + 1).toNat]? = some b := by
    rw [show (pc + 1 + 1).toNat = pc.toNat + 2 by omega]
    simpa using lookup_of_window hcode 2 (by decide)
  have h3 : ch.code[(pc + 1 + 1 + 1).toNat]? = some dest := by
    rw [show (pc + 1 + 1 + 1).toNat = pc.toNat + 3 by omega]
    simpa using lookup_of_window hcode 3 (by decide)
  have n0 : ¬ (pc < 0) := by omega
  have n1 : ¬ (pc + 1 < 0) := by omega
  have n2 : ¬ (pc + 1 + 1 < 0) := by omega
  have n3 : ¬ (pc + 1 + 1 + 1 < 0) := by omega
  have e4 : pc + 1 + 1 + 1 + 1 = pc + 4 := by omega
  simp only [Step, Exec.bind_apply, topFrame_mk,
    readByte_mk regs rest locals ffn _ fdest ct globals heap hn arrs ch hb,
    n0, n1, n2, n3, h0, h1, h2, h3, if_false, e4, loadReg, hregA, hvA, hregB, hvB, asInt,
    raise_apply,
    OpLoad, OpStore, OpStoreGlobal, OpAdd, OpAddTo, OpSub, OpSubFrom, OpMul, OpDiv,
    OpMod, OpNeg, OpNot, OpEqual, OpNotEqual, OpLess, OpLessEqual, OpGreater, OpGreaterEqual,
    OpJump, OpJumpIfFalse, OpJumpIfTrue, OpJumpIfEqual, OpJumpIfNotEqual, OpLoop, OpCall,
    OpReturn, OpIndex, Nat.reduceEqDiff, reduceIte]

/-- C20, evaluated on the code: with the list `{1, 2, 3}` in register 1 and the Number 0 in
register 2, `Step` on `[Index, 1, 2, 3]` panics on the type assertion `.(int)`; the index is
accepted only when register 2 holds a Go `int`, which no Number is, and then register 3
receives element 0. -/
theorem Index_by_number_panics :
    (loadReg 1 (sampleIndexMachine (Value.float64 0))).value = some (Value.slice 0) ∧
    (sampleIndexMachine (Value.float64 0)).arrays 0 =
      [Value.float64 1, Value.float64 2, Value.float64 3] ∧
    (loadReg 2 (sampleIndexMachine (Value.float64 0))).value = some (Value.float64 0) ∧
    (Step (sampleIndexMachine (Value.float64 0))).failure = some Panic.typeAssertion ∧
    (Step (sampleIndexMachine (Value.int 0))).failure = none ∧
    (loadReg 3 (Step (sampleIndexMachine (Value.int 0))).state).value =
      some (Value.float64 1) := by
  refine ⟨rfl, rfl, rfl, by decide, by decide, rfl⟩

end Indexing

/-! ## Equality of lists and functions -/

section Equality

/-- What `Step` does on `Equal` and `NotEqual` when the two operand registers hold values on
which Go's `==` panics (two lists, or two functions): the comparison panics before anything
is written. -/
theorem Step_equality_uncomparable (vm : AuroraVM) (rest : List CallFrame) (f : CallFrame)
    (ch : Chunk Value) (op a b dest addrA addrB : Nat)
    (hs : vm.callStack = rest ++ [f]) (hb : f.function.body = some ch) (hpc : 0 ≤ f.pc)
    (hop : op = OpEqual ∨ op = OpNotEqual)
    (hcode : (ch.code.drop f.pc.toNat).take 4 = [op, a, b, dest])
    (hregA : vm.registers a = some addrA) (hregB : vm.registers b = some addrB)
    (hv : (∃ r1 r2, vm.heap addrA = Value.slice r1 ∧ vm.heap addrB = Value.slice r2) ∨
          (∃ f1 f2, vm.heap addrA = Value.function f1 ∧ vm.heap addrB = Value.function f2)) :
    Step vm = Res.panic Panic.uncomparable
      { vm with callStack := rest ++ [{ f with pc := f.pc + 4 }] } := by
  obtain ⟨regs, cs, globals, heap, hn, arrs⟩ := vm
  obtain ⟨locals, ffn, pc, fdest, ct⟩ := f
  simp only at hs hb hpc hcode hregA hregB hv
  subst hs
  have h0 : ch.code[pc.toNat]? = some op := by
    simpa using lookup_of_window hcode 0 (by decide)
  have h1 : ch.code[(pc + 1).toNat]? = some a := by
    rw [show (pc + 1).toNat = pc.toNat + 1 by omega]
    simpa using lookup_of_window hcode 1 (by decide)
  have h2 : ch.code[(pc + 1 + 1).toNat]? = some b := by
    rw [show (pc + 1 + 1).toNat = pc.toNat + 2 by omega]
    simpa using lookup_of_window hcode 2 (by decide)
  have h3 : ch.code[(pc + 1 + 1 + 1).toNat]? = some dest := by
    rw [show (pc + 1 + 1 + 1).toNat = pc.toNat + 3 by omega]
    simpa using lookup_of_window hcode 3 (by decide)
  have n0 : ¬ (pc < 0) := by omega
  have n1 : ¬ (pc + 1 < 0) := by omega
  have n2 : ¬ (pc + 1 + 1 < 0) := by omega
  have n3 : ¬ (pc + 1 + 1 + 1 < 0) := by omega
  have e4 : pc + 1 + 1 + 1 + 1 = pc + 4 := by omega
  rcases hv with ⟨r1, r2, hvA, hvB⟩ | ⟨f1, f2, hvA, hvB⟩ <;> rcases hop with rfl | rfl <;>
  simp only [Step, Exec.bind_apply, topFrame_mk,
    readByte_mk regs rest locals ffn _ fdest ct globals heap hn arrs ch hb,
    n0, n1, n2, n3, h0, h1, h2, h3, if_false, e4, loadReg, hregA, hvA, hregB, hvB, anyEq,
    raise_apply,
    OpLoad, OpStore, OpStoreGlobal, OpAdd, OpAddTo, OpSub, OpSubFrom, OpMul, OpDiv,
    OpMod, OpNeg, OpNot, OpEqual, OpNotEqual, OpLess, OpLessEqual, OpGreater, OpGreaterEqual,
    OpJump, OpJumpIfFalse, OpJumpIfTrue, OpJumpIfEqual, OpJumpIfNotEqual, OpLoop, OpCall,
    OpReturn, OpIndex, Nat.reduceEqDiff, reduceIte]

/-- C21, evaluated on the code: with the same list in registers 1 and 2, `Step` on
`[Equal, 1, 2, 3]` does not complete: Go's `==` on two `any` values that both hold a `[]any`
panics, and register 3 is not written. The same happens for `NotEqual` on two different
lists and for `Equal` on two functions (`AuroraFunction` has a slice field), whereas `Equal`
on two equal Text values completes and writes `true`. -/
theorem Equal_on_lists_panics :
    (loadReg 1 (sampleEqualMachine OpEqual (Value.slice 0) (Value.slice 0))).value =
      some (Value.slice 0) ∧
    (loadReg 2 (sampleEqualMachine OpEqual (Value.slice 0) (Value.slice 0))).value =
      some (Value.slice 0) ∧
    (Step (sampleEqualMachine OpEqual (Value.slice 0) (Value.slice 0))).failure =
      some Panic.uncomparable ∧
    (loadReg 3 (Step (sampleEqualMachine OpEqual (Value.slice 0) (Value.slice 0))).state).value =
      some Value.nil ∧
    (Step (sampleEqualMachine OpNotEqual (Value.slice 0) (Value.slice 1))).failure =
      some Panic.uncomparable ∧
    (Step (sampleEqualMachine OpEqual (Value.function sampleCallee)
      (Value.function sampleCallee))).failure = some Panic.uncomparable ∧
    (Step (sampleEqualMachine OpEqual (Value.string "a") (Value.string "a"))).failure = none ∧
    (loadReg 3 (Step (sampleEqualMachine OpEqual (Value.string "a")
      (Value.string "a"))).state).value = some (Value.bool true) := by
  refine ⟨rfl, rfl, by decide, rfl, by decide, by decide, by decide, rfl⟩

end Equality

/-! ## The line table and the constant pool -/

section Pools

variable {V : Type}

/-- Function `emitConstant` on any chunk: it never fails, and the index byte is the pool
length reduced modulo 256. -/
theorem emitConstant_apply (value : V) (c : Chunk V) :
    emitConstant value c =
      Res.ok () { c with code := c.code ++ [OpLoad, c.constants.length % 256]
                         constants := c.constants ++ [value] } := by
  simp [emitConstant, toByte_natCast, OpLoad]

/-- An emitter call never touches the line table, and when it completes the code has grown
by the call's size. -/
theorem emitCall_run_lines (call : EmitCall V) (c : Chunk V) :
    (call.run c).state.lines = c.lines ∧
    ((call.run c).failure = none →
      (call.run c).state.code.length = c.code.length + call.size) := by
  cases call with
  | emitByte b => simp [EmitCall.run, EmitCall.size, Res.state]
  | emitOp op => simp [EmitCall.run, EmitCall.size, Res.state]
  | emitConstant value =>
    simp [EmitCall.run, EmitCall.size, Res.state, emitConstant_apply]
  | emitJump op => simp [EmitCall.run, EmitCall.size, Res.state, emitJump_apply]
  | emitLoop start =>
    simp only [EmitCall.run, EmitCall.size, emitLoop_apply]
    split <;> simp [Res.state, Res.failure]
  | patchJump offset =>
    simp only [EmitCall.run, EmitCall.size, patchJump_apply]
    split
    · simp [Res.state, Res.failure]
    · split
      · split <;> simp [Res.state, Res.failure]
      · simp [Res.state, Res.failure]

/-- A sequence of emitter calls never touches the line table, and when it completes the code
has grown by the sizes of the calls. -/
theorem runCalls_lines (calls : List (EmitCall V)) (c : Chunk V) :
    (runCalls calls c).state.lines = c.lines ∧
    ((runCalls calls c).failure = none →
      (runCalls calls c).state.code.length = c.code.length + (calls.map EmitCall.size).sum) := by
  induction calls generalizing c with
  | nil => simp [runCalls, Res.state]
  | cons call rest ih =>
    have h := emitCall_run_lines call c
    simp only [runCalls, Exec.bind_apply]
    cases hr : call.run c with
    | ok a c1 =>
      rw [hr] at h
      simp only [Res.state, Res.failure, true_implies] at h
      have ih1 := ih c1
      refine ⟨by rw [ih1.1, h.1], fun hf => ?_⟩
      rw [ih1.2 hf, h.2]
      simp [Nat.add_assoc]
    | panic p c1 =>
      rw [hr] at h
      simp only [Res.state] at h
      simp [Res.state, Res.failure, h.1]

/-- C22, evaluated on the code: after `beginCompile` and one `emitByte` the code holds one
byte and the line table none, so the two lengths differ. -/
theorem emitByte_leaves_lines_empty :
    ((do beginCompile; emitByte 7 : Compile Unit Unit) emptyChunk).failure = none ∧
    ((do beginCompile; emitByte 7 : Compile Unit Unit) emptyChunk).state.code.length = 1 ∧
    ((do beginCompile; emitByte 7 : Compile Unit Unit) emptyChunk).state.lines.length = 0 ∧
    ((do beginCompile; emitByte 7 : Compile Unit Unit) emptyChunk).state.lines.length ≠
      ((do beginCompile; emitByte 7 : Compile Unit Unit) emptyChunk).state.code.length := by
  decide

/-- C22 as amended: no emitter writes the line table. After `beginCompile` followed by any
sequence of `emitByte`, `emitOp`, `emitConstant`, `emitJump`, `emitLoop` and `patchJump`
calls the line table is empty, also when one of the calls panics; when the calls complete,
the code holds one byte per `emitByte` and `emitOp`, two per `emitConstant`, three per
`emitJump` and `emitLoop` and none for `patchJump`. -/
theorem lines_stay_empty (calls : List (EmitCall V)) (c : Chunk V) :
    ((do beginCompile; runCalls calls : Compile V Unit) c).state.lines = [] ∧
    (((do beginCompile; runCalls calls : Compile V Unit) c).failure = none →
      ((do beginCompile; runCalls calls : Compile V Unit) c).state.code.length =
        (calls.map EmitCall.size).sum) := by
  have h := runCalls_lines calls ({ code := [], lines := [], constants := [] } : Chunk V)
  simpa [beginCompile] using h

theorem lines_stay_empty_witness :
    ((do beginCompile; runCalls [EmitCall.emitConstant (), EmitCall.emitJump OpJump,
        EmitCall.patchJump 3] : Compile Unit Unit) emptyChunk).failure = none ∧
    ((do beginCompile; runCalls [EmitCall.emitConstant (), EmitCall.emitJump OpJump,
        EmitCall.patchJump 3] : Compile Unit Unit) emptyChunk).state.lines = [] ∧
    ((do beginCompile; runCalls [EmitCall.emitConstant (), EmitCall.emitJump OpJump,
        EmitCall.patchJump 3] : Compile Unit Unit) emptyChunk).state.code.length = 5 :=
  ⟨by decide,
   (lines_stay_empty [EmitCall.emitConstant (), EmitCall.emitJump OpJump,
        EmitCall.patchJump 3] emptyChunk).1,
   (lines_stay_empty [EmitCall.emitConstant (), EmitCall.emitJump OpJump,
        EmitCall.patchJump 3] emptyChunk).2 (by decide)⟩

/-- C23, evaluated on the code: `emitConstant(true)` on a chunk whose pool already holds 256
values does not fail. It appends a 257th constant and emits the index byte 0, the pool
length 256 truncated to a byte, so `constants[index byte]` is the first value of the pool
(`false`) and not the value passed in, which sits at position 256. -/
theorem emitConstant_wraps_at_256 :
    fullPoolChunk.constants.length = 256 ∧
    (emitConstant true fullPoolChunk).failure = none ∧
    (emitConstant true fullPoolChunk).state.constants.length = 257 ∧
    (emitConstant true fullPoolChunk).state.code = [OpLoad, 0] ∧
    (emitConstant true fullPoolChunk).state.constants[0]? = some false ∧
    (emitConstant true fullPoolChunk).state.constants[256]? = some true := by
  have hc : fullPoolChunk.constants = List.replicate 256 false := rfl
  have hlen : fullPoolChunk.constants.length = 256 := by rw [hc, List.length_replicate]
  rw [emitConstant_apply, hlen]
  refine ⟨rfl, rfl, ?_, rfl, ?_, ?_⟩
  · show (fullPoolChunk.constants ++ [true]).length = 257
    rw [List.length_append, hlen]
    rfl
  · show (fullPoolChunk.constants ++ [true])[0]? = some false
    rw [List.getElem?_append_left (by rw [hlen]; decide), hc, List.getElem?_replicate]
    rfl
  · show (fullPoolChunk.constants ++ [true])[256]? = some true
    rw [List.getElem?_append_right (by rw [hlen]), hlen]
    rfl

/-- C24, evaluated on the code: compiling the literal `Number{1, 1}` into the empty chunk
completes and leaves code and constant pool empty, so the code is not longer afterwards. -/
theorem Number_compile_emits_nothing :
    (compile (Node.Number 1 1) emptyChunk).failure = none ∧
    (compile (Node.Number 1 1) emptyChunk).state.code = [] ∧
    (compile (Node.Number 1 1) emptyChunk).state.constants = [] ∧
    ¬ (emptyChunk.code.length < (compile (Node.Number 1 1) emptyChunk).state.code.length) := by
  refine ⟨rfl, rfl, rfl, ?_⟩
  decide

/-- C24 as amended: the `compile` methods of `Number`, `String` and `Bool` have empty
bodies. Compiling a literal completes and leaves the current chunk exactly as it was:
nothing is appended to the constant pool and no `Load` is emitted. -/
theorem literal_compile_leaves_chunk (c : Chunk V) (x : Float) (s : String) (b : Bool)
    (line : Int) :
    compile (Node.Number x line) c = Res.ok () c ∧
    compile (Node.String s line) c = Res.ok () c ∧
    compile (Node.Bool b line) c = Res.ok () c := by
  simp [compile]

end Pools

/-! ## The lexer -/

section LexerTheorems

theorem lexer_rest_cons (l : Lexer) (c : Char) (tail : List Char) (hpos : 0 ≤ l.pos)
    (h : l.rest = c :: tail) :
    inInput l = Res.ok true l ∧ currentChar l = Res.ok c l ∧
      Lexer.rest { l with pos := l.pos + 1 } = tail := by
  obtain ⟨input, start, pos, line⟩ := l
  simp only [Lexer.rest] at h hpos ⊢
  have hlt : pos.toNat < input.data.length := by
    by_contra hc
    rw [List.drop_eq_nil_of_le (by omega)] at h
    cases h
  have hget : input.data[pos.toNat]? = some c := by
    rw [← List.head?_drop, h]
    rfl
  refine ⟨?_, ?_, ?_⟩
  · have : pos < (input.length : Int) := by
      show pos < ((input.data.length : Nat) : Int)
      omega
    simp [inInput, this]
  · have n0 : ¬ (pos < 0) := by omega
    simp [currentChar, indexInt, n0, hget]
  · rw [show (pos + 1).toNat = pos.toNat + 1 by omega, ← List.drop_drop, h]
    rfl

theorem lexer_rest_nil (l : Lexer) (hpos : 0 ≤ l.pos) (h : l.rest = []) :
    inInput l = Res.ok false l := by
  obtain ⟨input, start, pos, line⟩ := l
  simp only [Lexer.rest] at h hpos ⊢
  have hge : input.data.length ≤ pos.toNat := by
    by_contra hc
    have := List.drop_eq_nil_iff.mp h
    omega
  have : ¬ (pos < (input.length : Int)) := by
    show ¬ (pos < ((input.data.length : Nat) : Int))
    omega
  simp [inInput, this]

theorem nextIs_cons (l : Lexer) (c d : Char) (tail : List Char) (hpos : 0 ≤ l.pos)
    (h : l.rest = d :: tail) : nextIs c l = Res.ok (decide (d = c)) l := by
  have h1 := lexer_rest_cons l d tail hpos h
  simp [nextIs, h1.1, h1.2.1]

theorem nextIs_nil (l : Lexer) (c : Char) (hpos : 0 ≤ l.pos) (h : l.rest = []) :
    nextIs c l = Res.ok false l := by
  have h1 := lexer_rest_nil l hpos h
  simp [nextIs, h1]

/-- One iteration of the loop of `Next` on a blank: the position moves on. -/
theorem nextLoop_blank (l : Lexer) (w : Char) (tail : List Char) (fuel : Nat)
    (hpos : 0 ≤ l.pos) (h : l.rest = w :: tail) (hw : isBlank w) :
    nextLoop (fuel + 1) false l = nextLoop fuel false { l with pos := l.pos + 1 } := by
  have h1 := lexer_rest_cons l w tail hpos h
  have hw1 : w = ' ' ∨ w = '\t' := hw
  simp [nextLoop, h1.1, h1.2.1, hw1, advance]

/-- The loop of `Next` skips a run of blanks. -/
theorem nextLoop_blanks (ws : List Char) (l : Lexer) (more : List Char) (fuel : Nat)
    (hpos : 0 ≤ l.pos) (h : l.rest = ws ++ more) (hws : ∀ w ∈ ws, isBlank w) :
    nextLoop (fuel + ws.length) false l =
      nextLoop fuel false { l with pos := l.pos + ws.length } := by
  induction ws generalizing l with
  | nil => simp
  | cons w ws ih =>
    have h1 := lexer_rest_cons l w (ws ++ more) hpos (by simpa using h)
    rw [show fuel + (w :: ws).length = (fuel + ws.length) + 1 by simp [Nat.add_assoc],
      nextLoop_blank l w (ws ++ more) _ hpos (by simpa using h) (hws w (by simp)),
      ih { l with pos := l.pos + 1 } (by simp; omega) h1.2.2 (fun x hx => hws x (by simp [hx]))]
    congr 2
    simp
    omega

/-- The loop of `Next` at a character that starts no token. -/
theorem nextLoop_no_token (l : Lexer) (c : Char) (tail : List Char) (fuel : Nat)
    (hpos : 0 ≤ l.pos) (h : l.rest = c :: tail) (hc : startsNoToken c) :
    nextLoop (fuel + 2) false l =
      Res.panic (Panic.explicit (unexpectedCharacter c l.line)) l := by
  have h1 := lexer_rest_cons l c tail hpos h
  obtain ⟨hsw, hd, ha⟩ := hc
  simp only [switchChars, List.mem_cons, List.mem_singleton, not_or, List.not_mem_nil,
    not_false_eq_true, and_true] at hsw
  obtain ⟨c1, c2, c3, c4, c5, c6, c7, c8, c9, c10, c11, c12, c13, c14, c15, c16, c17, c18,
    c19, c20⟩ := hsw
  simp [nextLoop, h1.1, h1.2.1, c1, c2, c3, c4, c5, c6, c7, c8, c9, c10, c11, c12, c13, c14,
    c15, c16, c17, c18, c19, c20, hd, ha]

/-- The loop of `Next` at a `!` or `&` that is followed by another character than its
partner: the panic names the character that follows. -/
theorem nextLoop_lone_then (l : Lexer) (c partner d : Char) (tail : List Char) (fuel : Nat)
    (hpos : 0 ≤ l.pos) (h : l.rest = c :: d :: tail) (hc : needsPartner c partner)
    (hd : d ≠ partner) :
    nextLoop (fuel + 2) false l =
      Res.panic (Panic.explicit (unexpectedCharacter d l.line))
        { l with pos := l.pos + 1 } := by
  have h1 := lexer_rest_cons l c (d :: tail) hpos h
  have hpos1 : 0 ≤ ({ l with pos := l.pos + 1 } : Lexer).pos := by
    show 0 ≤ l.pos + 1
    omega
  have h2 := lexer_rest_cons { l with pos := l.pos + 1 } d tail hpos1 h1.2.2
  have h3 := nextIs_cons { l with pos := l.pos + 1 } partner d tail hpos1 h1.2.2
  rcases hc with ⟨rfl, rfl⟩ | ⟨rfl, rfl⟩
  · simp [nextLoop, h1.1, h1.2.1, advance, h2.1, h2.2.1, h3, hd]
  · simp [nextLoop, h1.1, h1.2.1, advance, h2.1, h2.2.1, h3, hd]

/-- The loop of `Next` at a `!` or `&` that is the last character of the input: the loop
ends with `hadError` set and `Next` returns the `EofTok` token. -/
theorem nextLoop_lone_last (l : Lexer) (c partner : Char) (fuel : Nat)
    (hpos : 0 ≤ l.pos) (h : l.rest = [c]) (hc : needsPartner c partner) :
    nextLoop (fuel + 2) false l =
      Res.ok { Typ := TokenType.EofTok, Value := "", Line := l.line }
        { l with pos := l.pos + 1 } := by
  have h1 := lexer_rest_cons l c [] hpos h
  have hpos1 : 0 ≤ ({ l with pos := l.pos + 1 } : Lexer).pos := by
    show 0 ≤ l.pos + 1
    omega
  have h2 := lexer_rest_nil { l with pos := l.pos + 1 } hpos1 h1.2.2
  have h3 := nextIs_nil { l with pos := l.pos + 1 } partner hpos1 h1.2.2
  rcases hc with ⟨rfl, rfl⟩ | ⟨rfl, rfl⟩
  · simp [nextLoop, h1.1, h1.2.1, advance, h2, h3, tokenHere]
  · simp [nextLoop, h1.1, h1.2.1, advance, h2, h3, tokenHere]

/-- The loop of `Next` at the end of the input. -/
theorem nextLoop_at_end (l : Lexer) (fuel : Nat) (hpos : 0 ≤ l.pos) (h : l.rest = []) :
    nextLoop (fuel + 1) false l =
      Res.ok { Typ := TokenType.EofTok, Value := "", Line := l.line } l := by
  have h1 := lexer_rest_nil l hpos h
  simp [nextLoop, h1, tokenHere]

theorem rest_length_le (l : Lexer) :
    l.rest.length ≤ l.input.length := by
  simp only [Lexer.rest, List.length_drop]
  show l.input.data.length - l.pos.toNat ≤ l.input.data.length
  omega

theorem keywords_lookup_ne_eof (s : String) (t : TokenType)
    (h : keywords.lookup s = some t) : t ≠ TokenType.EofTok := by
  simp only [keywords, List.lookup] at h
  repeat' split at h
  all_goals (cases h <;> decide)

theorem returnsNoEof_tokenHere (typ : TokenType) (value : String)
    (h : typ ≠ TokenType.EofTok) : ReturnsNoEof (tokenHere typ value) := by
  intro l tok l' hr
  cases hr
  exact h

theorem returnsNoEof_pure (tok : Token) (h : tok.Typ ≠ TokenType.EofTok) :
    ReturnsNoEof (pure tok) := by
  intro l tok' l' hr
  cases hr
  exact h

theorem returnsNoEof_bind {α : Type} (m : Lex α) (f : α → Lex Token)
    (h : ∀ a, ReturnsNoEof (f a)) : ReturnsNoEof (m >>= f) := by
  intro l tok l' hr
  rw [Exec.bind_apply] at hr
  cases hm : m l with
  | ok a l1 =>
    rw [hm] at hr
    exact h a l1 tok l' hr
  | panic p l1 =>
    rw [hm] at hr
    cases hr

theorem returnsNoEof_ite (c : Prop) [Decidable c] (a b : Lex Token)
    (ha : ReturnsNoEof a) (hb : ReturnsNoEof b) : ReturnsNoEof (if c then a else b) := by
  split
  · exact ha
  · exact hb

theorem returnsNoEof_oneOrTwo (second : Char) (two : TokenType) (twoValue : String)
    (one : TokenType) (oneValue : String) (h2 : two ≠ TokenType.EofTok)
    (h1 : one ≠ TokenType.EofTok) :
    ReturnsNoEof (oneOrTwo second two twoValue one oneValue) := by
  unfold oneOrTwo
  refine returnsNoEof_bind _ _ (fun _ => returnsNoEof_bind _ _ (fun b => ?_))
  refine returnsNoEof_ite _ _ _ (returnsNoEof_bind _ _ (fun _ => ?_)) ?_
  · exact returnsNoEof_tokenHere _ _ h2
  · exact returnsNoEof_tokenHere _ _ h1

theorem returnsNoEof_keyword (ident : String) :
    ReturnsNoEof (match keywords.lookup ident with
      | some tok => tokenHere tok ident
      | none => tokenHere TokenType.IdTok ident) := by
  split
  · rename_i tok heq
    exact returnsNoEof_tokenHere _ _ (keywords_lookup_ne_eof ident tok heq)
  · exact returnsNoEof_tokenHere _ _ (by decide)

theorem returnsNoEofAt_of_all (l : Lexer) (m : Lex Token) (h : ReturnsNoEof m) :
    ReturnsNoEofAt l m := fun tok l' hr => h l tok l' hr

theorem returnsNoEofAt_oneOrTwo (l : Lexer) (second : Char) (two : TokenType)
    (twoValue : String) (one : TokenType) (oneValue : String) (h2 : two ≠ TokenType.EofTok)
    (h1 : one ≠ TokenType.EofTok) :
    ReturnsNoEofAt l (oneOrTwo second two twoValue one oneValue) :=
  returnsNoEofAt_of_all l _ (returnsNoEof_oneOrTwo second two twoValue one oneValue h2 h1)

theorem returnsNoEofAt_ite (l : Lexer) (c : Prop) [Decidable c] (a b : Lex Token)
    (ha : ReturnsNoEofAt l a) (hb : ReturnsNoEofAt l b) :
    ReturnsNoEofAt l (if c then a else b) := by
  split
  · exact ha
  · exact hb

theorem returnsNoEofAt_panic (l : Lexer) (m : Lex Token) (p : Panic) (s : Lexer)
    (h : m l = Res.panic p s) : ReturnsNoEofAt l m := by
  intro tok l' hr
  rw [h] at hr
  cases hr

/-- The loop of `Next` with `hadError` set, at a character: it panics. -/
theorem nextLoop_hadError (l : Lexer) (c : Char) (tail : List Char) (fuel : Nat)
    (hpos : 0 ≤ l.pos) (h : l.rest = c :: tail) :
    nextLoop (fuel + 1) true l =
      Res.panic (Panic.explicit (unexpectedCharacter c l.line)) l := by
  have h1 := lexer_rest_cons l c tail hpos h
  simp [nextLoop, h1.1, h1.2.1]

theorem nextLoop_eof (l : Lexer) (c : Char) (tail : List Char) (fuel : Nat)
    (hpos : 0 ≤ l.pos) (h : l.rest = c :: tail) (hnb : ¬ isBlank c) (tok : Token) (l' : Lexer)
    (hr : nextLoop (fuel + 2) false l = Res.ok tok l') (ht : tok.Typ = TokenType.EofTok) :
    tail = [] ∧ (c = '!' ∨ c = '&') := by
  have h1 := lexer_rest_cons l c tail hpos h
  have hnb1 : ¬ (c = ' ' ∨ c = '\t') := hnb
  by_cases hbang : c = '!' ∨ c = '&'
  · refine ⟨?_, hbang⟩
    cases tail with
    | nil => rfl
    | cons d tail =>
      exfalso
      have hp : ∃ partner, needsPartner c partner := by
        rcases hbang with rfl | rfl
        · exact ⟨'=', Or.inl ⟨rfl, rfl⟩⟩
        · exact ⟨'&', Or.inr ⟨rfl, rfl⟩⟩
      obtain ⟨partner, hp⟩ := hp
      by_cases hd : d = partner
      · have hpos1 : 0 ≤ ({ l with pos := l.pos + 1 } : Lexer).pos := by
          show 0 ≤ l.pos + 1
          omega
        have h3 := nextIs_cons { l with pos := l.pos + 1 } partner d tail hpos1 h1.2.2
        rcases hp with ⟨rfl, rfl⟩ | ⟨rfl, rfl⟩
        · simp [nextLoop, h1.1, h1.2.1, advance, h3, hd, tokenHere] at hr
          rw [← hr.1] at ht
          cases ht
        · simp [nextLoop, h1.1, h1.2.1, advance, h3, hd, tokenHere] at hr
          rw [← hr.1] at ht
          cases ht
      · rw [nextLoop_lone_then l c partner d tail fuel hpos h hp hd] at hr
        cases hr
  · exfalso
    have hb1 : c ≠ '!' := fun e => hbang (Or.inl e)
    have hb2 : c ≠ '&' := fun e => hbang (Or.inr e)
    rw [nextLoop] at hr
    rw [Exec.bind_apply, h1.1] at hr
    simp only [if_true] at hr
    rw [Exec.bind_apply, h1.2.1] at hr
    simp only [] at hr
    rw [Exec.bind_apply, getState_apply] at hr
    simp only [Bool.false_eq_true, if_false, hnb1, hb1, hb2] at hr
    refine absurd ht ((?_ : ReturnsNoEofAt l _) tok l' hr)
    have hbad := returnsNoEofAt_panic l _ _ _ (nextLoop_hadError l c tail fuel hpos h)
    repeat' first
      | exact hbad
      | exact returnsNoEof_keyword _
      | with_reducible exact returnsNoEof_tokenHere _ _ (by decide)
      | with_reducible exact returnsNoEof_pure _ (fun e => by cases e)
      | with_reducible exact returnsNoEofAt_of_all _ _ (returnsNoEof_keyword _)
      | with_reducible exact returnsNoEofAt_of_all _ _ (returnsNoEof_tokenHere _ _ (by decide))
      | with_reducible exact returnsNoEofAt_of_all _ _ (returnsNoEof_pure _ (by decide))
      | with_reducible exact returnsNoEofAt_oneOrTwo _ _ _ _ _ _ (by decide) (by decide)
      | with_reducible apply returnsNoEofAt_ite
      | with_reducible apply returnsNoEofAt_of_all
      | with_reducible apply returnsNoEof_ite
      | (with_reducible apply returnsNoEof_bind; intro _)

theorem split_blanks (r : List Char) :
    ∃ ws more, r = ws ++ more ∧ (∀ w ∈ ws, isBlank w) ∧
      (more = [] ∨ ∃ c t, more = c :: t ∧ ¬ isBlank c) := by
  induction r with
  | nil => exact ⟨[], [], rfl, by simp, Or.inl rfl⟩
  | cons a r ih =>
    by_cases ha : isBlank a
    · obtain ⟨ws, more, h1, h2, h3⟩ := ih
      refine ⟨a :: ws, more, by simp [h1], ?_, h3⟩
      intro w hw
      rcases List.mem_cons.mp hw with rfl | hw
      · exact ha
      · exact h2 w hw
    · exact ⟨[], a :: r, rfl, by simp, Or.inr ⟨a, r, rfl, ha⟩⟩

/-- `Next` after a run of blanks: the loop continues at the first character after them with
at least two iterations left. -/
theorem Next_after_blanks (l : Lexer) (ws more : List Char) (c : Char) (hpos : 0 ≤ l.pos)
    (h : l.rest = ws ++ c :: more) (hws : ∀ w ∈ ws, isBlank w) :
    ∃ fuel, Lexer.Next l = nextLoop (fuel + 2) false { l with pos := l.pos + ws.length } := by
  have hlen := rest_length_le l
  rw [h] at hlen
  simp only [List.length_append, List.length_cons] at hlen
  refine ⟨l.input.length - ws.length, ?_⟩
  have e : l.input.length + 2 = (l.input.length - ws.length + 2) + ws.length := by omega
  show nextLoop (l.input.length + 2) false l = _
  rw [e, nextLoop_blanks ws l (c :: more) _ hpos h hws]

theorem rest_after_blanks (l : Lexer) (ws more : List Char) (hpos : 0 ≤ l.pos)
    (h : l.rest = ws ++ more) :
    Lexer.rest { l with pos := l.pos + ws.length } = more := by
  simp only [Lexer.rest] at h ⊢
  rw [show (l.pos + (ws.length : Int)).toNat = l.pos.toNat + ws.length by omega,
    ← List.drop_drop, h, List.drop_left]

/-- C26: `Next` rejects a character that starts no token with an `Unexpected character`
failure in every case but one. Started anywhere in its input, after any run of blanks:
a character without a case in the `switch` that is no digit, letter or underscore makes
`Next` panic with that message; a `!` not followed by `=`, or a `&` not followed by `&`,
that has a character after it makes `Next` panic too (the message names the character that
follows); but when that `!` or `&` is the last character of the input, `Next` returns the
`EofTok` token without failing. That is the only exception: whenever `Next` returns `EofTok`,
the rest of the input was blanks only, or blanks and one final `!` or `&`. -/
theorem Next_drops_only_a_final_lone_character (l : Lexer) (hpos : 0 ≤ l.pos) :
    (∀ (ws : List Char) (c : Char) (tail : List Char), (∀ w ∈ ws, isBlank w) →
      startsNoToken c → l.rest = ws ++ c :: tail →
      Lexer.Next l = Res.panic (Panic.explicit (unexpectedCharacter c l.line))
        { l with pos := l.pos + ws.length }) ∧
    (∀ (ws : List Char) (c partner d : Char) (tail : List Char), (∀ w ∈ ws, isBlank w) →
      needsPartner c partner → d ≠ partner → l.rest = ws ++ c :: d :: tail →
      Lexer.Next l = Res.panic (Panic.explicit (unexpectedCharacter d l.line))
        { l with pos := l.pos + ws.length + 1 }) ∧
    (∀ (ws : List Char) (c partner : Char), (∀ w ∈ ws, isBlank w) →
      needsPartner c partner → l.rest = ws ++ [c] →
      Lexer.Next l = Res.ok { Typ := TokenType.EofTok, Value := "", Line := l.line }
        { l with pos := l.pos + ws.length + 1 }) ∧
    (∀ (tok : Token) (l' : Lexer), Lexer.Next l = Res.ok tok l' → tok.Typ = TokenType.EofTok →
      ∃ ws : List Char, (∀ w ∈ ws, isBlank w) ∧
        (l.rest = ws ∨ ∃ c partner, needsPartner c partner ∧ l.rest = ws ++ [c])) := by
  refine ⟨?_, ?_, ?_, ?_⟩
  · intro ws c tail hws hc h
    obtain ⟨fuel, e⟩ := Next_after_blanks l ws tail c hpos h hws
    rw [e]
    exact nextLoop_no_token _ c tail fuel (by show 0 ≤ l.pos + (ws.length : Int); omega)
      (rest_after_blanks l ws _ hpos h) hc
  · intro ws c partner d tail hws hc hd h
    obtain ⟨fuel, e⟩ := Next_after_blanks l ws (d :: tail) c hpos h hws
    rw [e]
    exact nextLoop_lone_then _ c partner d tail fuel
      (by show 0 ≤ l.pos + (ws.length : Int); omega) (rest_after_blanks l ws _ hpos h) hc hd
  · intro ws c partner hws hc h
    obtain ⟨fuel, e⟩ := Next_after_blanks l ws [] c hpos h hws
    rw [e]
    exact nextLoop_lone_last _ c partner fuel
      (by show 0 ≤ l.pos + (ws.length : Int); omega) (rest_after_blanks l ws _ hpos h) hc
  · intro tok l' hr ht
    obtain ⟨ws, more, h, hws, hmore⟩ := split_blanks l.rest
    refine ⟨ws, hws, ?_⟩
    rcases hmore with rfl | ⟨c, tail, rfl, hc⟩
    · left
      simpa using h
    · right
      obtain ⟨fuel, e⟩ := Next_after_blanks l ws tail c hpos h hws
      rw [e] at hr
      have key := nextLoop_eof _ c tail fuel (by show 0 ≤ l.pos + (ws.length : Int); omega)
        (rest_after_blanks l ws _ hpos h) hc tok l' hr ht
      obtain ⟨rfl, hc2⟩ := key
      rcases hc2 with rfl | rfl
      · exact ⟨'!', '=', Or.inl ⟨rfl, rfl⟩, h⟩
      · exact ⟨'&', '&', Or.inr ⟨rfl, rfl⟩, h⟩

theorem Next_drops_only_a_final_lone_character_witness :
    0 ≤ (NewLexer " #").pos ∧
    Lexer.Next (NewLexer " #") =
      Res.panic (Panic.explicit "Unexpected character # at line 1")
        { NewLexer " #" with pos := 1 } ∧
    Lexer.Next (NewLexer " &") =
      Res.ok { Typ := TokenType.EofTok, Value := "", Line := 1 } { NewLexer " &" with pos := 2 } :=
  ⟨by decide,
   (Next_drops_only_a_final_lone_character (NewLexer " #") (by decide)).1 [' '] '#' []
     (by intro w hw; simp at hw; subst hw; exact Or.inl rfl)
     ⟨by decide, by decide, by decide⟩ rfl,
   (Next_drops_only_a_final_lone_character (NewLexer " &") (by decide)).2.2.1 [' '] '&' '&'
     (by intro w hw; simp at hw; subst hw; exact Or.inl rfl)
     (Or.inr ⟨rfl, rfl⟩) rfl⟩


end LexerTheorems

/-! ## The parser: precedence and associativity of operators -/

section ParserTheorems

theorem peekNext_apply (p : Parser) : Parser.peekNext p = Res.ok p.current.Typ p := rfl

theorem eat_current (ext : Externals) (p : Parser) (tok : Token) (l : Lexer) (t : TokenType)
    (h : Lexer.Next p.lexer = Res.ok tok l) (ht : p.current.Typ = t) :
    Parser.eat ext t p = Res.ok p.current { lexer := l, current := tok } := by
  simp [Parser.eat, ht, nextToken, h]

theorem eat_of_reads (ext : Externals) (p q : Parser) (t : Token) (ts : List Token)
    (h : Reads p (t :: ts) q) :
    ∃ m, Parser.eat ext t.Typ p = Res.ok t m ∧ Reads m ts q := by
  obtain ⟨hc, tok, l, hn, hr⟩ := h
  refine ⟨{ lexer := l, current := tok }, ?_, hr⟩
  rw [eat_current ext p tok l t.Typ hn (by rw [hc]), hc]

theorem tokenLevel_le (t : TokenType) : tokenLevel t ≤ 6 := by
  cases t <;> decide

theorem takeWhile_weaken {α : Type} (P Q : α → Bool) (hPQ : ∀ x, P x = true → Q x = true)
    (l : List α) :
    l.takeWhile Q = l.takeWhile P ++ (l.dropWhile P).takeWhile Q ∧
    l.dropWhile Q = (l.dropWhile P).dropWhile Q := by
  induction l with
  | nil => simp
  | cons a l ih =>
    by_cases hp : P a = true
    · have hq := hPQ a hp
      simp [List.takeWhile_cons, List.dropWhile_cons, hp, hq, ih.1, ih.2]
    · simp [List.takeWhile_cons, List.dropWhile_cons, hp]

theorem takeWhile_none {α : Type} (P : α → Bool) (l : List α) (h : ∀ x ∈ l, P x = false) :
    l.takeWhile P = [] ∧ l.dropWhile P = l := by
  cases l with
  | nil => simp
  | cons a l => simp [List.takeWhile_cons, List.dropWhile_cons, h a (by simp)]

theorem atomNode_isOperand (ext : Externals) (a : Token) : IsOperandNode (atomNode ext a) := by
  unfold atomNode IsOperandNode
  split <;> simp [inorder, rootLevel, Nested]

theorem unaryNode_isOperand (u : Token) (n : Node) (h : IsOperandNode n) :
    IsOperandNode (unaryNode u n) := by
  unfold unaryNode
  split
  · simp [IsOperandNode, inorder, rootLevel, Nested]
  · exact h

theorem operandNode_isOperand (ext : Externals) (o : Operand) :
    IsOperandNode (operandNode ext o) := by
  unfold operandNode
  induction o.unaries with
  | nil => exact atomNode_isOperand ext o.atom
  | cons u us ih => exact unaryNode_isOperand u _ ih

/-- The current token type of a parser that has an operator-operand sequence and then an
ending token in front of it neither is `(` nor `:`. -/
theorem reads_next_continues (m q : Parser) (pairs : List (Token × Operand))
    (hw : WellFormedPairs pairs) (hr : Reads m (tokensOf pairs) q)
    (hq : endsExpression q.current.Typ) :
    m.current.Typ ≠ TokenType.LparenTok ∧ m.current.Typ ≠ TokenType.ColonTok := by
  cases pairs with
  | nil =>
    have e : m = q := hr
    rw [e]
    exact ⟨hq.2.1, hq.2.2⟩
  | cons pr rest =>
    have hc : m.current = pr.1 := hr.1
    have hb := (hw pr (by simp)).1
    rw [hc]
    constructor
    · intro e
      rw [e] at hb
      exact hb rfl
    · intro e
      rw [e] at hb
      exact hb rfl

theorem unaryOp_cases (t : TokenType) (h : unaryOp t ≠ none) :
    t = TokenType.MinusTok ∨ t = TokenType.NotTok := by
  cases t <;> first | exact Or.inl rfl | exact Or.inr rfl | exact absurd rfl h

/-- Method `unary` on unary minus and `not` tokens in front of a literal or identifier: it
takes them all and wraps the literal's node in one `Unary` node per token, the first token
outermost. -/
theorem unary_takes_operand (ext : Externals) (expression : Parse Node) (fuel : Nat)
    (atom : Token) (ts : List Token) (q : Parser) (hatom : isAtom atom.Typ = true)
    (hnext : ∀ m : Parser, Reads m ts q →
      m.current.Typ ≠ TokenType.LparenTok ∧ m.current.Typ ≠ TokenType.ColonTok) :
    ∀ (us : List Token) (n : Nat) (p : Parser),
      (∀ u ∈ us, unaryOp u.Typ ≠ none) → us.length < n →
      Reads p (us ++ atom :: ts) q →
      ∃ m : Parser, Parser.unary ext expression (fuel + 1) n p =
          Res.ok (us.foldr unaryNode (atomNode ext atom)) m ∧ Reads m ts q := by
  intro us
  induction us with
  | nil =>
    intro n p _ hn hr
    obtain ⟨n, rfl⟩ : ∃ k, n = k + 1 := ⟨n - 1, by simp at hn; omega⟩
    obtain ⟨m, he, hm⟩ := eat_of_reads ext p q atom ts hr
    have hcur : p.current = atom := hr.1
    obtain ⟨c1, c2⟩ := hnext m hm
    refine ⟨m, ?_, hm⟩
    simp only [isAtom, Bool.or_eq_true, decide_eq_true_eq] at hatom
    rcases hatom with (((ha | ha) | ha) | ha) | ha <;>
    · rw [ha] at he
      simp [Parser.unary, Parser.call, Parser.primary, peekNext_apply, hcur, ha, he, callLoop,
        c1, c2, atomNode]
  | cons u us ih =>
    intro n p hu hn hr
    obtain ⟨n, rfl⟩ : ∃ k, n = k + 1 := ⟨n - 1, by simp at hn; omega⟩
    have hr' : Reads p (u :: (us ++ atom :: ts)) q := hr
    obtain ⟨m1, he, hm1⟩ := eat_of_reads ext p q u (us ++ atom :: ts) hr'
    have hcur : p.current = u := hr'.1
    obtain ⟨m, hm, hrm⟩ := ih n m1 (fun x hx => hu x (by simp [hx]))
      (by simp only [List.length_cons] at hn; omega) hm1
    refine ⟨m, ?_, hrm⟩
    rcases unaryOp_cases u.Typ (hu u (by simp)) with ht | ht
    · rw [ht] at he
      simp [Parser.unary, peekNext_apply, hcur, ht, he, hm, unaryNode, unaryOp]
    · rw [ht] at he
      simp [Parser.unary, peekNext_apply, hcur, ht, he, hm, unaryNode, unaryOp]

/-- Method `unary` parses the tightest level: one operand with its unary operators. -/
theorem unary_parses_operand (ext : Externals) (expression : Parse Node) (fuel n bound : Nat)
    (hn : bound ≤ n) :
    ParsesLevel ext 7 bound (Parser.unary ext expression (fuel + 1) n) := by
  intro p q a pairs ha hw hlen hr hq
  have hnone : ∀ pr ∈ pairs, decide (7 ≤ tokenLevel pr.1.Typ) = false := by
    intro pr _
    have := tokenLevel_le pr.1.Typ
    simp
    omega
  obtain ⟨h1, h2⟩ := takeWhile_none
    (fun pr : Token × Operand => decide (7 ≤ tokenLevel pr.1.Typ)) pairs hnone
  obtain ⟨f1, f2, f3⟩ := operandNode_isOperand ext a
  have hr' : Reads p (a.unaries ++ a.atom :: tokensOf pairs) q := by
    simpa [Operand.tokens] using hr
  have hl : a.unaries.length < n := by
    simp only [Operand.tokens, List.length_append, List.length_cons, List.length_nil] at hlen
    omega
  obtain ⟨m, hm, hrm⟩ := unary_takes_operand ext expression fuel a.atom (tokensOf pairs) q ha.2
    (fun m hm => reads_next_continues m q pairs hw hm hq) a.unaries n p ha.1 hl hr'
  refine ⟨operandNode ext a, m, hm, ?_, ?_, f3, by rw [f2]⟩
  · rw [h2]
    exact hrm
  · rw [h1, f1]
    rfl

theorem itemsOf_append (ext : Externals) (xs ys : List (Token × Operand)) :
    itemsOf ext (xs ++ ys) = itemsOf ext xs ++ itemsOf ext ys := by
  induction xs with
  | nil => rfl
  | cons pr xs ih =>
    simp only [List.cons_append, itemsOf]
    split <;> simp [ih]

theorem dropWhile_head_false {α : Type} (P : α → Bool) (l : List α) (x : α) (xs : List α)
    (h : l.dropWhile P = x :: xs) : P x = false := by
  induction l with
  | nil => simp at h
  | cons a l ih =>
    by_cases hp : P a = true
    · rw [List.dropWhile_cons_of_pos hp] at h
      exact ih h
    · rw [List.dropWhile_cons_of_neg hp] at h
      cases h
      simpa using hp

theorem wellFormedPairs_dropWhile (P : Token × Operand → Bool) (l : List (Token × Operand))
    (h : WellFormedPairs l) : WellFormedPairs (l.dropWhile P) :=
  fun pr hpr => h pr (List.dropWhile_subset P hpr)

theorem tokensOf_dropWhile_length (P : Token × Operand → Bool) (l : List (Token × Operand)) :
    (tokensOf (l.dropWhile P)).length ≤ (tokensOf l).length := by
  induction l with
  | nil => simp
  | cons a l ih =>
    by_cases hp : P a = true
    · rw [List.dropWhile_cons_of_pos hp]
      simp only [tokensOf, List.length_cons, List.length_append]
      omega
    · rw [List.dropWhile_cons_of_neg hp]

theorem tokenLevel_of_binaryOp (t : TokenType) (op : OperatorType) (h : binaryOp t = some op) :
    tokenLevel t = precedence op := by
  simp [tokenLevel, h]

/-- The loop of a binary level. -/
theorem binLoop_spec (ext : Externals) (k bound : Nat) (sub : Parse Node)
    (hsub : ParsesLevel ext (k + 1) bound sub) :
    ∀ (n : Nat) (rem : List (Token × Operand)) (m q : Parser) (e : Node),
      (tokensOf rem).length < n → (tokensOf rem).length ≤ bound → WellFormedPairs rem →
      Reads m (tokensOf rem) q → endsExpression q.current.Typ →
      (∀ pr rest, rem = pr :: rest → tokenLevel pr.1.Typ ≤ k) →
      Nested e → k ≤ rootLevel e →
      ∃ (t : Node) (m' : Parser), binLoop ext (levelOp k) sub n e m = Res.ok t m' ∧
        Reads m' (tokensOf (rem.dropWhile (fun pr => decide (k ≤ tokenLevel pr.1.Typ)))) q ∧
        inorder t = inorder e ++
          itemsOf ext (rem.takeWhile (fun pr => decide (k ≤ tokenLevel pr.1.Typ))) ∧
        Nested t ∧ k ≤ rootLevel t := by
  intro n
  induction n with
  | zero => intro rem m q e hn; omega
  | succ n ih =>
    intro rem m q e hn hb hw hr hq hfirst hne hle
    cases rem with
    | nil =>
      have em : m = q := hr
      subst em
      refine ⟨e, m, ?_, rfl, by simp [itemsOf], hne, hle⟩
      simp [binLoop, peekNext_apply, levelOp, hq.1]
    | cons pr rest =>
      have hcur : m.current = pr.1 := hr.1
      obtain ⟨hbin, hopd⟩ := hw pr (by simp)
      obtain ⟨op, hop⟩ := Option.ne_none_iff_exists'.mp hbin
      have hlvl := tokenLevel_of_binaryOp _ _ hop
      have hf := hfirst pr rest rfl
      rw [hlvl] at hf
      simp only [tokensOf, List.length_cons, List.length_append] at hn hb
      by_cases hk : precedence op = k
      · obtain ⟨m1, he, hm1⟩ := eat_of_reads ext m q pr.1 (pr.2.tokens ++ tokensOf rest) hr
        have hwrest : WellFormedPairs rest := fun x hx => hw x (by simp [hx])
        have hlen : (pr.2.tokens ++ tokensOf rest).length < bound := by
          simp only [List.length_append]
          omega
        obtain ⟨r, m2, hs, hm2, hir, hnr, hlr⟩ := hsub m1 q pr.2 rest hopd hwrest hlen hm1 hq
        have hne' : Nested (Node.Binary e r op pr.1.Line) := by
          simp only [Nested]
          exact ⟨by omega, by omega, hne, hnr⟩
        have hfirst' : ∀ x xs,
            rest.dropWhile (fun pr => decide (k + 1 ≤ tokenLevel pr.1.Typ)) = x :: xs →
            tokenLevel x.1.Typ ≤ k := by
          intro x xs hx
          have := dropWhile_head_false _ _ _ _ hx
          simp at this
          omega
        have hdl := tokensOf_dropWhile_length
          (fun pr : Token × Operand => decide (k + 1 ≤ tokenLevel pr.1.Typ)) rest
        obtain ⟨t, m', ht, hm', hit, hnt, hlt⟩ :=
          ih (rest.dropWhile (fun pr => decide (k + 1 ≤ tokenLevel pr.1.Typ))) m2 q
            (Node.Binary e r op pr.1.Line) (by omega) (by omega)
            (wellFormedPairs_dropWhile _ _ hwrest) hm2 hq hfirst' hne'
            (by simp only [rootLevel]; omega)
        obtain ⟨w1, w2⟩ := takeWhile_weaken
          (fun pr : Token × Operand => decide (k + 1 ≤ tokenLevel pr.1.Typ))
          (fun pr : Token × Operand => decide (k ≤ tokenLevel pr.1.Typ))
          (by intro x hx; simp at hx ⊢; omega) rest
        have hq1 : k ≤ tokenLevel pr.1.Typ := by omega
        have d1 : (pr :: rest).dropWhile (fun pr => decide (k ≤ tokenLevel pr.1.Typ)) =
            rest.dropWhile (fun pr => decide (k ≤ tokenLevel pr.1.Typ)) := by
          simp [List.dropWhile_cons, hq1]
        have d2 : (pr :: rest).takeWhile (fun pr => decide (k ≤ tokenLevel pr.1.Typ)) =
            pr :: rest.takeWhile (fun pr => decide (k ≤ tokenLevel pr.1.Typ)) := by
          simp [List.takeWhile_cons, hq1]
        refine ⟨t, m', ?_, ?_, ?_, hnt, hlt⟩
        · have hlo : levelOp k pr.1.Typ = some op := by simp [levelOp, hop, hk]
          simp only [binLoop, Exec.bind_apply, peekNext_apply, hcur, hlo, he, hs]
          exact ht
        · rw [d1, w2]
          exact hm'
        · rw [hit, d2, w1]
          simp only [inorder, hir, itemsOf, hop, itemsOf_append, List.append_assoc,
            List.cons_append, List.nil_append]
      · have hq1 : ¬ (k ≤ tokenLevel pr.1.Typ) := by omega
        have d1 : (pr :: rest).dropWhile (fun pr => decide (k ≤ tokenLevel pr.1.Typ)) =
            pr :: rest := by
          simp [List.dropWhile_cons, hq1]
        have d2 : (pr :: rest).takeWhile (fun pr => decide (k ≤ tokenLevel pr.1.Typ)) = [] := by
          simp [List.takeWhile_cons, hq1]
        refine ⟨e, m, ?_, ?_, ?_, hne, hle⟩
        · have hlo : levelOp k pr.1.Typ = none := by simp [levelOp, hop, hk]
          simp [binLoop, peekNext_apply, hcur, hlo]
        · rw [d1]
          exact hr
        · rw [d2]
          simp [itemsOf]

/-- A binary level made of a tighter level and the loop. -/
theorem level_of_loop (ext : Externals) (k bound n : Nat) (sub : Parse Node)
    (hsub : ParsesLevel ext (k + 1) bound sub) (hn : bound ≤ n) :
    ParsesLevel ext k bound
      (do
        let expr ← sub
        binLoop ext (levelOp k) sub n expr) := by
  intro p q a pairs ha hw hlen hr hq
  obtain ⟨e, m, hs, hm, hie, hne, hle⟩ := hsub p q a pairs ha hw hlen hr hq
  have hfirst : ∀ x xs,
      pairs.dropWhile (fun pr => decide (k + 1 ≤ tokenLevel pr.1.Typ)) = x :: xs →
      tokenLevel x.1.Typ ≤ k := by
    intro x xs hx
    have := dropWhile_head_false _ _ _ _ hx
    simp at this
    omega
  have hl := tokensOf_dropWhile_length (fun pr : Token × Operand =>
    decide (k + 1 ≤ tokenLevel pr.1.Typ)) pairs
  simp only [List.length_append] at hlen
  obtain ⟨t, m', ht, hm', hit, hnt, hlt⟩ :=
    binLoop_spec ext k bound sub hsub n
      (pairs.dropWhile (fun pr => decide (k + 1 ≤ tokenLevel pr.1.Typ))) m q e
      (by omega) (by omega) (wellFormedPairs_dropWhile _ _ hw) hm hq hfirst hne (by omega)
  obtain ⟨w1, w2⟩ := takeWhile_weaken
    (fun pr : Token × Operand => decide (k + 1 ≤ tokenLevel pr.1.Typ))
    (fun pr : Token × Operand => decide (k ≤ tokenLevel pr.1.Typ))
    (by intro x hx; simp at hx ⊢; omega) pairs
  refine ⟨t, m', ?_, ?_, ?_, hnt, hlt⟩
  · simp only [Exec.bind_apply, hs]
    exact ht
  · rw [w2]
    exact hm'
  · rw [hit, hie, w1, itemsOf_append]
    rfl

theorem factorLoop_eq (ext : Externals) (expression : Parse Node) (fuel n : Nat) :
    factorLoop ext expression fuel n =
      binLoop ext (levelOp 6) (Parser.unary ext expression fuel fuel) n := by
  induction n with
  | zero => rfl
  | succ n ih =>
    funext e p
    simp only [factorLoop, binLoop, Exec.bind_apply, peekNext_apply, ih]
    cases h : p.current.Typ <;> simp [levelOp, binaryOp, precedence]

theorem termLoop_eq (ext : Externals) (expression : Parse Node) (fuel n : Nat) :
    termLoop ext expression fuel n =
      binLoop ext (levelOp 5) (Parser.factor ext expression fuel) n := by
  induction n with
  | zero => rfl
  | succ n ih =>
    funext e p
    simp only [termLoop, binLoop, Exec.bind_apply, peekNext_apply, ih]
    cases h : p.current.Typ <;> simp [levelOp, binaryOp, precedence]

theorem comparisonLoop_eq (ext : Externals) (expression : Parse Node) (fuel n : Nat) :
    comparisonLoop ext expression fuel n =
      binLoop ext (levelOp 4) (Parser.term ext expression fuel) n := by
  induction n with
  | zero => rfl
  | succ n ih =>
    funext e p
    simp only [comparisonLoop, binLoop, Exec.bind_apply, peekNext_apply, ih]
    cases h : p.current.Typ <;> simp [levelOp, binaryOp, precedence]

theorem equalityLoop_eq (ext : Externals) (expression : Parse Node) (fuel n : Nat) :
    equalityLoop ext expression fuel n =
      binLoop ext (levelOp 3) (Parser.comparison ext expression fuel) n := by
  induction n with
  | zero => rfl
  | succ n ih =>
    funext e p
    simp only [equalityLoop, binLoop, Exec.bind_apply, peekNext_apply, ih]
    cases h : p.current.Typ <;> simp [levelOp, binaryOp, precedence]

theorem andLoop_eq (ext : Externals) (expression : Parse Node) (fuel n : Nat) :
    andLoop ext expression fuel n =
      binLoop ext (levelOp 2) (Parser.equality ext expression fuel) n := by
  induction n with
  | zero => rfl
  | succ n ih =>
    funext e p
    simp only [andLoop, binLoop, Exec.bind_apply, peekNext_apply, ih]
    cases h : p.current.Typ <;> simp [levelOp, binaryOp, precedence]

theorem orLoop_eq (ext : Externals) (expression : Parse Node) (fuel n : Nat) :
    orLoop ext expression fuel n =
      binLoop ext (levelOp 1) (Parser.and ext expression fuel) n := by
  induction n with
  | zero => rfl
  | succ n ih =>
    funext e p
    simp only [orLoop, binLoop, Exec.bind_apply, peekNext_apply, ih]
    cases h : p.current.Typ <;> simp [levelOp, binaryOp, precedence]

/-- Method `or` parses the loosest level: it takes the whole sequence. -/
theorem or_parses (ext : Externals) (expression : Parse Node) (fuel : Nat) :
    ParsesLevel ext 1 (fuel + 1) (Parser.or ext expression (fuel + 1)) := by
  have h7 : ParsesLevel ext 7 (fuel + 1) (Parser.unary ext expression (fuel + 1) (fuel + 1)) :=
    unary_parses_operand ext expression fuel (fuel + 1) (fuel + 1) (Nat.le_refl _)
  have h6 : ParsesLevel ext 6 (fuel + 1) (Parser.factor ext expression (fuel + 1)) := by
    have := level_of_loop ext 6 (fuel + 1) (fuel + 1) _ h7 (Nat.le_refl _)
    rw [← factorLoop_eq] at this
    exact this
  have h5 : ParsesLevel ext 5 (fuel + 1) (Parser.term ext expression (fuel + 1)) := by
    have := level_of_loop ext 5 (fuel + 1) (fuel + 1) _ h6 (Nat.le_refl _)
    rw [← termLoop_eq] at this
    exact this
  have h4 : ParsesLevel ext 4 (fuel + 1) (Parser.comparison ext expression (fuel + 1)) := by
    have := level_of_loop ext 4 (fuel + 1) (fuel + 1) _ h5 (Nat.le_refl _)
    rw [← comparisonLoop_eq] at this
    exact this
  have h3 : ParsesLevel ext 3 (fuel + 1) (Parser.equality ext expression (fuel + 1)) := by
    have := level_of_loop ext 3 (fuel + 1) (fuel + 1) _ h4 (Nat.le_refl _)
    rw [← equalityLoop_eq] at this
    exact this
  have h2 : ParsesLevel ext 2 (fuel + 1) (Parser.and ext expression (fuel + 1)) := by
    have := level_of_loop ext 2 (fuel + 1) (fuel + 1) _ h3 (Nat.le_refl _)
    rw [← andLoop_eq] at this
    exact this
  have := level_of_loop ext 1 (fuel + 1) (fuel + 1) _ h2 (Nat.le_refl _)
  rw [← orLoop_eq] at this
  exact this

theorem inorder_cases (t : Node) :
    (∃ l r op line, t = Node.Binary l r op line) ∨
      (inorder t = [Item.operand t] ∧ rootLevel t = 7) := by
  cases t <;> simp [inorder, rootLevel]

theorem inorder_length_pos (t : Node) : 0 < (inorder t).length := by
  cases t <;> simp [inorder]

/-- In a nested tree no operator binds looser than the root. -/
theorem nested_operator_level : ∀ (n : Nat) (t : Node), (inorder t).length ≤ n → Nested t →
    ∀ (op : OperatorType) (line : Int), Item.operator op line ∈ inorder t →
      rootLevel t ≤ precedence op := by
  intro n
  induction n with
  | zero =>
    intro t hn
    have := inorder_length_pos t
    omega
  | succ n ih =>
    intro t hn hnest op line hmem
    rcases inorder_cases t with ⟨l, r, op0, line0, rfl⟩ | ⟨h1, _⟩
    · simp only [inorder, List.length_append, List.length_cons] at hn
      simp only [Nested] at hnest
      obtain ⟨n1, n2, n3, n4⟩ := hnest
      have hl := inorder_length_pos l
      have hr := inorder_length_pos r
      simp only [inorder, List.mem_append, List.mem_cons] at hmem
      simp only [rootLevel]
      rcases hmem with hm | hm | hm
      · have := ih l (by omega) n3 op line hm
        omega
      · cases hm
        exact Nat.le_refl _
      · have := ih r (by omega) n4 op line hm
        omega
    · rw [h1] at hmem
      simp at hmem

/-- A nested tree is determined by its operands and operators from left to right. -/
theorem nested_unique : ∀ (n : Nat) (t1 t2 : Node), (inorder t1).length ≤ n →
    inorder t1 = inorder t2 → Nested t1 → Nested t2 → t1 = t2 := by
  intro n
  induction n with
  | zero =>
    intro t1 t2 hn
    have := inorder_length_pos t1
    omega
  | succ n ih =>
    intro t1 t2 hn heq hn1 hn2
    rcases inorder_cases t1 with ⟨l1, r1, op1, line1, rfl⟩ | ⟨h1, _⟩
    · rcases inorder_cases t2 with ⟨l2, r2, op2, line2, rfl⟩ | ⟨h2, _⟩
      · simp only [inorder, List.length_append, List.length_cons] at hn
        have hl1 := inorder_length_pos l1
        have hr1 := inorder_length_pos r1
        simp only [Nested] at hn1 hn2
        obtain ⟨a1, a2, a3, a4⟩ := hn1
        obtain ⟨b1, b2, b3, b4⟩ := hn2
        simp only [inorder] at heq
        rcases List.append_eq_append_iff.mp heq with ⟨a', e1, e2⟩ | ⟨c', e1, e2⟩
        · cases a' with
          | nil =>
            simp only [List.append_nil, List.nil_append, List.cons.injEq, Item.operator.injEq]
              at e1 e2
            obtain ⟨⟨rfl, rfl⟩, e3⟩ := e2
            have el := ih l1 l2 (by omega) e1.symm a3 b3
            have er := ih r1 r2 (by omega) e3 a4 b4
            rw [el, er]
          | cons x a'' =>
            exfalso
            simp only [List.cons_append, List.cons.injEq] at e2
            obtain ⟨rfl, e3⟩ := e2
            have m1 : Item.operator op1 line1 ∈ inorder l2 := by
              rw [e1]
              simp
            have m2 : Item.operator op2 line2 ∈ inorder r1 := by
              rw [e3]
              simp
            have k1 := nested_operator_level _ l2 (Nat.le_refl _) b3 op1 line1 m1
            have k2 := nested_operator_level _ r1 (Nat.le_refl _) a4 op2 line2 m2
            omega
        · cases c' with
          | nil =>
            simp only [List.append_nil, List.nil_append, List.cons.injEq, Item.operator.injEq]
              at e1 e2
            obtain ⟨⟨rfl, rfl⟩, e3⟩ := e2
            have el := ih l1 l2 (by omega) e1 a3 b3
            have er := ih r1 r2 (by omega) e3.symm a4 b4
            rw [el, er]
          | cons x c'' =>
            exfalso
            simp only [List.cons_append, List.cons.injEq] at e2
            obtain ⟨rfl, e3⟩ := e2
            have m1 : Item.operator op2 line2 ∈ inorder l1 := by
              rw [e1]
              simp
            have m2 : Item.operator op1 line1 ∈ inorder r2 := by
              rw [e3]
              simp
            have k1 := nested_operator_level _ l1 (Nat.le_refl _) a3 op2 line2 m1
            have k2 := nested_operator_level _ r2 (Nat.le_refl _) b4 op1 line1 m2
            omega
      · exfalso
        have := congrArg List.length heq
        rw [h2] at this
        simp only [inorder, List.length_append, List.length_cons, List.length_nil] at this
        have := inorder_length_pos l1
        omega
    · rcases inorder_cases t2 with ⟨l2, r2, op2, line2, rfl⟩ | ⟨h2, _⟩
      · exfalso
        have := congrArg List.length heq
        rw [h1] at this
        simp only [inorder, List.length_append, List.length_cons, List.length_nil] at this
        have := inorder_length_pos l2
        omega
      · rw [h1, h2] at heq
        simpa using heq

theorem precedence_pos (t : TokenType) (h : binaryOp t ≠ none) : 1 ≤ tokenLevel t := by
  cases t <;> first | decide | exact absurd rfl h

theorem takeWhile_all {α : Type} (P : α → Bool) (l : List α) (h : ∀ x ∈ l, P x = true) :
    l.takeWhile P = l ∧ l.dropWhile P = [] := by
  induction l with
  | nil => simp
  | cons a l ih =>
    have ha := h a (by simp)
    have := ih (fun x hx => h x (by simp [hx]))
    simp [List.takeWhile_cons, List.dropWhile_cons, ha, this.1, this.2]

theorem reads_cons (p q : Parser) (t tok : Token) (l : Lexer) (ts : List Token)
    (h1 : p.current = t) (h2 : Lexer.Next p.lexer = Res.ok tok l)
    (h3 : Reads { lexer := l, current := tok } ts q) : Reads p (t :: ts) q :=
  ⟨h1, tok, l, h2, h3⟩

/-- The nested tree with given operands and operators is what `expression` returns. -/
theorem expression_returns_nested (ext : Externals) (p q : Parser) (a : Operand)
    (pairs : List (Token × Operand)) (fuel : Nat) (tree : Node)
    (ha : WellFormedOperand a) (hw : WellFormedPairs pairs)
    (hr : Reads p (a.tokens ++ tokensOf pairs) q) (hq : endsExpression q.current.Typ)
    (hfuel : (a.tokens ++ tokensOf pairs).length + 2 ≤ fuel)
    (hin : inorder tree = Item.operand (operandNode ext a) :: itemsOf ext pairs)
    (hnest : Nested tree) :
    Parser.expression ext fuel p = Res.ok tree q := by
  obtain ⟨f, rfl⟩ : ∃ f, fuel = f + 2 := ⟨fuel - 2, by omega⟩
  obtain ⟨t, m, ht, hm, hit, hnt, _⟩ :=
    or_parses ext (Parser.expression ext (f + 1)) f p q a pairs ha hw (by omega) hr hq
  obtain ⟨w1, w2⟩ := takeWhile_all (fun pr : Token × Operand => decide (1 ≤ tokenLevel pr.1.Typ))
    pairs (fun pr hpr => by simpa using precedence_pos pr.1.Typ (hw pr hpr).1)
  rw [w2] at hm
  rw [w1] at hit
  have em : m = q := hm
  subst em
  rw [nested_unique _ tree t (Nat.le_refl _) (by rw [hin, hit]) hnest hnt]
  exact ht

theorem wellFormedOperand_atom1 (typ : TokenType) (value : String) (h : isAtom typ = true) :
    WellFormedOperand (atom1 typ value) :=
  ⟨fun u hu => by simp [atom1] at hu, h⟩

theorem wellFormedPairs_two (o1 o2 : Token) (b1 b2 : Operand)
    (h1 : binaryOp o1.Typ ≠ none) (h2 : WellFormedOperand b1)
    (h3 : binaryOp o2.Typ ≠ none) (h4 : WellFormedOperand b2) :
    WellFormedPairs [(o1, b1), (o2, b2)] := by
  intro pr hpr
  simp only [List.mem_cons, List.mem_singleton, List.not_mem_nil, or_false] at hpr
  rcases hpr with rfl | rfl
  · exact ⟨h1, h2⟩
  · exact ⟨h3, h4⟩

theorem wellFormedPairs_sumProduct : WellFormedPairs sumProductPairs :=
  wellFormedPairs_two _ _ _ _ (by decide) (wellFormedOperand_atom1 _ _ rfl) (by decide)
    (wellFormedOperand_atom1 _ _ rfl)

theorem wellFormedOperand_signedFirst : WellFormedOperand signedFirst := by
  refine ⟨fun u hu => ?_, rfl⟩
  simp only [signedFirst, List.mem_singleton] at hu
  subst hu
  decide

theorem wellFormedPairs_signed : WellFormedPairs signedPairs := by
  refine wellFormedPairs_two _ _ _ _ (by decide) ⟨fun u hu => ?_, rfl⟩ (by decide)
    (wellFormedOperand_atom1 _ _ rfl)
  simp only [List.mem_singleton] at hu
  subst hu
  decide

theorem parserOn_sum_product :
    parserOn "1 + 2 * 3" = { lexer := lexerAt "1 + 2 * 3" 1, current := tok1 .NumberTok "1" } := by
  decide

theorem reads_sum_product :
    Reads (parserOn "1 + 2 * 3") ((atom1 .NumberTok "1").tokens ++ tokensOf sumProductPairs)
      sumProductEnd := by
  rw [parserOn_sum_product]
  refine reads_cons _ _ (tok1 .NumberTok "1") (tok1 .PlusTok "+") (lexerAt "1 + 2 * 3" 3) _
    rfl rfl ?_
  refine reads_cons _ _ _ (tok1 .NumberTok "2") (lexerAt "1 + 2 * 3" 5) _ rfl rfl ?_
  refine reads_cons _ _ _ (tok1 .StarTok "*") (lexerAt "1 + 2 * 3" 7) _ rfl rfl ?_
  refine reads_cons _ _ _ (tok1 .NumberTok "3") (lexerAt "1 + 2 * 3" 9) _ rfl rfl ?_
  refine reads_cons _ _ _ (tok1 .EofTok "") (lexerAt "1 + 2 * 3" 9) _ rfl rfl ?_
  rfl

theorem parserOn_differences :
    parserOn "1 - 2 - 3" = { lexer := lexerAt "1 - 2 - 3" 1, current := tok1 .NumberTok "1" } := by
  decide

theorem reads_differences :
    Reads (parserOn "1 - 2 - 3")
      ((atom1 .NumberTok "1").tokens ++ tokensOf [(tok1 .MinusTok "-", atom1 .NumberTok "2"),
        (tok1 .MinusTok "-", atom1 .NumberTok "3")])
      { lexer := lexerAt "1 - 2 - 3" 9, current := tok1 .EofTok "" } := by
  rw [parserOn_differences]
  refine reads_cons _ _ (tok1 .NumberTok "1") (tok1 .MinusTok "-") (lexerAt "1 - 2 - 3" 3) _
    rfl rfl ?_
  refine reads_cons _ _ _ (tok1 .NumberTok "2") (lexerAt "1 - 2 - 3" 5) _ rfl rfl ?_
  refine reads_cons _ _ _ (tok1 .MinusTok "-") (lexerAt "1 - 2 - 3" 7) _ rfl rfl ?_
  refine reads_cons _ _ _ (tok1 .NumberTok "3") (lexerAt "1 - 2 - 3" 9) _ rfl rfl ?_
  refine reads_cons _ _ _ (tok1 .EofTok "") (lexerAt "1 - 2 - 3" 9) _ rfl rfl ?_
  rfl

theorem parserOn_signed :
    parserOn "-1 + not 2 * 3" =
      { lexer := lexerAt "-1 + not 2 * 3" 1, current := tok1 .MinusTok "-" } := by
  decide

theorem reads_signed :
    Reads (parserOn "-1 + not 2 * 3") (signedFirst.tokens ++ tokensOf signedPairs) signedEnd := by
  rw [parserOn_signed]
  refine reads_cons _ _ (tok1 .MinusTok "-") (tok1 .NumberTok "1")
    (lexerAt "-1 + not 2 * 3" 2) _ rfl rfl ?_
  refine reads_cons _ _ _ (tok1 .PlusTok "+") (lexerAt "-1 + not 2 * 3" 4) _ rfl rfl ?_
  refine reads_cons _ _ _ (tok1 .NotTok "not") (lexerAt "-1 + not 2 * 3" 8) _ rfl rfl ?_
  refine reads_cons _ _ _ (tok1 .NumberTok "2") (lexerAt "-1 + not 2 * 3" 10) _ rfl rfl ?_
  refine reads_cons _ _ _ (tok1 .StarTok "*") (lexerAt "-1 + not 2 * 3" 12) _ rfl rfl ?_
  refine reads_cons _ _ _ (tok1 .NumberTok "3") (lexerAt "-1 + not 2 * 3" 14) _ rfl rfl ?_
  refine reads_cons _ _ _ (tok1 .EofTok "") (lexerAt "-1 + not 2 * 3" 14) _ rfl rfl ?_
  rfl

/-- The text `1 - 2 - 3` parses to `Binary(Binary(1, Minus, 2), Minus, 3)`. -/
theorem expression_of_differences (ext : Externals) :
    Parser.expression ext 7 (parserOn "1 - 2 - 3") =
      Res.ok (Node.Binary
          (Node.Binary (Node.Number (ext.ParseFloat "1") 1) (Node.Number (ext.ParseFloat "2") 1)
            .Minus 1)
          (Node.Number (ext.ParseFloat "3") 1) .Minus 1)
        { lexer := lexerAt "1 - 2 - 3" 9, current := tok1 .EofTok "" } :=
  expression_returns_nested ext _ _ (atom1 .NumberTok "1")
    [(tok1 .MinusTok "-", atom1 .NumberTok "2"), (tok1 .MinusTok "-", atom1 .NumberTok "3")] 7 _
    (wellFormedOperand_atom1 _ _ rfl)
    (wellFormedPairs_two _ _ _ _ (by decide) (wellFormedOperand_atom1 _ _ rfl) (by decide)
      (wellFormedOperand_atom1 _ _ rfl))
    reads_differences ⟨rfl, by decide, by decide⟩ (by decide) rfl
    (by simp [Nested, rootLevel, precedence])

/-- The text `1 + 2 * 3` parses to `Binary(1, Plus, Binary(2, Multiply, 3))`. -/
theorem expression_of_sum_product (ext : Externals) :
    Parser.expression ext 7 (parserOn "1 + 2 * 3") =
      Res.ok (Node.Binary (Node.Number (ext.ParseFloat "1") 1)
          (Node.Binary (Node.Number (ext.ParseFloat "2") 1) (Node.Number (ext.ParseFloat "3") 1)
            .Multiply 1)
          .Plus 1) sumProductEnd :=
  expression_returns_nested ext _ _ (atom1 .NumberTok "1") sumProductPairs 7 _
    (wellFormedOperand_atom1 _ _ rfl) wellFormedPairs_sumProduct
    reads_sum_product ⟨rfl, by decide, by decide⟩ (by decide) rfl
    (by simp [Nested, rootLevel, precedence])

/-- Unary minus and `not` bind tighter than the binary operators around them: the text
`-1 + not 2 * 3` parses to `Binary(Unary(Minus, 1), Plus, Binary(Unary(Not, 2), Multiply, 3))`. -/
theorem expression_of_signed (ext : Externals) :
    Parser.expression ext 9 (parserOn "-1 + not 2 * 3") =
      Res.ok (Node.Binary (Node.Unary (Node.Number (ext.ParseFloat "1") 1) .Minus 1)
          (Node.Binary (Node.Unary (Node.Number (ext.ParseFloat "2") 1) .Not 1)
            (Node.Number (ext.ParseFloat "3") 1) .Multiply 1)
          .Plus 1) signedEnd :=
  expression_returns_nested ext _ _ signedFirst signedPairs 9 _
    wellFormedOperand_signedFirst wellFormedPairs_signed
    reads_signed ⟨rfl, by decide, by decide⟩ (by decide) rfl
    (by simp [Nested, rootLevel, precedence])


/-- C25: on every token sequence `e0 op1 e1 ... opn en` of operands and binary operators,
followed by a token that ends the expression, `Parser.expression` with enough fuel returns a
tree and leaves the parser at that token. An operand is a literal or identifier, with any
number of unary minus and `not` tokens in front of it. The tree has exactly these operands
and operators from left to right. Unary minus and `not` bind tighter than every binary
operator: each operand is one subtree, its literal wrapped in one `Unary` node per unary
token, the first outermost. The binary operators bind by precedence level (`* / %` tighter
than `+ -`, tighter than `< <= > >=`, tighter than `== !=`, tighter than `and`, tighter
than `or`) and operators of the same level nest to the left: at each `Binary` the left
subtree's root binds at least as tightly and the right subtree's root strictly tighter. It
is the only tree with these properties. -/
theorem expression_binds_by_precedence (ext : Externals) (p q : Parser) (a : Operand)
    (pairs : List (Token × Operand)) (fuel : Nat)
    (ha : WellFormedOperand a) (hw : WellFormedPairs pairs)
    (hr : Reads p (a.tokens ++ tokensOf pairs) q) (hq : endsExpression q.current.Typ)
    (hfuel : (a.tokens ++ tokensOf pairs).length + 2 ≤ fuel) :
    ∃ t : Node, Parser.expression ext fuel p = Res.ok t q ∧
      inorder t = Item.operand (operandNode ext a) :: itemsOf ext pairs ∧ Nested t ∧
      ∀ t' : Node, inorder t' = Item.operand (operandNode ext a) :: itemsOf ext pairs →
        Nested t' → t' = t := by
  obtain ⟨f, rfl⟩ : ∃ f, fuel = f + 2 := ⟨fuel - 2, by omega⟩
  obtain ⟨t, m, ht, hm, hit, hnt, _⟩ :=
    or_parses ext (Parser.expression ext (f + 1)) f p q a pairs ha hw (by omega) hr hq
  obtain ⟨w1, w2⟩ := takeWhile_all (fun pr : Token × Operand => decide (1 ≤ tokenLevel pr.1.Typ))
    pairs (fun pr hpr => by simpa using precedence_pos pr.1.Typ (hw pr hpr).1)
  rw [w2] at hm
  rw [w1] at hit
  have em : m = q := hm
  subst em
  refine ⟨t, ht, hit, hnt, ?_⟩
  intro t' hit' hnt'
  exact nested_unique _ t' t (Nat.le_refl _) (by rw [hit', hit]) hnt' hnt

/-- C25 on the text `-1 + not 2 * 3`, with the trees of the texts `1 - 2 - 3`, `1 + 2 * 3`
and `-1 + not 2 * 3`. -/
theorem expression_binds_by_precedence_witness :
    WellFormedOperand signedFirst ∧ WellFormedPairs signedPairs ∧
    Reads (parserOn "-1 + not 2 * 3") (signedFirst.tokens ++ tokensOf signedPairs) signedEnd ∧
    endsExpression signedEnd.current.Typ ∧
    (signedFirst.tokens ++ tokensOf signedPairs).length + 2 ≤ 9 ∧
    (∃ t : Node, Parser.expression sampleExternals 9 (parserOn "-1 + not 2 * 3") =
        Res.ok t signedEnd ∧
      inorder t = Item.operand (operandNode sampleExternals signedFirst) ::
        itemsOf sampleExternals signedPairs ∧ Nested t ∧
      ∀ t' : Node, inorder t' = Item.operand (operandNode sampleExternals signedFirst) ::
        itemsOf sampleExternals signedPairs → Nested t' → t' = t) ∧
    Parser.expression sampleExternals 9 (parserOn "-1 + not 2 * 3") =
      Res.ok (Node.Binary (Node.Unary (Node.Number (decimalValue "1") 1) .Minus 1)
          (Node.Binary (Node.Unary (Node.Number (decimalValue "2") 1) .Not 1)
            (Node.Number (decimalValue "3") 1) .Multiply 1)
          .Plus 1) signedEnd ∧
    Parser.expression sampleExternals 7 (parserOn "1 + 2 * 3") =
      Res.ok (Node.Binary (Node.Number (decimalValue "1") 1)
          (Node.Binary (Node.Number (decimalValue "2") 1) (Node.Number (decimalValue "3") 1)
            .Multiply 1)
          .Plus 1) sumProductEnd ∧
    Parser.expression sampleExternals 7 (parserOn "1 - 2 - 3") =
      Res.ok (Node.Binary
          (Node.Binary (Node.Number (decimalValue "1") 1) (Node.Number (decimalValue "2") 1)
            .Minus 1)
          (Node.Number (decimalValue "3") 1) .Minus 1)
        { lexer := lexerAt "1 - 2 - 3" 9, current := tok1 .EofTok "" } :=
  ⟨wellFormedOperand_signedFirst, wellFormedPairs_signed, reads_signed,
    ⟨rfl, by decide, by decide⟩, by decide,
    expression_binds_by_precedence sampleExternals (parserOn "-1 + not 2 * 3") signedEnd
      signedFirst signedPairs 9 wellFormedOperand_signedFirst wellFormedPairs_signed
      reads_signed ⟨rfl, by decide, by decide⟩ (by decide),
    expression_of_signed sampleExternals, expression_of_sum_product sampleExternals,
    expression_of_differences sampleExternals⟩

end ParserTheorems

end Aurora

